import Mathlib

/-!
Verification development for the weighted randomised Kruskal maze generator
and its BFS solver (repository: A-Level-Computer-Science-NEA).

The main embedded script is `src/maze_solver_bfs.py`; the older duplicate
`src/weighted_kruskal_maze.py` is embedded where the claims compare the two.
Python dictionaries holding walls are modelled as records stored in a list
indexed by the same `(y*W + x)*2 + orientation` formula the scripts use;
mutation of a shared dict becomes an update of the list entry, and queue
entries hold the wall's index.  The `random` module is modelled as an
explicit stream `rng : ℕ → ℚ` of draws in `[0,1)` together with a cursor.
Floating point weights `2.0 ** (w * 0.5)` are modelled exactly as elements
`a + b * sqrt 2` of `ℚ[sqrt 2]`.
-/

set_option maxHeartbeats 1000000

namespace MazeNEA

/-- One wall record, mirroring the Python dict
`{'x': x, 'y': y, 'dr': dr, 'typ': typ, 'clr': clr}` of
`maze_solver_bfs.py` (`dr = True` is a horizontal wall separating `(x,y)`
from `(x+1,y)`; `clr` is the removed flag). -/
structure Wall where
  wx : ℕ
  wy : ℕ
  dr : Bool
  typ : ℕ
  clr : Bool
deriving DecidableEq, Repr

/-- Truthiness-plus-removed test `w and w['clr']` used on an optional wall. -/
def isClr : Option Wall → Bool
  | some w => w.clr
  | none => false

/-- Embedding of `get_wall_end_type` (maze_solver_bfs.py lines 151-170);
`getWallEndType` in weighted_kruskal_maze.py lines 120-131 is literally the
same decision tree. -/
def getWallEndType (w1 w2 w3 : Option Wall) : ℕ :=
  if isClr w1 then
    if isClr w3 then 2
    else if isClr w2 then 2
    else 1
  else if isClr w3 then
    if isClr w2 then 2
    else 1
  else 0

/-- Number of removed walls among the three arguments (the quantity the
spec's contract for `end_type` is phrased in). -/
def removedCount (w1 w2 w3 : Option Wall) : ℕ :=
  (if isClr w1 then 1 else 0) + (if isClr w2 then 1 else 0) +
    (if isClr w3 then 1 else 0)

/-- Sample removed wall used as a concrete input. -/
def removedWallEx : Wall := ⟨0, 0, true, 0, true⟩

/-- C2. The claim states `end_type` returns 1 whenever exactly one of the
three walls is removed.  The code disagrees on the input where only the
middle wall `w2` is removed: exactly one wall is removed, yet both scripts
return 0 (first branch requires `w1` removed, second requires `w3`
removed, and `w2` is consulted only inside those branches).  This also
contradicts the function's own docstring ("1 if at least one is removed"). -/
theorem getWallEndType_only_middle_removed_is_zero :
    removedCount none (some removedWallEx) none = 1 ∧
      getWallEndType none (some removedWallEx) none = 0 ∧
      getWallEndType none (some removedWallEx) none ≠ 1 := by
  decide

/-- Offset table `HORIZONTAL_OFFSETS` of `get_neighbour`
(maze_solver_bfs.py lines 139-140). -/
def hOffsetsBfs : List (ℤ × ℤ × Bool) :=
  [(0, -1, false), (0, -1, true), (1, -1, false),
   (0, 0, false), (0, 1, true), (1, 0, false)]

/-- Offset table `VERTICAL_OFFSETS` of `get_neighbour`
(maze_solver_bfs.py lines 141-142). -/
def vOffsetsBfs : List (ℤ × ℤ × Bool) :=
  [(-1, 0, true), (-1, 0, false), (-1, 1, true),
   (0, 0, true), (1, 0, false), (0, 1, true)]

/-- Offset table `offsets[True]` of `getNeighbour`
(weighted_kruskal_maze.py lines 106-109). -/
def hOffsetsWkm : List (ℤ × ℤ × Bool) :=
  [(-1, 0, false), (-1, 0, true), (0, -1, false),
   (0, 0, false), (0, 1, true), (1, 0, false)]

/-- Offset table `offsets[False]` of `getNeighbour`
(weighted_kruskal_maze.py lines 110-113). -/
def vOffsetsWkm : List (ℤ × ℤ × Bool) :=
  [(-1, 0, true), (-1, 0, false), (-1, 1, true),
   (0, 0, true), (1, 0, false), (0, 1, true)]

/-- Bounds-checked designation of the wall slot at `(x, y)` with the given
orientation, as computed by `get_wall` / `getWall` in both scripts: inside
`[0,W) × [0,H)` the scripts read index `(y*W + x)*2 + (0 or 1)`, outside
they return `None`. -/
def wallRef (W H : ℕ) (x y : ℤ) (dr : Bool) : Option (ℤ × ℤ × Bool) :=
  if 0 ≤ x ∧ x < (W : ℤ) ∧ 0 ≤ y ∧ y < (H : ℤ) then some (x, y, dr) else none

/-- Coordinates-and-orientation view of `get_neighbour`
(maze_solver_bfs.py lines 135-149). -/
def neighbourRefBfs (W H : ℕ) (wx wy : ℤ) (dr : Bool) (n : ℕ) :
    Option (ℤ × ℤ × Bool) :=
  match (if dr then hOffsetsBfs else vOffsetsBfs).get? n with
  | none => none
  | some (dx, dy, ndr) => wallRef W H (wx + dx) (wy + dy) ndr

/-- Coordinates-and-orientation view of `getNeighbour`
(weighted_kruskal_maze.py lines 104-117). -/
def neighbourRefWkm (W H : ℕ) (wx wy : ℤ) (dr : Bool) (n : ℕ) :
    Option (ℤ × ℤ × Bool) :=
  match (if dr then hOffsetsWkm else vOffsetsWkm).get? n with
  | none => none
  | some (dx, dy, ndr) => wallRef W H (wx + dx) (wy + dy) ndr

/-- C6 counterexample.  On the horizontal wall at `(1,1)` of a 3×3 grid,
neighbour index 0 designates the vertical wall at `(1,0)` in
maze_solver_bfs.py but the vertical wall at `(0,1)` in
weighted_kruskal_maze.py, so the two scripts do not use the same
structural-adjacency offsets. -/
theorem neighbourRef_scripts_differ :
    neighbourRefBfs 3 3 1 1 true 0 = some (1, 0, false) ∧
      neighbourRefWkm 3 3 1 1 true 0 = some (0, 1, false) ∧
      neighbourRefBfs 3 3 1 1 true 0 ≠ neighbourRefWkm 3 3 1 1 true 0 := by
  decide

/-- C6 (amended).  The two neighbour lookups agree on every vertical wall
at all six indices, and on horizontal walls at indices 3, 4, 5; the
horizontal tables differ at indices 0, 1, 2. -/
theorem neighbourRef_agreement (W H : ℕ) (wx wy : ℤ) (n : ℕ) (hn : n < 6) :
    neighbourRefBfs W H wx wy false n = neighbourRefWkm W H wx wy false n ∧
      (3 ≤ n →
        neighbourRefBfs W H wx wy true n = neighbourRefWkm W H wx wy true n) := by
  interval_cases n <;>
    simp [neighbourRefBfs, neighbourRefWkm, hOffsetsBfs, vOffsetsBfs,
      hOffsetsWkm, vOffsetsWkm]

/-- C6 amended-claim witness at a concrete input. -/
theorem neighbourRef_agreement_witness :
    neighbourRefBfs 3 3 1 1 false 0 = neighbourRefWkm 3 3 1 1 false 0 ∧
      (3 ≤ 0 →
        neighbourRefBfs 3 3 1 1 true 0 = neighbourRefWkm 3 3 1 1 true 0) :=
  neighbourRef_agreement 3 3 1 1 0 (by decide)

/-- Element `qa + qb * sqrt 2` of the ordered field `ℚ[sqrt 2]`.  Every
weight `2.0 ** (w * 0.5)` of the scripts is `(sqrt 2) ^ w`, so all weight
sums compared by `step` live in this ring; the embedding computes with the
exact values instead of floats. -/
structure Qrt2 where
  qa : ℚ
  qb : ℚ
deriving DecidableEq, Repr

namespace Qrt2

def zero : Qrt2 := ⟨0, 0⟩

def ofRat (q : ℚ) : Qrt2 := ⟨q, 0⟩

def add (u v : Qrt2) : Qrt2 := ⟨u.qa + v.qa, u.qb + v.qb⟩

def sub (u v : Qrt2) : Qrt2 := ⟨u.qa - v.qa, u.qb - v.qb⟩

def mul (u v : Qrt2) : Qrt2 :=
  ⟨u.qa * v.qa + 2 * u.qb * v.qb, u.qa * v.qb + u.qb * v.qa⟩

/-- Multiplication by a natural scalar, used for `len(queue) * weight`. -/
def scaleN (n : ℕ) (v : Qrt2) : Qrt2 := ⟨n * v.qa, n * v.qb⟩

/-- Decidable strict positivity of `qa + qb * sqrt 2`, by sign analysis and
squaring. -/
def posb (u : Qrt2) : Bool :=
  if 0 ≤ u.qa then
    if 0 ≤ u.qb then decide (0 < u.qa) || decide (0 < u.qb)
    else decide (2 * u.qb ^ 2 < u.qa ^ 2)
  else
    if 0 ≤ u.qb then decide (u.qa ^ 2 < 2 * u.qb ^ 2)
    else false

/-- Comparison `u < v` of two exact weight values. -/
def ltb (u v : Qrt2) : Bool := posb (v.sub u)

/-- Real value denoted by an element of `ℚ[sqrt 2]`. -/
noncomputable def val (u : Qrt2) : ℝ := (u.qa : ℝ) + (u.qb : ℝ) * Real.sqrt 2

theorem val_zero : val zero = 0 := by simp [val, zero]

theorem val_ofRat (q : ℚ) : val (ofRat q) = (q : ℝ) := by simp [val, ofRat]

theorem val_add (u v : Qrt2) : val (add u v) = val u + val v := by
  simp only [val, add]; push_cast; ring

theorem val_sub (u v : Qrt2) : val (sub u v) = val u - val v := by
  simp only [val, sub]; push_cast; ring

theorem val_mul (u v : Qrt2) : val (mul u v) = val u * val v := by
  have hs : Real.sqrt 2 * Real.sqrt 2 = 2 := Real.mul_self_sqrt (by norm_num)
  simp only [val, mul]
  push_cast
  linear_combination (-(u.qb : ℝ) * (v.qb : ℝ)) * hs

theorem val_scaleN (n : ℕ) (v : Qrt2) : val (scaleN n v) = n * val v := by
  simp only [val, scaleN]; push_cast; ring

theorem posb_iff (u : Qrt2) : posb u = true ↔ 0 < val u := by
  have hs : Real.sqrt 2 * Real.sqrt 2 = 2 := Real.mul_self_sqrt (by norm_num)
  have hs0 : (0 : ℝ) < Real.sqrt 2 := Real.sqrt_pos.mpr (by norm_num)
  unfold posb val
  split_ifs with h1 h2 h2
  · simp only [Bool.or_eq_true, decide_eq_true_eq]
    have hA : (0 : ℝ) ≤ (u.qa : ℝ) := by exact_mod_cast h1
    have hB : (0 : ℝ) ≤ (u.qb : ℝ) := by exact_mod_cast h2
    constructor
    · rintro (h | h)
      · have : (0 : ℝ) < (u.qa : ℝ) := by exact_mod_cast h
        nlinarith [mul_nonneg hB hs0.le]
      · have : (0 : ℝ) < (u.qb : ℝ) := by exact_mod_cast h
        nlinarith [mul_pos this hs0]
    · intro h
      by_contra hc
      push_neg at hc
      have ha0 : u.qa = 0 := le_antisymm hc.1 h1
      have hb0 : u.qb = 0 := le_antisymm hc.2 h2
      rw [ha0, hb0] at h
      simp at h
  · simp only [decide_eq_true_eq]
    have hA : (0 : ℝ) ≤ (u.qa : ℝ) := by exact_mod_cast h1
    have hB : (u.qb : ℝ) < 0 := by
      have := lt_of_not_le h2
      exact_mod_cast this
    have hd : (0 : ℝ) < (u.qa : ℝ) - (u.qb : ℝ) * Real.sqrt 2 := by
      nlinarith [mul_pos (neg_pos.mpr hB) hs0]
    constructor
    · intro h
      have h' : 2 * (u.qb : ℝ) ^ 2 < (u.qa : ℝ) ^ 2 := by exact_mod_cast h
      by_contra hle
      push_neg at hle
      nlinarith [mul_nonneg hd.le (neg_nonneg.mpr hle)]
    · intro h
      have : 2 * (u.qb : ℝ) ^ 2 < (u.qa : ℝ) ^ 2 := by
        nlinarith [mul_pos hd h]
      exact_mod_cast this
  · simp only [decide_eq_true_eq]
    have hA : (u.qa : ℝ) < 0 := by
      have := lt_of_not_le h1
      exact_mod_cast this
    have hB : (0 : ℝ) ≤ (u.qb : ℝ) := by exact_mod_cast h2
    have hd : (0 : ℝ) < (u.qb : ℝ) * Real.sqrt 2 - (u.qa : ℝ) := by
      nlinarith [mul_nonneg hB hs0.le]
    constructor
    · intro h
      have h' : (u.qa : ℝ) ^ 2 < 2 * (u.qb : ℝ) ^ 2 := by exact_mod_cast h
      by_contra hle
      push_neg at hle
      nlinarith [mul_nonneg hd.le (neg_nonneg.mpr hle)]
    · intro h
      have : (u.qa : ℝ) ^ 2 < 2 * (u.qb : ℝ) ^ 2 := by
        nlinarith [mul_pos hd h]
      exact_mod_cast this
  · simp only [false_iff, not_lt]
    have hA : (u.qa : ℝ) < 0 := by
      have := lt_of_not_le h1
      exact_mod_cast this
    have hB : (u.qb : ℝ) < 0 := by
      have := lt_of_not_le h2
      exact_mod_cast this
    nlinarith [mul_pos (neg_pos.mpr hB) hs0]

theorem ltb_iff (u v : Qrt2) : ltb u v = true ↔ val u < val v := by
  rw [ltb, posb_iff, val_sub, sub_pos]

theorem not_posb_iff (u : Qrt2) : posb u = false ↔ val u ≤ 0 := by
  rw [← not_lt, ← posb_iff, Bool.not_eq_true]

/-- Power `(sqrt 2) ^ n`, the exact value of `math.pow(2.0, n * 0.5)`. -/
def sqrtTwoPow : ℕ → Qrt2
  | 0 => ⟨1, 0⟩
  | n + 1 => mul ⟨0, 1⟩ (sqrtTwoPow n)

theorem val_sqrtTwoPow (n : ℕ) : val (sqrtTwoPow n) = Real.sqrt 2 ^ n := by
  induction n with
  | zero => simp [sqrtTwoPow, val]
  | succ n ih =>
    rw [sqrtTwoPow, val_mul, ih, pow_succ]
    simp [val]
    ring

theorem val_sqrtTwoPow_pos (n : ℕ) : 0 < val (sqrtTwoPow n) := by
  rw [val_sqrtTwoPow]
  positivity

end Qrt2

/-- Literal weight exponent table
`[W_MAX, W_HIGH, W_MED, W_HIGH, W_MED_HIGH, W_LOW_MED, W_MED, W_LOW_MED, W_LOW]`
= `[17, 15, 5, 15, 10, 2, 5, 2, 1]` (maze_solver_bfs.py lines 15-20 and 42-43). -/
def rawWeightList : List ℕ := [17, 15, 5, 15, 10, 2, 5, 2, 1]

/-- Exact value of `weights[i] = math.pow(2.0, raw * 0.5)`. -/
def weightOf (i : ℕ) : Qrt2 := Qrt2.sqrtTwoPow (rawWeightList.getD i 0)

theorem weightOf_pos (i : ℕ) : 0 < (weightOf i).val :=
  Qrt2.val_sqrtTwoPow_pos _

/-! Union-find (maze_solver_bfs.py lines 83-118; weighted_kruskal_maze.py
lines 66-93 is the same code).  The Python list `union_find` is a `List ℤ`:
negative entries are roots storing the negated class size, nonnegative
entries are parent pointers.  Out-of-range reads are modelled by `getD`
with default `-1`; `ufind` grows the list before reading, so in-range
behaviour matches the scripts exactly. -/

/-- Helper: element update read-back. -/
theorem getD_set_self {α : Type} {l : List α} {i : ℕ} {a d : α}
    (h : i < l.length) : (l.set i a).getD i d = a := by
  rw [List.getD_eq_getElem?_getD, List.getElem?_set_self h]
  rfl

/-- Helper: update does not affect other indices. -/
theorem getD_set_ne {α : Type} {l : List α} {i j : ℕ} {a d : α}
    (h : i ≠ j) : (l.set i a).getD j d = l.getD j d := by
  rw [List.getD_eq_getElem?_getD, List.getElem?_set_ne h,
    ← List.getD_eq_getElem?_getD]

/-- Helper: a non-default `getD` read is within bounds. -/
theorem getD_lt_length {α : Type} {l : List α} {i : ℕ} {d x : α}
    (h : l.getD i d = x) (hx : x ≠ d) : i < l.length := by
  by_contra hge
  rw [List.getD_eq_default l d (not_lt.mp hge)] at h
  exact hx h.symm

/-- Growth loop `while len(union_find) <= cell: union_find.append(-1)`. -/
def ufGrow (uf : List ℤ) (cell : ℕ) : List ℤ :=
  uf ++ List.replicate (cell + 1 - uf.length) (-1)

/-- Parent-chain walk `while union_find[cell] >= 0: cell = union_find[cell]`,
with explicit fuel. -/
def chase (uf : List ℤ) : ℕ → ℕ → ℕ
  | 0, cell => cell
  | fuel + 1, cell =>
    if 0 ≤ uf.getD cell (-1) then chase uf fuel (uf.getD cell (-1)).toNat
    else cell

/-- Path-compression loop of `ufind`: set every node on the chain from
`src` to point at `root`, stopping at the root or at a direct child. -/
def compress (root : ℕ) : List ℤ → ℕ → ℕ → List ℤ
  | uf, 0, _ => uf
  | uf, fuel + 1, src =>
    if 0 ≤ uf.getD src (-1) ∧ uf.getD src (-1) ≠ (root : ℤ) then
      compress root (uf.set src (root : ℤ)) fuel (uf.getD src (-1)).toNat
    else uf

/-- Embedding of `ufind` (maze_solver_bfs.py lines 83-100): grow, walk to
the root, compress the walked chain, return the new array and the root. -/
def ufind (uf : List ℤ) (cell : ℕ) : List ℤ × ℕ :=
  let uf1 := ufGrow uf cell
  let root := chase uf1 uf1.length cell
  (compress root uf1 uf1.length cell, root)

/-- Merge branch of `union` after the two finds: with `i` and `j` the two
roots in the current array `uf2`, `union_find[i] >= union_find[j]` (the
first argument's class is not larger) attaches `i` under `j`, else `j`
under `i`; the surviving root accumulates both stored values. -/
def unionAux (uf2 : List ℤ) (i j : ℕ) : List ℤ × Bool :=
  if i ≠ j then
    (if uf2.getD j (-1) ≤ uf2.getD i (-1) then
      (uf2.set j (uf2.getD j (-1) + uf2.getD i (-1))).set i (j : ℤ)
    else
      (uf2.set i (uf2.getD i (-1) + uf2.getD j (-1))).set j (i : ℤ), true)
  else (uf2, false)

/-- Embedding of `union` (maze_solver_bfs.py lines 102-118): run
`ufind` on both cells (each mutating the array), then merge by size,
returning `true` exactly when two distinct classes were joined. -/
def union (uf : List ℤ) (ci cj : ℕ) : List ℤ × Bool :=
  unionAux (ufind (ufind uf ci).1 cj).1 (ufind uf ci).2
    (ufind (ufind uf ci).1 cj).2

theorem chase_zero (uf : List ℤ) (c : ℕ) : chase uf 0 c = c := rfl

theorem chase_succ (uf : List ℤ) (f c : ℕ) :
    chase uf (f + 1) c =
      if 0 ≤ uf.getD c (-1) then chase uf f (uf.getD c (-1)).toNat else c := rfl

theorem chase_of_root {uf : List ℤ} {c : ℕ} (h : uf.getD c (-1) < 0)
    (f : ℕ) : chase uf f c = c := by
  cases f with
  | zero => rfl
  | succ f => rw [chase_succ, if_neg (not_le.mpr h)]

theorem chase_chase (uf : List ℤ) (f g c : ℕ) :
    chase uf g (chase uf f c) = chase uf (f + g) c := by
  induction f generalizing c with
  | zero => rw [chase_zero, Nat.zero_add]
  | succ f ih =>
    by_cases h : 0 ≤ uf.getD c (-1)
    · rw [chase_succ, if_pos h, ih, show f + 1 + g = f + g + 1 by omega,
        chase_succ, if_pos h]
    · rw [chase_succ, if_neg h, chase_of_root (not_le.mp h),
        chase_of_root (not_le.mp h)]

/-- The parent chain from `c` reaches the root `r`. -/
def Reaches (uf : List ℤ) (c r : ℕ) : Prop :=
  ∃ f, chase uf f c = r ∧ uf.getD r (-1) < 0

theorem Reaches.of_root {uf : List ℤ} {c : ℕ} (h : uf.getD c (-1) < 0) :
    Reaches uf c c := ⟨0, rfl, h⟩

theorem Reaches.step {uf : List ℤ} {c r : ℕ} (h : 0 ≤ uf.getD c (-1))
    (hr : Reaches uf (uf.getD c (-1)).toNat r) : Reaches uf c r := by
  obtain ⟨f, hf, hroot⟩ := hr
  exact ⟨f + 1, by rw [chase_succ, if_pos h, hf], hroot⟩

theorem Reaches.functional {uf : List ℤ} {c r₁ r₂ : ℕ}
    (h₁ : Reaches uf c r₁) (h₂ : Reaches uf c r₂) : r₁ = r₂ := by
  obtain ⟨f₁, hf₁, hr₁⟩ := h₁
  obtain ⟨f₂, hf₂, hr₂⟩ := h₂
  rcases le_total f₁ f₂ with h | h
  · have := chase_chase uf f₁ (f₂ - f₁) c
    rw [hf₁, Nat.add_sub_cancel' h, hf₂, chase_of_root hr₁] at this
    exact this
  · have := chase_chase uf f₂ (f₁ - f₂) c
    rw [hf₂, Nat.add_sub_cancel' h, hf₁, chase_of_root hr₂] at this
    exact this.symm

/-- A node with a parent pointer is within the array bounds. -/
theorem lt_length_of_parent {uf : List ℤ} {c : ℕ}
    (h : 0 ≤ uf.getD c (-1)) : c < uf.length := by
  by_contra hc
  rw [List.getD_eq_default uf (-1) (not_lt.mp hc)] at h
  omega

/-- Chain nodes repeat only if the chain never reaches a root, so on a
chain that does reach a root, the fuel `uf.length` always suffices. -/
theorem Reaches.chase_len {uf : List ℤ} {c r : ℕ} (h : Reaches uf c r)
    {f : ℕ} (hf : uf.length ≤ f) : chase uf f c = r := by
  classical
  obtain ⟨f₀, hf₀, hr⟩ := h
  have hP : ∃ k, uf.getD (chase uf k c) (-1) < 0 := ⟨f₀, by rw [hf₀]; exact hr⟩
  set m := Nat.find hP with hm
  have hmin : ∀ k < m, 0 ≤ uf.getD (chase uf k c) (-1) := by
    intro k hk
    have := Nat.find_min hP hk
    omega
  have hmroot : uf.getD (chase uf m c) (-1) < 0 := Nat.find_spec hP
  -- distinct chain nodes: a repetition would make the chain periodic and
  -- keep it away from every root, contradicting `hf₀`
  have hinj : ∀ k₁, k₁ < m → ∀ k₂, k₂ < m →
      chase uf k₁ c = chase uf k₂ c → k₁ = k₂ := by
    intro k₁ hk₁ k₂ hk₂ heq
    by_contra hne
    wlog hlt : k₁ < k₂ generalizing k₁ k₂
    · exact this k₂ hk₂ k₁ hk₁ heq.symm (Ne.symm hne) (by omega)
    set p := k₂ - k₁ with hp
    have hpp : 1 ≤ p := by omega
    have hx : chase uf p (chase uf k₁ c) = chase uf k₁ c := by
      rw [chase_chase, hp, Nat.add_sub_cancel' hlt.le, ← heq]
    have loop : ∀ t, chase uf (t * p) (chase uf k₁ c) = chase uf k₁ c := by
      intro t
      induction t with
      | zero => rw [Nat.zero_mul, chase_zero]
      | succ t iht =>
        rw [Nat.succ_mul, ← chase_chase uf (t * p) p, iht, hx]
    have hfp : f₀ ≤ f₀ * p := Nat.le_mul_of_pos_right f₀ (by omega)
    have hroot2 : chase uf (k₁ + f₀ * p) c = r := by
      rw [show k₁ + f₀ * p = f₀ + (k₁ + f₀ * p - f₀) by omega, ← chase_chase,
        hf₀, chase_of_root hr]
    have hgx : chase uf (k₁ + f₀ * p) c = chase uf k₁ c := by
      rw [← chase_chase uf k₁ (f₀ * p) c, loop f₀]
    have : uf.getD (chase uf k₁ c) (-1) < 0 := by
      rw [← hgx, hroot2]
      exact hr
    have := hmin k₁ hk₁
    omega
  have hcard : m ≤ uf.length := by
    have hmap : ∀ k ∈ Finset.range m,
        chase uf k c ∈ Finset.range uf.length := by
      intro k hk
      exact Finset.mem_range.mpr
        (lt_length_of_parent (hmin k (Finset.mem_range.mp hk)))
    have hio : Set.InjOn (fun k => chase uf k c) (Finset.range m) := by
      intro k₁ h₁ k₂ h₂ he
      exact hinj k₁ (Finset.mem_range.mp h₁) k₂ (Finset.mem_range.mp h₂) he
    have := Finset.card_le_card_of_injOn _ hmap hio
    simpa using this
  have hxm : chase uf m c = r :=
    Reaches.functional ⟨m, rfl, hmroot⟩ ⟨f₀, hf₀, hr⟩
  rw [show f = m + (f - m) by omega, ← chase_chase, hxm, chase_of_root hr]

/-- Wellformedness of a union-find array: parent pointers stay in range and
every parent chain reaches a root. -/
def WF (uf : List ℤ) : Prop :=
  (∀ i, 0 ≤ uf.getD i (-1) → (uf.getD i (-1)).toNat < uf.length) ∧
  ∀ c, ∃ r, Reaches uf c r

/-- Canonical root of a cell, read without mutating: walk with fuel
`uf.length`.  Cells beyond the array are their own (implicit) roots. -/
def rootD (uf : List ℤ) (c : ℕ) : ℕ := chase uf uf.length c

theorem rootD_reaches {uf : List ℤ} (h : WF uf) (c : ℕ) :
    Reaches uf c (rootD uf c) := by
  obtain ⟨r, hr⟩ := h.2 c
  have hc := hr.chase_len (le_refl uf.length)
  rw [rootD, hc]
  exact hr

theorem rootD_isRoot {uf : List ℤ} (h : WF uf) (c : ℕ) :
    uf.getD (rootD uf c) (-1) < 0 := by
  obtain ⟨f, _, hr⟩ := rootD_reaches h c
  exact hr

theorem reaches_iff_rootD {uf : List ℤ} (h : WF uf) {c r : ℕ} :
    Reaches uf c r ↔ rootD uf c = r :=
  ⟨fun hr => (rootD_reaches h c).functional hr,
   fun he => he ▸ rootD_reaches h c⟩

theorem rootD_of_root {uf : List ℤ} {c : ℕ} (h : uf.getD c (-1) < 0) :
    rootD uf c = c := chase_of_root h _

theorem rootD_oob {uf : List ℤ} {c : ℕ} (h : uf.length ≤ c) :
    rootD uf c = c :=
  rootD_of_root (by rw [List.getD_eq_default uf (-1) h]; omega)

theorem rootD_parent {uf : List ℤ} (h : WF uf) {c : ℕ}
    (hc : 0 ≤ uf.getD c (-1)) :
    rootD uf c = rootD uf (uf.getD c (-1)).toNat := by
  have hr := rootD_reaches h (uf.getD c (-1)).toNat
  exact ((reaches_iff_rootD h).1 (Reaches.step hc hr)).symm ▸ rfl

theorem chase_lt_length {uf : List ℤ}
    (hp : ∀ i, 0 ≤ uf.getD i (-1) → (uf.getD i (-1)).toNat < uf.length)
    {c : ℕ} (hc : c < uf.length) (f : ℕ) : chase uf f c < uf.length := by
  induction f generalizing c with
  | zero => exact hc
  | succ f ih =>
    rw [chase_succ]
    by_cases h : 0 ≤ uf.getD c (-1)
    · rw [if_pos h]
      exact ih (hp c h)
    · rwa [if_neg h]

theorem rootD_lt_length {uf : List ℤ} (h : WF uf) {c : ℕ}
    (hc : c < uf.length) : rootD uf c < uf.length :=
  chase_lt_length h.1 hc _

theorem rootD_idem {uf : List ℤ} (h : WF uf) (c : ℕ) :
    rootD uf (rootD uf c) = rootD uf c :=
  rootD_of_root (rootD_isRoot h c)

theorem chase_congr {uf₁ uf₂ : List ℤ}
    (h : ∀ i, uf₁.getD i (-1) = uf₂.getD i (-1)) (f c : ℕ) :
    chase uf₁ f c = chase uf₂ f c := by
  induction f generalizing c with
  | zero => rfl
  | succ f ih =>
    rw [chase_succ, chase_succ, h c]
    by_cases hc : 0 ≤ uf₂.getD c (-1)
    · rw [if_pos hc, if_pos hc, ih]
    · rw [if_neg hc, if_neg hc]

theorem reaches_congr {uf₁ uf₂ : List ℤ}
    (h : ∀ i, uf₁.getD i (-1) = uf₂.getD i (-1)) {c r : ℕ} :
    Reaches uf₁ c r ↔ Reaches uf₂ c r := by
  constructor <;> rintro ⟨f, hf, hr⟩
  · exact ⟨f, by rw [← chase_congr h, hf], by rw [← h]; exact hr⟩
  · exact ⟨f, by rw [chase_congr h, hf], by rw [h]; exact hr⟩

theorem getD_grow (uf : List ℤ) (cell i : ℕ) :
    (ufGrow uf cell).getD i (-1) = uf.getD i (-1) := by
  by_cases hi : i < uf.length
  · exact List.getD_append _ _ _ _ hi
  · rw [ufGrow, List.getD_append_right _ _ _ _ (not_lt.mp hi),
      List.getD_eq_default uf (-1) (not_lt.mp hi)]
    rcases lt_or_le (i - uf.length) (cell + 1 - uf.length) with h | h
    · rw [List.getD_eq_getElem?_getD, List.getElem?_replicate,
        if_pos (by simpa using h)]
      rfl
    · rw [List.getD_eq_default _ _ (by simpa using h)]

theorem length_grow (uf : List ℤ) (cell : ℕ) :
    (ufGrow uf cell).length = max uf.length (cell + 1) := by
  rw [ufGrow, List.length_append, List.length_replicate]
  omega

theorem WF_grow {uf : List ℤ} (h : WF uf) (cell : ℕ) : WF (ufGrow uf cell) := by
  constructor
  · intro i hi
    rw [getD_grow] at hi ⊢
    calc (uf.getD i (-1)).toNat < uf.length := h.1 i hi
    _ ≤ (ufGrow uf cell).length := by rw [length_grow]; omega
  · intro c
    obtain ⟨r, hr⟩ := h.2 c
    exact ⟨r, (reaches_congr (getD_grow uf cell)).2 hr⟩

theorem rootD_grow {uf : List ℤ} (h : WF uf) (cell c : ℕ) :
    rootD (ufGrow uf cell) c = rootD uf c :=
  (reaches_iff_rootD (WF_grow h cell)).1
    ((reaches_congr (getD_grow uf cell)).2 (rootD_reaches h c))

theorem reaches_set_redirect {uf : List ℤ} {s r : ℕ} (hWF : WF uf)
    (hs : 0 ≤ uf.getD s (-1)) (hr : Reaches uf s r) (c : ℕ) :
    Reaches (uf.set s (r : ℤ)) c (rootD uf c) := by
  have hslen : s < uf.length := lt_length_of_parent hs
  have hrroot : uf.getD r (-1) < 0 := by
    obtain ⟨f, _, h⟩ := hr
    exact h
  have hsne : s ≠ r := fun e => by rw [e] at hs; omega
  suffices H : ∀ f c, uf.getD (chase uf f c) (-1) < 0 →
      Reaches (uf.set s (r : ℤ)) c (chase uf f c) by
    obtain ⟨f, hf, hfr⟩ := rootD_reaches hWF c
    have := H f c (by rw [hf]; exact hfr)
    rwa [hf] at this
  intro f
  induction f using Nat.strong_induction_on with
  | _ f ih =>
    intro c hroot
    by_cases hcs : c = s
    · subst hcs
      have hfr : chase uf f c = r :=
        Reaches.functional ⟨f, rfl, hroot⟩ hr
      rw [hfr]
      have h1 : (uf.set c (r : ℤ)).getD c (-1) = (r : ℤ) := getD_set_self hslen
      apply Reaches.step (by rw [h1]; exact Int.natCast_nonneg r)
      rw [h1, Int.toNat_natCast]
      exact Reaches.of_root (by rw [getD_set_ne hsne]; exact hrroot)
    · have hsc : s ≠ c := fun e => hcs e.symm
      by_cases hroot0 : uf.getD c (-1) < 0
      · rw [chase_of_root hroot0]
        exact Reaches.of_root (by rw [getD_set_ne hsc]; exact hroot0)
      · have hge : 0 ≤ uf.getD c (-1) := not_lt.mp hroot0
        cases f with
        | zero =>
          rw [chase_zero] at hroot
          exact absurd hroot hroot0
        | succ f =>
          rw [chase_succ, if_pos hge] at hroot ⊢
          refine Reaches.step ?_ ?_
          · rw [getD_set_ne hsc]
            exact hge
          · rw [getD_set_ne hsc]
            exact ih f (Nat.lt_succ_self f) _ hroot

theorem WF_set_redirect {uf : List ℤ} {s r : ℕ} (hWF : WF uf)
    (hs : 0 ≤ uf.getD s (-1)) (hr : Reaches uf s r) :
    WF (uf.set s (r : ℤ)) := by
  have hslen : s < uf.length := lt_length_of_parent hs
  have hrs : rootD uf s = r := (reaches_iff_rootD hWF).1 hr
  have hrlen : r < uf.length := hrs ▸ rootD_lt_length hWF hslen
  constructor
  · intro i hi
    rw [List.length_set]
    by_cases his : i = s
    · subst his
      rw [getD_set_self hslen, Int.toNat_natCast]
      exact hrlen
    · rw [getD_set_ne (fun e => his e.symm)] at hi ⊢
      exact hWF.1 i hi
  · intro c
    exact ⟨rootD uf c, reaches_set_redirect hWF hs hr c⟩

theorem rootD_set_redirect {uf : List ℤ} {s r : ℕ} (hWF : WF uf)
    (hs : 0 ≤ uf.getD s (-1)) (hr : Reaches uf s r) (c : ℕ) :
    rootD (uf.set s (r : ℤ)) c = rootD uf c :=
  (reaches_iff_rootD (WF_set_redirect hWF hs hr)).1
    (reaches_set_redirect hWF hs hr c)

theorem compress_spec (root : ℕ) :
    ∀ (fuel : ℕ) (uf : List ℤ) (src : ℕ), WF uf → Reaches uf src root →
      WF (compress root uf fuel src) ∧
      (compress root uf fuel src).length = uf.length ∧
      (∀ c, rootD (compress root uf fuel src) c = rootD uf c) ∧
      (∀ i, uf.getD i (-1) < 0 →
        (compress root uf fuel src).getD i (-1) = uf.getD i (-1)) ∧
      (∀ i, (compress root uf fuel src).getD i (-1) ≠ uf.getD i (-1) →
        rootD uf i = root) := by
  intro fuel
  induction fuel with
  | zero =>
    intro uf src hWF _
    exact ⟨hWF, rfl, fun _ => rfl, fun _ _ => rfl, fun i hi => absurd rfl hi⟩
  | succ fuel ih =>
    intro uf src hWF hsr
    rw [compress]
    by_cases hcond : 0 ≤ uf.getD src (-1) ∧ uf.getD src (-1) ≠ (root : ℤ)
    · rw [if_pos hcond]
      have hv0 : 0 ≤ uf.getD src (-1) := hcond.1
      have hsrcroot : rootD uf src = root := (reaches_iff_rootD hWF).1 hsr
      have hWF' : WF (uf.set src (root : ℤ)) := WF_set_redirect hWF hv0 hsr
      have hnextroot : rootD uf (uf.getD src (-1)).toNat = root := by
        rw [← rootD_parent hWF hv0]
        exact hsrcroot
      have hnext : Reaches (uf.set src (root : ℤ)) (uf.getD src (-1)).toNat
          root := by
        have := reaches_set_redirect hWF hv0 hsr (uf.getD src (-1)).toNat
        rwa [hnextroot] at this
      obtain ⟨w1, w2, w3, w4, w5⟩ :=
        ih (uf.set src (root : ℤ)) (uf.getD src (-1)).toNat hWF' hnext
      have hslen : src < uf.length := lt_length_of_parent hv0
      refine ⟨w1, by rw [w2, List.length_set], ?_, ?_, ?_⟩
      · intro c
        rw [w3 c, rootD_set_redirect hWF hv0 hsr]
      · intro i hi
        have hisrc : src ≠ i := fun e => by rw [e] at hv0; omega
        have he : (uf.set src (root : ℤ)).getD i (-1) = uf.getD i (-1) :=
          getD_set_ne hisrc
        rw [w4 i (by rw [he]; exact hi), he]
      · intro i hi
        by_cases hch :
            (compress root (uf.set src (root : ℤ)) fuel
              (uf.getD src (-1)).toNat).getD i (-1) =
            (uf.set src (root : ℤ)).getD i (-1)
        · have : (uf.set src (root : ℤ)).getD i (-1) ≠ uf.getD i (-1) := by
            rw [← hch]
            exact hi
          have hisrc : i = src := by
            by_contra hne
            exact this (getD_set_ne (fun e => hne e.symm))
          rw [hisrc]
          exact hsrcroot
        · have := w5 i hch
          rwa [rootD_set_redirect hWF hv0 hsr] at this
    · rw [if_neg hcond]
      exact ⟨hWF, rfl, fun _ => rfl, fun _ _ => rfl, fun i hi => absurd rfl hi⟩

theorem ufind_spec {uf : List ℤ} (hWF : WF uf) (cell : ℕ) :
    WF (ufind uf cell).1 ∧
    (ufind uf cell).1.length = max uf.length (cell + 1) ∧
    (ufind uf cell).2 = rootD uf cell ∧
    (∀ c, rootD (ufind uf cell).1 c = rootD uf c) ∧
    (∀ i, uf.getD i (-1) < 0 →
      (ufind uf cell).1.getD i (-1) = uf.getD i (-1)) ∧
    (∀ i, (ufind uf cell).1.getD i (-1) ≠ uf.getD i (-1) →
      rootD uf i = rootD uf cell) := by
  have hWF1 : WF (ufGrow uf cell) := WF_grow hWF cell
  have hrooteq : chase (ufGrow uf cell) (ufGrow uf cell).length cell =
      rootD uf cell := by
    rw [show chase (ufGrow uf cell) (ufGrow uf cell).length cell =
      rootD (ufGrow uf cell) cell from rfl, rootD_grow hWF]
  have hreach : Reaches (ufGrow uf cell) cell (rootD uf cell) := by
    have := rootD_reaches hWF1 cell
    rwa [rootD_grow hWF] at this
  obtain ⟨w1, w2, w3, w4, w5⟩ :=
    compress_spec (rootD uf cell) (ufGrow uf cell).length (ufGrow uf cell)
      cell hWF1 hreach
  refine ⟨?_, ?_, ?_, ?_, ?_, ?_⟩
  · show WF (compress _ _ _ _)
    simpa [ufind, hrooteq] using w1
  · show List.length (compress _ _ _ _) = _
    simp only [ufind, hrooteq]
    rw [w2, length_grow]
  · show chase _ _ _ = _
    exact hrooteq
  · intro c
    show rootD (compress _ _ _ _) c = _
    simp only [ufind, hrooteq]
    rw [w3 c, rootD_grow hWF]
  · intro i hi
    show (compress _ _ _ _).getD i (-1) = _
    simp only [ufind, hrooteq]
    rw [w4 i (by rw [getD_grow]; exact hi), getD_grow]
  · intro i hi
    show rootD uf i = rootD uf cell
    simp only [ufind, hrooteq] at hi
    have : (compress (rootD uf cell) (ufGrow uf cell) (ufGrow uf cell).length
        cell).getD i (-1) ≠ (ufGrow uf cell).getD i (-1) := by
      rw [getD_grow]
      exact hi
    have := w5 i this
    rwa [rootD_grow hWF] at this

/-- Entries rewritten by `compress` were parent pointers and now hold the
root. -/
theorem compress_changed (root : ℕ) :
    ∀ (fuel : ℕ) (uf : List ℤ) (src : ℕ), WF uf → Reaches uf src root →
      ∀ i, (compress root uf fuel src).getD i (-1) ≠ uf.getD i (-1) →
        0 ≤ uf.getD i (-1) ∧
          (compress root uf fuel src).getD i (-1) = (root : ℤ) := by
  intro fuel
  induction fuel with
  | zero =>
    intro uf src _ _ i hi
    exact absurd rfl hi
  | succ fuel ih =>
    intro uf src hWF hsr i hi
    rw [compress] at hi ⊢
    by_cases hcond : 0 ≤ uf.getD src (-1) ∧ uf.getD src (-1) ≠ (root : ℤ)
    · rw [if_pos hcond] at hi ⊢
      have hv0 : 0 ≤ uf.getD src (-1) := hcond.1
      have hslen : src < uf.length := lt_length_of_parent hv0
      have hWF' : WF (uf.set src (root : ℤ)) := WF_set_redirect hWF hv0 hsr
      have hsrcroot : rootD uf src = root := (reaches_iff_rootD hWF).1 hsr
      have hnext : Reaches (uf.set src (root : ℤ)) (uf.getD src (-1)).toNat
          root := by
        have := reaches_set_redirect hWF hv0 hsr (uf.getD src (-1)).toNat
        rwa [← rootD_parent hWF hv0, hsrcroot] at this
      by_cases hch : (compress root (uf.set src (root : ℤ)) fuel
          (uf.getD src (-1)).toNat).getD i (-1) =
          (uf.set src (root : ℤ)).getD i (-1)
      · have hne : (uf.set src (root : ℤ)).getD i (-1) ≠ uf.getD i (-1) := by
          rw [← hch]
          exact hi
        have hisrc : i = src := by
          by_contra hne2
          exact hne (getD_set_ne (fun e => hne2 e.symm))
        subst hisrc
        exact ⟨hv0, by rw [hch, getD_set_self hslen]⟩
      · obtain ⟨h0, hval⟩ := ih (uf.set src (root : ℤ))
          (uf.getD src (-1)).toNat hWF' hnext i hch
        refine ⟨?_, hval⟩
        by_cases hisrc : i = src
        · subst hisrc
          exact hcond.1
        · rwa [getD_set_ne (fun e => hisrc e.symm)] at h0
    · rw [if_neg hcond] at hi
      exact absurd rfl hi

/-- Entries rewritten by `ufind` were parent pointers and now point at the
returned root. -/
theorem ufind_changed {uf : List ℤ} (hWF : WF uf) (cell : ℕ) :
    ∀ i, (ufind uf cell).1.getD i (-1) ≠ uf.getD i (-1) →
      0 ≤ uf.getD i (-1) ∧
        (ufind uf cell).1.getD i (-1) = ((ufind uf cell).2 : ℤ) := by
  have hWF1 : WF (ufGrow uf cell) := WF_grow hWF cell
  have hreach : Reaches (ufGrow uf cell) cell
      (chase (ufGrow uf cell) (ufGrow uf cell).length cell) :=
    rootD_reaches hWF1 cell
  intro i hi
  have hi1 : (compress (chase (ufGrow uf cell) (ufGrow uf cell).length cell)
      (ufGrow uf cell) (ufGrow uf cell).length cell).getD i (-1) ≠
      (ufGrow uf cell).getD i (-1) := by
    rw [getD_grow]
    exact hi
  obtain ⟨h0, hval⟩ := compress_changed _ (ufGrow uf cell).length
    (ufGrow uf cell) cell hWF1 hreach i hi1
  rw [getD_grow] at h0
  exact ⟨h0, hval⟩

/-- Number of cells in the class of root `r`, counted over the array. -/
def classCard (uf : List ℤ) (r : ℕ) : ℕ :=
  ((Finset.range uf.length).filter (fun i => rootD uf i = r)).card

theorem classCard_congr {uf uf' : List ℤ}
    (h : ∀ c, rootD uf' c = rootD uf c) (hlen : uf.length ≤ uf'.length)
    {r : ℕ} (hr : r < uf.length) : classCard uf' r = classCard uf r := by
  unfold classCard
  congr 1
  ext i
  simp only [Finset.mem_filter, Finset.mem_range]
  constructor
  · rintro ⟨hi, hroot⟩
    rw [h] at hroot
    refine ⟨?_, hroot⟩
    by_contra hle
    rw [rootD_oob (not_lt.mp hle)] at hroot
    omega
  · rintro ⟨hi, hroot⟩
    exact ⟨lt_of_lt_of_le hi hlen, by rw [h]; exact hroot⟩

theorem classCard_fresh {uf uf' : List ℤ} (hWF : WF uf)
    (h : ∀ c, rootD uf' c = rootD uf c) {r : ℕ}
    (hr : uf.length ≤ r) (hr2 : r < uf'.length) : classCard uf' r = 1 := by
  unfold classCard
  have heq : (Finset.range uf'.length).filter (fun i => rootD uf' i = r) =
      {r} := by
    ext i
    simp only [Finset.mem_filter, Finset.mem_range, Finset.mem_singleton]
    constructor
    · rintro ⟨hi, hroot⟩
      rw [h] at hroot
      by_cases hlt : i < uf.length
      · have := rootD_lt_length hWF hlt
        omega
      · rwa [rootD_oob (not_lt.mp hlt)] at hroot
    · rintro rfl
      exact ⟨hr2, by rw [h, rootD_oob hr]⟩
  rw [heq, Finset.card_singleton]

theorem classCard_pos {uf : List ℤ} {r : ℕ}
    (hr : uf.getD r (-1) < 0) (hlen : r < uf.length) :
    1 ≤ classCard uf r := by
  have hmem : r ∈ (Finset.range uf.length).filter (fun i => rootD uf i = r) := by
    simp only [Finset.mem_filter, Finset.mem_range]
    exact ⟨hlen, rootD_of_root hr⟩
  exact Finset.card_pos.mpr ⟨r, hmem⟩

/-- Full union-find invariant: wellformed, and every in-range root stores
the negated size of its class. -/
def WFS (uf : List ℤ) : Prop :=
  WF uf ∧ ∀ r, r < uf.length → uf.getD r (-1) < 0 →
    uf.getD r (-1) = -(classCard uf r : ℤ)

theorem WFS_nil : WFS [] := by
  refine ⟨⟨?_, ?_⟩, ?_⟩
  · intro i hi
    simp [List.getD] at hi
  · intro c
    exact ⟨c, Reaches.of_root (by simp [List.getD])⟩
  · intro r hr
    simp at hr

theorem WFS_ufind {uf : List ℤ} (h : WFS uf) (cell : ℕ) :
    WFS (ufind uf cell).1 := by
  obtain ⟨w1, w2, w3, w4, w5, w6⟩ := ufind_spec h.1 cell
  refine ⟨w1, ?_⟩
  intro r hrlen hroot
  have hunch : (ufind uf cell).1.getD r (-1) = uf.getD r (-1) := by
    by_contra hch
    obtain ⟨h0, hval⟩ := ufind_changed h.1 cell r hch
    rw [hval] at hroot
    omega
  by_cases hrold : r < uf.length
  · rw [hunch, h.2 r hrold (by rw [← hunch]; exact hroot),
      classCard_congr w4 (by rw [w2]; omega) hrold]
  · have hval : uf.getD r (-1) = -1 :=
      List.getD_eq_default uf (-1) (not_lt.mp hrold)
    rw [hunch, hval, classCard_fresh h.1 w4 (not_lt.mp hrold) hrlen]
    rfl

/-- Effect of attaching root `i` under root `j` with new stored value `w`
at `j`: the two classes merge, everything else is untouched. -/
theorem link_spec {uf : List ℤ} {i j : ℕ} (hWF : WF uf)
    (hi : uf.getD i (-1) < 0) (hj : uf.getD j (-1) < 0) (hij : i ≠ j)
    (hilen : i < uf.length) (hjlen : j < uf.length) {w : ℤ} (hw : w < 0) :
    WF ((uf.set j w).set i (j : ℤ)) ∧
    ((uf.set j w).set i (j : ℤ)).length = uf.length ∧
    (∀ c, rootD ((uf.set j w).set i (j : ℤ)) c =
      if rootD uf c = i then j else rootD uf c) ∧
    ((uf.set j w).set i (j : ℤ)).getD j (-1) = w ∧
    ((uf.set j w).set i (j : ℤ)).getD i (-1) = (j : ℤ) ∧
    (∀ k, k ≠ i → k ≠ j →
      ((uf.set j w).set i (j : ℤ)).getD k (-1) = uf.getD k (-1)) := by
  have hlen : ((uf.set j w).set i (j : ℤ)).length = uf.length := by
    rw [List.length_set, List.length_set]
  have gI : ((uf.set j w).set i (j : ℤ)).getD i (-1) = (j : ℤ) :=
    getD_set_self (by rw [List.length_set]; exact hilen)
  have gJ : ((uf.set j w).set i (j : ℤ)).getD j (-1) = w := by
    rw [getD_set_ne hij, getD_set_self hjlen]
  have gO : ∀ k, k ≠ i → k ≠ j →
      ((uf.set j w).set i (j : ℤ)).getD k (-1) = uf.getD k (-1) := by
    intro k hki hkj
    rw [getD_set_ne (fun e => hki e.symm), getD_set_ne (fun e => hkj e.symm)]
  have transfer : ∀ f c, uf.getD (chase uf f c) (-1) < 0 →
      Reaches ((uf.set j w).set i (j : ℤ)) c
        (if chase uf f c = i then j else chase uf f c) := by
    intro f
    induction f using Nat.strong_induction_on with
    | _ f ih =>
      intro c hroot
      by_cases hci : c = i
      · subst hci
        rw [chase_of_root hi, if_pos rfl]
        apply Reaches.step (by rw [gI]; exact Int.natCast_nonneg j)
        rw [gI, Int.toNat_natCast]
        exact Reaches.of_root (by rw [gJ]; exact hw)
      · by_cases hcj : c = j
        · subst hcj
          rw [chase_of_root hj, if_neg (fun e => hij e.symm)]
          exact Reaches.of_root (by rw [gJ]; exact hw)
        · by_cases hcroot : uf.getD c (-1) < 0
          · rw [chase_of_root hcroot, if_neg hci]
            exact Reaches.of_root (by rw [gO c hci hcj]; exact hcroot)
          · have hge : 0 ≤ uf.getD c (-1) := not_lt.mp hcroot
            cases f with
            | zero =>
              rw [chase_zero] at hroot
              exact absurd hroot hcroot
            | succ f =>
              rw [chase_succ, if_pos hge] at hroot ⊢
              refine Reaches.step ?_ ?_
              · rw [gO c hci hcj]
                exact hge
              · rw [gO c hci hcj]
                exact ih f (Nat.lt_succ_self f) _ hroot
  have hWF' : WF ((uf.set j w).set i (j : ℤ)) := by
    constructor
    · intro k hk
      rw [hlen]
      by_cases hki : k = i
      · subst hki
        rw [gI, Int.toNat_natCast]
        exact hjlen
      · by_cases hkj : k = j
        · subst hkj
          rw [gJ] at hk
          omega
        · rw [gO k hki hkj] at hk ⊢
          exact hWF.1 k hk
    · intro c
      exact ⟨_, transfer uf.length c (rootD_isRoot hWF c)⟩
  refine ⟨hWF', hlen, ?_, gJ, gI, gO⟩
  intro c
  exact (reaches_iff_rootD hWF').1 (transfer uf.length c (rootD_isRoot hWF c))

/-- After a link step the absorbed class is counted into the winner, and
every other class keeps its size. -/
theorem classCard_link {uf uf' : List ℤ} {i j : ℕ}
    (hlen : uf'.length = uf.length)
    (hroots : ∀ c, rootD uf' c = if rootD uf c = i then j else rootD uf c)
    (hij : i ≠ j) :
    classCard uf' j = classCard uf i + classCard uf j ∧
    ∀ r, r ≠ i → r ≠ j → classCard uf' r = classCard uf r := by
  constructor
  · unfold classCard
    rw [hlen]
    have hset : (Finset.range uf.length).filter (fun k => rootD uf' k = j) =
        ((Finset.range uf.length).filter (fun k => rootD uf k = i)) ∪
        ((Finset.range uf.length).filter (fun k => rootD uf k = j)) := by
      rw [← Finset.filter_or]
      apply Finset.filter_congr
      intro k _
      rw [hroots k]
      by_cases h : rootD uf k = i
      · simp [h]
      · simp [h]
    rw [hset, Finset.card_union_of_disjoint]
    rw [Finset.disjoint_filter]
    intro k _ hk1 hk2
    exact hij (hk1 ▸ hk2 ▸ rfl)
  · intro r hri hrj
    unfold classCard
    rw [hlen]
    congr 1
    apply Finset.filter_congr
    intro k _
    rw [hroots k]
    by_cases h : rootD uf k = i
    · rw [if_pos h, h]
      constructor
      · intro e
        exact absurd e.symm hrj
      · intro e
        exact absurd e.symm hri
    · rw [if_neg h]

/-- Number of distinct union-find classes among the first `N` cells. -/
def numClasses (uf : List ℤ) (N : ℕ) : ℕ :=
  ((Finset.range N).image (fun c => rootD uf c)).card

theorem numClasses_congr {uf uf' : List ℤ}
    (h : ∀ c, rootD uf' c = rootD uf c) (N : ℕ) :
    numClasses uf' N = numClasses uf N := by
  unfold numClasses
  congr 1
  exact Finset.image_congr (fun c _ => h c)

/-- A successful link merges exactly two of the classes seen among the
first `N` cells. -/
theorem numClasses_link {uf uf' : List ℤ} {i j : ℕ}
    (hroots : ∀ c, rootD uf' c = if rootD uf c = i then j else rootD uf c)
    (hij : i ≠ j) {N a b : ℕ} (ha : a < N) (hb : b < N)
    (hra : rootD uf a = i) (hrb : rootD uf b = j) :
    numClasses uf' N + 1 = numClasses uf N := by
  unfold numClasses
  have himg : (Finset.range N).image (fun c => rootD uf' c) =
      ((Finset.range N).image (fun c => rootD uf c)).erase i := by
    ext y
    simp only [Finset.mem_image, Finset.mem_erase, Finset.mem_range]
    constructor
    · rintro ⟨x, hx, rfl⟩
      rw [hroots x]
      by_cases h : rootD uf x = i
      · rw [if_pos h]
        exact ⟨fun e => hij e.symm, b, hb, hrb⟩
      · rw [if_neg h]
        exact ⟨h, x, hx, rfl⟩
    · rintro ⟨hy, x, hx, rfl⟩
      exact ⟨x, hx, by rw [hroots x, if_neg hy]⟩
  have hmem : i ∈ (Finset.range N).image (fun c => rootD uf c) :=
    Finset.mem_image.mpr ⟨a, Finset.mem_range.mpr ha, hra⟩
  rw [himg, Finset.card_erase_of_mem hmem]
  have : 1 ≤ ((Finset.range N).image (fun c => rootD uf c)).card :=
    Finset.card_pos.mpr ⟨i, hmem⟩
  omega

theorem unionAux_spec {uf2 : List ℤ} {i j : ℕ} (hWFS : WFS uf2)
    (hi : uf2.getD i (-1) < 0) (hj : uf2.getD j (-1) < 0)
    (hilen : i < uf2.length) (hjlen : j < uf2.length) :
    (i = j → unionAux uf2 i j = (uf2, false)) ∧
    (i ≠ j →
      (unionAux uf2 i j).2 = true ∧
      WFS (unionAux uf2 i j).1 ∧
      (unionAux uf2 i j).1.length = uf2.length ∧
      (classCard uf2 i ≤ classCard uf2 j →
        (∀ c, rootD (unionAux uf2 i j).1 c =
          if rootD uf2 c = i then j else rootD uf2 c) ∧
        (unionAux uf2 i j).1.getD j (-1) =
          -((classCard uf2 i : ℤ) + (classCard uf2 j : ℤ))) ∧
      (classCard uf2 j < classCard uf2 i →
        (∀ c, rootD (unionAux uf2 i j).1 c =
          if rootD uf2 c = j then i else rootD uf2 c) ∧
        (unionAux uf2 i j).1.getD i (-1) =
          -((classCard uf2 i : ℤ) + (classCard uf2 j : ℤ)))) := by
  constructor
  · intro h
    subst h
    simp [unionAux]
  · intro hij
    have hvi : uf2.getD i (-1) = -(classCard uf2 i : ℤ) := hWFS.2 i hilen hi
    have hvj : uf2.getD j (-1) = -(classCard uf2 j : ℤ) := hWFS.2 j hjlen hj
    have hpi : 1 ≤ classCard uf2 i := classCard_pos hi hilen
    have hpj : 1 ≤ classCard uf2 j := classCard_pos hj hjlen
    by_cases hb : uf2.getD j (-1) ≤ uf2.getD i (-1)
    · have hsz : classCard uf2 i ≤ classCard uf2 j := by
        rw [hvi, hvj] at hb
        omega
      have hres : unionAux uf2 i j =
          ((uf2.set j (uf2.getD j (-1) + uf2.getD i (-1))).set i (j : ℤ),
            true) := by
        rw [unionAux, if_pos hij, if_pos hb]
      have hw : uf2.getD j (-1) + uf2.getD i (-1) < 0 := by
        rw [hvi, hvj]
        omega
      obtain ⟨l1, l2, l3, l4, l5, l6⟩ :=
        link_spec hWFS.1 hi hj hij hilen hjlen hw
      obtain ⟨cc1, cc2⟩ := classCard_link l2 l3 hij
      rw [hres]
      dsimp only
      refine ⟨rfl, ⟨l1, ?_⟩, l2, fun _ => ⟨l3, ?_⟩, fun hlt => absurd hlt (by omega)⟩
      · -- size bookkeeping for the merged array
        intro r hrlen hrroot
        by_cases hri : r = i
        · subst hri
          rw [l5] at hrroot
          omega
        · by_cases hrj : r = j
          · subst hrj
            rw [l4, cc1, hvi, hvj]
            push_cast
            ring
          · rw [l6 r hri hrj] at hrroot ⊢
            rw [hWFS.2 r (by rw [l2] at hrlen; exact hrlen) hrroot,
              cc2 r hri hrj]
      · rw [l4, hvi, hvj]
        ring
    · have hsz : classCard uf2 j < classCard uf2 i := by
        rw [hvi, hvj] at hb
        omega
      have hres : unionAux uf2 i j =
          ((uf2.set i (uf2.getD i (-1) + uf2.getD j (-1))).set j (i : ℤ),
            true) := by
        rw [unionAux, if_pos hij, if_neg hb]
      have hw : uf2.getD i (-1) + uf2.getD j (-1) < 0 := by
        rw [hvi, hvj]
        omega
      obtain ⟨l1, l2, l3, l4, l5, l6⟩ :=
        link_spec hWFS.1 hj hi (Ne.symm hij) hjlen hilen hw
      obtain ⟨cc1, cc2⟩ := classCard_link l2 l3 (Ne.symm hij)
      rw [hres]
      dsimp only
      refine ⟨rfl, ⟨l1, ?_⟩, l2, fun hle => absurd hle (by omega),
        fun _ => ⟨l3, ?_⟩⟩
      · intro r hrlen hrroot
        by_cases hrj : r = j
        · subst hrj
          rw [l5] at hrroot
          omega
        · by_cases hri : r = i
          · subst hri
            rw [l4, cc1, hvi, hvj]
            push_cast
            ring
          · rw [l6 r hrj hri] at hrroot ⊢
            rw [hWFS.2 r (by rw [l2] at hrlen; exact hrlen) hrroot,
              cc2 r hrj hri]
      · rw [l4, hvi, hvj]
        ring

/-- Combined behaviour of `union` over the original array: full invariant
preservation, growth of the backing store, the `false ↔ already same
class` contract, and the partition transformation on success. -/
theorem union_props (uf : List ℤ) (a b : ℕ) (hWFS : WFS uf) :
    WFS (union uf a b).1 ∧
    (union uf a b).1.length = max (max uf.length (a + 1)) (b + 1) ∧
    ((union uf a b).2 = false ↔ rootD uf a = rootD uf b) ∧
    ((union uf a b).2 = false →
      ∀ c, rootD (union uf a b).1 c = rootD uf c) ∧
    ((union uf a b).2 = true →
      ∃ rWin rLose,
        ((rWin = rootD uf a ∧ rLose = rootD uf b) ∨
         (rWin = rootD uf b ∧ rLose = rootD uf a)) ∧
        rWin ≠ rLose ∧
        ∀ c, rootD (union uf a b).1 c =
          if rootD uf c = rLose then rWin else rootD uf c) := by
  obtain ⟨s1a, s1b, s1c, s1d, s1e, s1f⟩ := ufind_spec hWFS.1 a
  have W1 : WFS (ufind uf a).1 := WFS_ufind hWFS a
  obtain ⟨s2a, s2b, s2c, s2d, s2e, s2f⟩ := ufind_spec W1.1 b
  have W2 : WFS (ufind (ufind uf a).1 b).1 := WFS_ufind W1 b
  have hroot2 : ∀ c, rootD (ufind (ufind uf a).1 b).1 c = rootD uf c := by
    intro c
    rw [s2d c, s1d c]
  have hlen2 : (ufind (ufind uf a).1 b).1.length =
      max (max uf.length (a + 1)) (b + 1) := by
    rw [s2b, s1b]
  have hieq : (ufind uf a).2 = rootD uf a := s1c
  have hjeq : (ufind (ufind uf a).1 b).2 = rootD uf b := by
    rw [s2c, s1d b]
  have halen : a < (ufind (ufind uf a).1 b).1.length := by
    rw [hlen2]
    omega
  have hblen : b < (ufind (ufind uf a).1 b).1.length := by
    rw [hlen2]
    omega
  have hi : (ufind (ufind uf a).1 b).1.getD (rootD uf a) (-1) < 0 := by
    have := rootD_isRoot W2.1 a
    rwa [hroot2 a] at this
  have hj : (ufind (ufind uf a).1 b).1.getD (rootD uf b) (-1) < 0 := by
    have := rootD_isRoot W2.1 b
    rwa [hroot2 b] at this
  have hilen : rootD uf a < (ufind (ufind uf a).1 b).1.length := by
    have := rootD_lt_length W2.1 halen
    rwa [hroot2 a] at this
  have hjlen : rootD uf b < (ufind (ufind uf a).1 b).1.length := by
    have := rootD_lt_length W2.1 hblen
    rwa [hroot2 b] at this
  have hun : union uf a b =
      unionAux (ufind (ufind uf a).1 b).1 (rootD uf a) (rootD uf b) := by
    rw [union, hieq, hjeq]
  obtain ⟨hsame, hdiff⟩ := unionAux_spec W2 hi hj hilen hjlen
  by_cases hab : rootD uf a = rootD uf b
  · have hres : union uf a b = ((ufind (ufind uf a).1 b).1, false) := by
      rw [hun, hsame hab]
    rw [hres]
    refine ⟨W2, hlen2, by simp [hab], fun _ => hroot2, ?_⟩
    intro h
    simp at h
  · obtain ⟨d1, d2, d3, d4, d5⟩ := hdiff hab
    rw [hun]
    refine ⟨d2, by rw [d3, hlen2], ?_, ?_, ?_⟩
    · constructor
      · intro h
        rw [d1] at h
        simp at h
      · intro h
        exact absurd h hab
    · intro h
      rw [d1] at h
      simp at h
    · intro _
      rcases le_or_lt (classCard (ufind (ufind uf a).1 b).1 (rootD uf a))
          (classCard (ufind (ufind uf a).1 b).1 (rootD uf b)) with hle | hlt
      · refine ⟨rootD uf b, rootD uf a, Or.inr ⟨rfl, rfl⟩, Ne.symm hab, ?_⟩
        intro c
        rw [(d4 hle).1 c, hroot2 c]
      · refine ⟨rootD uf a, rootD uf b, Or.inl ⟨rfl, rfl⟩, hab, ?_⟩
        intro c
        rw [(d5 hlt).1 c, hroot2 c]

/-- Cells in the same class stay in the same class across any `union`. -/
theorem union_monotone {uf : List ℤ} (hWFS : WFS uf) (a b : ℕ) {c d : ℕ}
    (h : rootD uf c = rootD uf d) :
    rootD (union uf a b).1 c = rootD (union uf a b).1 d := by
  obtain ⟨_, _, _, p4, p5⟩ := union_props uf a b hWFS
  cases hres : (union uf a b).2 with
  | false => rw [p4 hres c, p4 hres d, h]
  | true =>
    obtain ⟨rWin, rLose, _, _, hform⟩ := p5 hres
    rw [hform c, hform d, h]

/-- After `union uf a b` (success or failure) the two argument cells are
in the same class. -/
theorem union_connects {uf : List ℤ} (hWFS : WFS uf) (a b : ℕ) :
    rootD (union uf a b).1 a = rootD (union uf a b).1 b := by
  obtain ⟨_, _, p3, p4, p5⟩ := union_props uf a b hWFS
  cases hres : (union uf a b).2 with
  | false => rw [p4 hres a, p4 hres b, p3.mp hres]
  | true =>
    obtain ⟨rWin, rLose, hassign, hne, hform⟩ := p5 hres
    have hab : rootD uf a ≠ rootD uf b := by
      intro h
      have := p3.mpr h
      rw [hres] at this
      simp at this
    rw [hform a, hform b]
    rcases hassign with ⟨hw, hl⟩ | ⟨hw, hl⟩
    · rw [hw, hl, if_neg hab, if_pos rfl]
    · rw [hw, hl, if_pos rfl, if_neg (fun e => hab e.symm)]

/-- A successful `union` merges exactly two classes among the first `N`
cells; a failed one changes nothing. -/
theorem union_numClasses {uf : List ℤ} (hWFS : WFS uf) {a b N : ℕ}
    (ha : a < N) (hb : b < N) :
    ((union uf a b).2 = true →
      numClasses (union uf a b).1 N + 1 = numClasses uf N) ∧
    ((union uf a b).2 = false →
      numClasses (union uf a b).1 N = numClasses uf N) := by
  obtain ⟨_, _, p3, p4, p5⟩ := union_props uf a b hWFS
  constructor
  · intro hres
    obtain ⟨rWin, rLose, hassign, hne, hform⟩ := p5 hres
    rcases hassign with ⟨hw, hl⟩ | ⟨hw, hl⟩
    · exact numClasses_link hform (Ne.symm hne) hb ha (hl ▸ rfl) (hw ▸ rfl)
    · exact numClasses_link hform (Ne.symm hne) ha hb (hl ▸ rfl) (hw ▸ rfl)
  · intro hres
    exact numClasses_congr (p4 hres) N

/-- Unfolding of `union` in terms of the roots of the original array. -/
theorem union_unfold {uf : List ℤ} (hWFS : WFS uf) (a b : ℕ) :
    union uf a b =
      unionAux (ufind (ufind uf a).1 b).1 (rootD uf a) (rootD uf b) := by
  obtain ⟨_, _, s1c, s1d, _, _⟩ := ufind_spec hWFS.1 a
  obtain ⟨_, _, s2c, _, _, _⟩ := ufind_spec (WFS_ufind hWFS a).1 b
  rw [union, s1c, s2c, s1d b]

/-- C5.  `union(a, b)` returns `false` and preserves the partition when
the two cells already share a root; otherwise it returns `true` and merges
by size: comparing the stored sizes in the post-find array, the root with
the strictly larger class absorbs the other, a tie is resolved in favour
of the second argument's root, the surviving root stores the negated sum
of both sizes, and the invariant "every in-range root stores `-size` with
`size ≥ 1`" is preserved. -/
theorem union_merges_by_size (uf : List ℤ) (a b : ℕ) (hWFS : WFS uf) :
    ((union uf a b).2 = false ↔ rootD uf a = rootD uf b) ∧
    ((union uf a b).2 = false →
      ∀ c, rootD (union uf a b).1 c = rootD uf c) ∧
    (rootD uf a ≠ rootD uf b →
      (union uf a b).2 = true ∧
      (classCard (ufind (ufind uf a).1 b).1 (rootD uf a) ≤
          classCard (ufind (ufind uf a).1 b).1 (rootD uf b) →
        (∀ c, rootD (union uf a b).1 c =
          if rootD uf c = rootD uf a then rootD uf b else rootD uf c) ∧
        (union uf a b).1.getD (rootD uf b) (-1) =
          -((classCard (ufind (ufind uf a).1 b).1 (rootD uf a) : ℤ) +
            (classCard (ufind (ufind uf a).1 b).1 (rootD uf b) : ℤ))) ∧
      (classCard (ufind (ufind uf a).1 b).1 (rootD uf b) <
          classCard (ufind (ufind uf a).1 b).1 (rootD uf a) →
        (∀ c, rootD (union uf a b).1 c =
          if rootD uf c = rootD uf b then rootD uf a else rootD uf c) ∧
        (union uf a b).1.getD (rootD uf a) (-1) =
          -((classCard (ufind (ufind uf a).1 b).1 (rootD uf a) : ℤ) +
            (classCard (ufind (ufind uf a).1 b).1 (rootD uf b) : ℤ)))) ∧
    (∀ r, r < (union uf a b).1.length → (union uf a b).1.getD r (-1) < 0 →
      (union uf a b).1.getD r (-1) = -(classCard (union uf a b).1 r : ℤ) ∧
      1 ≤ classCard (union uf a b).1 r) := by
  obtain ⟨s1a, s1b, s1c, s1d, s1e, s1f⟩ := ufind_spec hWFS.1 a
  have W1 : WFS (ufind uf a).1 := WFS_ufind hWFS a
  obtain ⟨s2a, s2b, s2c, s2d, s2e, s2f⟩ := ufind_spec W1.1 b
  have W2 : WFS (ufind (ufind uf a).1 b).1 := WFS_ufind W1 b
  have hroot2 : ∀ c, rootD (ufind (ufind uf a).1 b).1 c = rootD uf c := by
    intro c
    rw [s2d c, s1d c]
  have hlen2 : (ufind (ufind uf a).1 b).1.length =
      max (max uf.length (a + 1)) (b + 1) := by
    rw [s2b, s1b]
  have halen : a < (ufind (ufind uf a).1 b).1.length := by
    rw [hlen2]; omega
  have hblen : b < (ufind (ufind uf a).1 b).1.length := by
    rw [hlen2]; omega
  have hi : (ufind (ufind uf a).1 b).1.getD (rootD uf a) (-1) < 0 := by
    have := rootD_isRoot W2.1 a
    rwa [hroot2 a] at this
  have hj : (ufind (ufind uf a).1 b).1.getD (rootD uf b) (-1) < 0 := by
    have := rootD_isRoot W2.1 b
    rwa [hroot2 b] at this
  have hilen : rootD uf a < (ufind (ufind uf a).1 b).1.length := by
    have := rootD_lt_length W2.1 halen
    rwa [hroot2 a] at this
  have hjlen : rootD uf b < (ufind (ufind uf a).1 b).1.length := by
    have := rootD_lt_length W2.1 hblen
    rwa [hroot2 b] at this
  have hun := union_unfold hWFS a b
  obtain ⟨hsame, hdiff⟩ := unionAux_spec W2 hi hj hilen hjlen
  obtain ⟨uP1, _, uP3, uP4, _⟩ := union_props uf a b hWFS
  refine ⟨uP3, fun h c => uP4 h c, ?_, ?_⟩
  · intro hab
    obtain ⟨d1, d2, d3, d4, d5⟩ := hdiff hab
    rw [hun]
    refine ⟨d1, ?_, ?_⟩
    · intro hle
      obtain ⟨hf, hv⟩ := d4 hle
      exact ⟨fun c => by rw [hf c, hroot2 c], hv⟩
    · intro hlt
      obtain ⟨hf, hv⟩ := d5 hlt
      exact ⟨fun c => by rw [hf c, hroot2 c], hv⟩
  · intro r hrlen hrroot
    exact ⟨uP1.2 r hrlen hrroot, classCard_pos hrroot hrlen⟩

/-- C5 witness: on the empty array, cells 0 and 1 are distinct singleton
classes, so `union [] 0 1` succeeds. -/
theorem union_merges_by_size_witness :
    ((union ([] : List ℤ) 0 1).2 = false ↔
      rootD ([] : List ℤ) 0 = rootD ([] : List ℤ) 1) ∧
    (union ([] : List ℤ) 0 1).2 = true :=
  ⟨(union_merges_by_size [] 0 1 WFS_nil).1,
   ((union_merges_by_size [] 0 1 WFS_nil).2.2.1 (by decide)).1⟩

/-- C10.  `ufind` never changes the partition of cells into classes; the
returned index is the root of the caller's class and its entry is
negative; entries it rewrites all lie in the caller's class; growth only
pads the array with fresh `-1` singleton roots. -/
theorem ufind_partition_invariant (uf : List ℤ) (cell : ℕ) (hWF : WF uf) :
    (∀ a b, rootD (ufind uf cell).1 a = rootD (ufind uf cell).1 b ↔
      rootD uf a = rootD uf b) ∧
    (ufind uf cell).1.getD (ufind uf cell).2 (-1) < 0 ∧
    (ufind uf cell).2 = rootD uf cell ∧
    (∀ i, (ufind uf cell).1.getD i (-1) ≠ uf.getD i (-1) →
      rootD uf i = rootD uf cell ∧ 0 ≤ uf.getD i (-1)) ∧
    (ufind uf cell).1.length = max uf.length (cell + 1) ∧
    (∀ i, uf.length ≤ i → (ufind uf cell).1.getD i (-1) = -1) := by
  obtain ⟨w1, w2, w3, w4, w5, w6⟩ := ufind_spec hWF cell
  refine ⟨?_, ?_, w3, ?_, w2, ?_⟩
  · intro a b
    rw [w4 a, w4 b]
  · have := rootD_isRoot w1 cell
    rwa [w4 cell, ← w3] at this
  · intro i hi
    exact ⟨w6 i hi, (ufind_changed hWF cell i hi).1⟩
  · intro i hile
    have hdefault : uf.getD i (-1) = -1 := List.getD_eq_default uf (-1) hile
    by_cases hch : (ufind uf cell).1.getD i (-1) = uf.getD i (-1)
    · rw [hch, hdefault]
    · have := (ufind_changed hWF cell i hch).1
      rw [hdefault] at this
      omega

/-- Wellformedness of the concrete two-cell array `[-1, 0]` (cell 1's
parent is the root 0). -/
theorem WF_pair : WF [(-1 : ℤ), 0] := by
  constructor
  · intro i hi
    match i with
    | 0 => simp [List.getD] at hi
    | 1 => simp [List.getD]
    | n + 2 =>
      rw [List.getD_eq_default _ _ (by simp)] at hi
      omega
  · intro c
    match c with
    | 0 => exact ⟨0, Reaches.of_root (by simp [List.getD])⟩
    | 1 =>
      refine ⟨0, Reaches.step (by simp [List.getD]) ?_⟩
      exact Reaches.of_root (by simp [List.getD])
    | n + 2 =>
      exact ⟨n + 2, Reaches.of_root
        (by rw [List.getD_eq_default _ _ (by simp)]; omega)⟩

/-- C10 witness: a concrete find on `[-1, 0]`. -/
theorem ufind_partition_invariant_witness :
    (ufind [(-1 : ℤ), 0] 1).2 = rootD [(-1 : ℤ), 0] 1 ∧
    (ufind [(-1 : ℤ), 0] 1).1.getD (ufind [(-1 : ℤ), 0] 1).2 (-1) < 0 :=
  ⟨(ufind_partition_invariant [(-1 : ℤ), 0] 1 WF_pair).2.2.1,
   (ufind_partition_invariant [(-1 : ℤ), 0] 1 WF_pair).2.1⟩

/-! Generation state machine (maze_solver_bfs.py lines 68-337).  The
`random` module is an explicit stream `rng : ℕ → ℚ` of draws in `[0,1)`
consumed at cursor `pos`; `random.randrange(n)` realises a draw `q` as
`⌊q·n⌋` and `random.random()` uses `q` itself. -/

/-- Draws in the stream all lie in `[0, 1)`, as `random.random()` and the
scaling inside `randrange` guarantee. -/
def ValidRng (rng : ℕ → ℚ) : Prop := ∀ i, 0 ≤ rng i ∧ rng i < 1

/-- Value of `random.randrange(n)` realised from the stream draw `q`. -/
def randIntQ (q : ℚ) (n : ℕ) : ℕ := (q * n).floor.toNat

theorem randIntQ_lt {q : ℚ} (h0 : 0 ≤ q) (h1 : q < 1) {n : ℕ} (hn : 0 < n) :
    randIntQ q n < n := by
  unfold randIntQ
  have hb : (q * (n : ℚ)).floor = ⌊q * (n : ℚ)⌋ := rfl
  rw [hb]
  have hn' : (0 : ℚ) < n := by exact_mod_cast hn
  have h2 : ⌊q * (n : ℚ)⌋ < (n : ℤ) := by
    apply Int.floor_lt.mpr
    push_cast
    calc q * n < 1 * n := mul_lt_mul_of_pos_right h1 hn'
    _ = n := one_mul _
  have h3 : (0 : ℤ) ≤ ⌊q * (n : ℚ)⌋ := Int.floor_nonneg.mpr (by positivity)
  omega

/-- List insertion `arr.insert(k, item)`; Python clamps positions past the
end and so does this definition. -/
def pushAt (k : ℕ) (item : ℕ) (l : List ℕ) : List ℕ :=
  l.take k ++ item :: l.drop k

/-- Embedding of `push_rand` (maze_solver_bfs.py lines 74-78): insert at a
position drawn uniformly from `[0, len]`. -/
def pushRand (q : ℚ) (item : ℕ) (l : List ℕ) : List ℕ :=
  pushAt (randIntQ q (l.length + 1)) item l

theorem pushAt_length (k item : ℕ) (l : List ℕ) :
    (pushAt k item l).length = l.length + 1 := by
  unfold pushAt
  rw [List.length_append, List.length_cons, List.length_take,
    List.length_drop]
  omega

theorem pushRand_length (q : ℚ) (item : ℕ) (l : List ℕ) :
    (pushRand q item l).length = l.length + 1 := pushAt_length _ _ _

theorem mem_pushAt {k item a : ℕ} {l : List ℕ} :
    a ∈ pushAt k item l ↔ a = item ∨ a ∈ l := by
  unfold pushAt
  simp only [List.mem_append, List.mem_cons]
  constructor
  · rintro (h | h | h)
    · exact Or.inr (List.mem_of_mem_take h)
    · exact Or.inl h
    · exact Or.inr (List.mem_of_mem_drop h)
  · rintro (h | h)
    · exact Or.inr (Or.inl h)
    · rcases List.mem_append.mp
        (by rw [List.take_append_drop k l]; exact h :
          a ∈ l.take k ++ l.drop k) with h' | h'
      · exact Or.inl h'
      · exact Or.inr (Or.inr h')

theorem mem_pushRand {q : ℚ} {item a : ℕ} {l : List ℕ} :
    a ∈ pushRand q item l ↔ a = item ∨ a ∈ l := mem_pushAt

/-- Generation state: union-find array, the nine wall queues of wall
indices (total function; indices ≥ 9 stay empty), the wall table
`walls_by_index`, entrance/exit columns, and the cursor of the next
unread random draw. -/
structure GState where
  uf : List ℤ
  queues : ℕ → List ℕ
  walls : List (Option Wall)
  startx : ℕ
  finishx : ℕ
  pos : ℕ

/-- Wall-table lookup `get_wall` (maze_solver_bfs.py lines 123-133). -/
def getWallS (W H : ℕ) (walls : List (Option Wall)) (x y : ℤ)
    (hor : Bool) : Option Wall :=
  if 0 ≤ x ∧ x < (W : ℤ) ∧ 0 ≤ y ∧ y < (H : ℤ) then
    walls.getD ((y.toNat * W + x.toNat) * 2 + (if hor then 0 else 1)) none
  else none

/-- Neighbour lookup `get_neighbour` (maze_solver_bfs.py lines 135-149)
reading the current wall table. -/
def getNeighbourS (W H : ℕ) (walls : List (Option Wall)) (w : Wall)
    (n : ℕ) : Option Wall :=
  match (if w.dr then hOffsetsBfs else vOffsetsBfs).get? n with
  | none => none
  | some (dx, dy, ndr) =>
    getWallS W H walls ((w.wx : ℤ) + dx) ((w.wy : ℤ) + dy) ndr

/-- Index of a wall record in `walls_by_index` (the address the scripts
compute in `get_wall`). -/
def wallIdx (W : ℕ) (w : Wall) : ℕ :=
  (w.wy * W + w.wx) * 2 + (if w.dr then 0 else 1)

/-- Re-classification `t1 * 3 + t2` computed by `update_wall_type`
(maze_solver_bfs.py lines 183-185): end type of the neighbour triple
`0,1,2` times three plus end type of the triple `3,4,5`. -/
def wallTypeOf (W H : ℕ) (walls : List (Option Wall)) (w : Wall) : ℕ :=
  getWallEndType (getNeighbourS W H walls w 0) (getNeighbourS W H walls w 1)
      (getNeighbourS W H walls w 2) * 3 +
    getWallEndType (getNeighbourS W H walls w 3)
      (getNeighbourS W H walls w 4) (getNeighbourS W H walls w 5)

/-- Embedding of `update_wall_type` (maze_solver_bfs.py lines 172-188) on
the wall stored at index `wi`: when the recomputed type strictly exceeds
the stored one, store it and push one fresh reference into the new type's
queue at a random position. -/
def updateWallType (W H : ℕ) (rng : ℕ → ℚ) (s : GState) (wi : ℕ) : GState :=
  match s.walls.getD wi none with
  | none => s
  | some w =>
    if w.typ < wallTypeOf W H s.walls w then
      { s with
        walls := s.walls.set wi (some { w with typ := wallTypeOf W H s.walls w }),
        queues := Function.update s.queues (wallTypeOf W H s.walls w)
          (pushRand (rng s.pos) wi (s.queues (wallTypeOf W H s.walls w))),
        pos := s.pos + 1 }
    else s

/-- Neighbour re-classification loop of `try_wall` (maze_solver_bfs.py
lines 251-254), visiting neighbour indices in order. -/
def updateNeighbours (W H : ℕ) (rng : ℕ → ℚ) (w : Wall) :
    GState → List ℕ → GState
  | s, [] => s
  | s, n :: rest =>
    match getNeighbourS W H s.walls w n with
    | some nb =>
      updateNeighbours W H rng w (updateWallType W H rng s (wallIdx W nb)) rest
    | none => updateNeighbours W H rng w s rest

/-- Embedding of `try_wall` (maze_solver_bfs.py lines 227-255). -/
def tryWall (W H : ℕ) (rng : ℕ → ℚ) (s : GState) (wi : ℕ) : GState × Bool :=
  match s.walls.getD wi none with
  | none => (s, false)
  | some w =>
    if w.clr then (s, false)
    else
      let c1 := w.wy * W + w.wx
      let res := union s.uf c1 (c1 + (if w.dr then 1 else W))
      if res.2 then
        (updateNeighbours W H rng w
          { s with
            uf := res.1,
            walls := s.walls.set wi (some { w with clr := true }) }
          [0, 1, 2, 3, 4, 5], true)
      else ({ s with uf := res.1 }, false)

/-- Weighted total
`sum(len(wall_queues[i]) * weights[i] for i in range(9))`. -/
def totalWeight (qs : ℕ → List ℕ) : Qrt2 :=
  (List.range 9).foldl
    (fun acc i => acc.add (Qrt2.scaleN (qs i).length (weightOf i))) Qrt2.zero

/-- Weighted bucket-selection loop of `step` (maze_solver_bfs.py lines
274-282) including the `else` fallback to bucket 0. -/
def selLoop (qs : ℕ → List ℕ) : List ℕ → Qrt2 → ℕ
  | [], _ => 0
  | i :: rest, w =>
    if Qrt2.ltb w (Qrt2.scaleN (qs i).length (weightOf i)) then i
    else selLoop qs rest (w.sub (Qrt2.scaleN (qs i).length (weightOf i)))

/-- Outcome of one generation step: `done` is Python's `return False`;
`cont o` is `return True`, with `o` the index of a wall opened during the
step (the event the renderer is told to paint), if any. -/
inductive StepOut where
  | done : StepOut
  | cont : Option ℕ → StepOut
deriving DecidableEq, Repr

/-- Pop-and-try phase of `step` (maze_solver_bfs.py lines 284-290): bail
out on an empty bucket, pop the last entry, discard stale entries
(`wall['typ'] != queue_index`), otherwise run `try_wall`. -/
def stepPop (W H : ℕ) (rng : ℕ → ℚ) (s0 : GState) (qi : ℕ) :
    GState × StepOut :=
  match (s0.queues qi).getLast? with
  | none => (s0, .cont none)
  | some wi =>
    let s1 := { s0 with
      queues := Function.update s0.queues qi (s0.queues qi).dropLast }
    match s1.walls.getD wi none with
    | none => (s1, .cont none)
    | some w =>
      if w.typ = qi then
        ((tryWall W H rng s1 wi).1,
          .cont (if (tryWall W H rng s1 wi).2 then some wi else none))
      else (s1, .cont none)

/-- Embedding of `step` (maze_solver_bfs.py lines 260-290): weighted
bucket selection (consuming one `random.random()` draw), then the pop
phase.  The `progress_time` pacing update touches no algorithmic state
and is omitted. -/
def step (W H : ℕ) (rng : ℕ → ℚ) (s : GState) : GState × StepOut :=
  if (totalWeight s.queues).posb = false then (s, .done)
  else
    stepPop W H rng { s with pos := s.pos + 1 }
      (selLoop s.queues (List.range 9)
        ((totalWeight s.queues).mul (Qrt2.ofRat (rng s.pos))))

/-- Wall-creation accumulator used while embedding `init`. -/
structure BState where
  walls : List (Option Wall)
  q0 : List ℕ
  pos : ℕ

/-- Append one wall slot; a real wall (`some`) is also pushed into queue 0
at a random position (maze_solver_bfs.py lines 316-335). -/
def addWall (rng : ℕ → ℚ) (b : BState) (ow : Option Wall) : BState :=
  match ow with
  | some _ =>
    { walls := b.walls ++ [ow],
      q0 := pushRand (rng b.pos) b.walls.length b.q0,
      pos := b.pos + 1 }
  | none => { b with walls := b.walls ++ [none] }

/-- Embedding of `init` (maze_solver_bfs.py lines 292-337): reset all
structures, draw the entrance and exit columns, then for each cell in
row-major order create a horizontal wall unless in the last column and a
vertical wall unless in the last row, seeding each into queue 0. -/
def initState (W H : ℕ) (rng : ℕ → ℚ) : GState :=
  let b := (List.range H).foldl (fun b y =>
    (List.range W).foldl (fun b x =>
      addWall rng
        (addWall rng b
          (if x < W - 1 then some ⟨x, y, true, 0, false⟩ else none))
        (if y < H - 1 then some ⟨x, y, false, 0, false⟩ else none)) b)
    ⟨[], [], 2⟩
  { uf := [],
    queues := Function.update (fun _ => []) 0 b.q0,
    walls := b.walls,
    startx := randIntQ (rng 0) W,
    finishx := randIntQ (rng 1) W,
    pos := b.pos }

/-- Iterated generation stepping. -/
def stepN (W H : ℕ) (rng : ℕ → ℚ) : ℕ → GState → GState
  | 0, s => s
  | n + 1, s => stepN W H rng n (step W H rng s).1

/-- Number of walls whose removed flag is set. -/
def countClr (walls : List (Option Wall)) : ℕ :=
  walls.countP (fun ow => isClr ow)

/-- Total number of queued entries over the nine buckets. -/
def sumQ (qs : ℕ → List ℕ) : ℕ := ∑ i ∈ Finset.range 9, (qs i).length

theorem getWallEndType_le_two (w1 w2 w3 : Option Wall) :
    getWallEndType w1 w2 w3 ≤ 2 := by
  unfold getWallEndType
  split_ifs <;> omega

/-- Structural description of the wall table: row-major slots, a
horizontal wall at `(y*W+x)*2` except in the last column, a vertical wall
at `(y*W+x)*2+1` except in the last row, records carrying their own
coordinates. -/
def WallsWF (W H : ℕ) (walls : List (Option Wall)) : Prop :=
  walls.length = W * H * 2 ∧
  ∀ x y, x < W → y < H →
    (∀ w, walls.getD ((y * W + x) * 2) none = some w →
      w.wx = x ∧ w.wy = y ∧ w.dr = true) ∧
    (walls.getD ((y * W + x) * 2) none = none ↔ ¬ x < W - 1) ∧
    (∀ w, walls.getD ((y * W + x) * 2 + 1) none = some w →
      w.wx = x ∧ w.wy = y ∧ w.dr = false) ∧
    (walls.getD ((y * W + x) * 2 + 1) none = none ↔ ¬ y < H - 1)

/-- Any stored wall record sits at the index its coordinates encode, has
in-range coordinates, and respects the boundary rules. -/
theorem wallSlot_decode {W H : ℕ} {walls : List (Option Wall)}
    (hWF : WallsWF W H walls) {wi : ℕ} {w : Wall}
    (h : walls.getD wi none = some w) :
    w.wx < W ∧ w.wy < H ∧ wi = wallIdx W w ∧
    (w.dr = true → w.wx + 1 < W) ∧ (w.dr = false → w.wy + 1 < H) := by
  have hlen : wi < walls.length := getD_lt_length h (by simp)
  rw [hWF.1] at hlen
  have hW : 0 < W := by
    by_contra hW0
    push_neg at hW0
    interval_cases W
    simp at hlen
  have hxy : wi / 2 < W * H := by omega
  set x := (wi / 2) % W with hx
  set y := (wi / 2) / W with hy
  have hxW : x < W := Nat.mod_lt _ hW
  have hyH : y < H := by
    rw [hy]
    rw [Nat.div_lt_iff_lt_mul hW]
    rw [Nat.mul_comm]
    exact hxy
  have hyx : y * W + x = wi / 2 := by
    rw [hx, hy, Nat.mul_comm]
    exact Nat.div_add_mod _ _
  have hwi : (y * W + x) * 2 + wi % 2 = wi := by
    rw [hyx]
    omega
  obtain ⟨c1, c2, c3, c4⟩ := hWF.2 x y hxW hyH
  rcases Nat.mod_two_eq_zero_or_one wi with ho | ho
  · have hwi0 : (y * W + x) * 2 = wi := by omega
    rw [hwi0] at c1 c2
    obtain ⟨e1, e2, e3⟩ := c1 w h
    have hbx : x < W - 1 := by
      by_contra hbx
      rw [← c2] at hbx
      rw [h] at hbx
      exact (Option.some_ne_none w) hbx
    refine ⟨by omega, by omega, ?_, ?_, ?_⟩
    · rw [wallIdx, e1, e2, e3, if_pos rfl]
      omega
    · intro _
      omega
    · intro hf
      rw [e3] at hf
      simp at hf
  · have hwi1 : (y * W + x) * 2 + 1 = wi := by omega
    rw [hwi1] at c3 c4
    obtain ⟨e1, e2, e3⟩ := c3 w h
    have hby : y < H - 1 := by
      by_contra hby
      rw [← c4] at hby
      rw [h] at hby
      exact (Option.some_ne_none w) hby
    refine ⟨by omega, by omega, ?_, ?_, ?_⟩
    · rw [wallIdx, e1, e2, e3]
      simp only [Bool.false_eq_true, if_false]
      omega
    · intro ht
      rw [e3] at ht
      simp at ht
    · intro _
      omega

/-- The two cells separated by a stored wall are in range, and so are the
cells' flattened indices used by `try_wall`. -/
theorem cellBounds {W H : ℕ} {walls : List (Option Wall)}
    (hWF : WallsWF W H walls) {wi : ℕ} {w : Wall}
    (h : walls.getD wi none = some w) :
    w.wy * W + w.wx < W * H ∧
    w.wy * W + w.wx + (if w.dr then 1 else W) < W * H := by
  obtain ⟨hx, hy, _, hbx, hby⟩ := wallSlot_decode hWF h
  have hyW : (w.wy + 1) * W ≤ H * W := Nat.mul_le_mul_right W hy
  have hc1 : w.wy * W + w.wx < W * H := by
    have : w.wy * W + w.wx < (w.wy + 1) * W := by
      rw [Nat.succ_mul]
      omega
    rw [Nat.mul_comm W H]
    omega
  refine ⟨hc1, ?_⟩
  cases hdr : w.dr with
  | true =>
    have hbx' := hbx hdr
    have : w.wy * W + (w.wx + 1) < (w.wy + 1) * W := by
      rw [Nat.succ_mul]
      omega
    rw [if_pos rfl, Nat.mul_comm W H]
    omega
  | false =>
    have hby' := hby hdr
    have hyW2 : (w.wy + 1 + 1) * W ≤ H * W := Nat.mul_le_mul_right W hby'
    have : w.wy * W + w.wx + W < (w.wy + 1 + 1) * W := by
      rw [Nat.succ_mul, Nat.succ_mul]
      omega
    simp only [Bool.false_eq_true, if_false]
    rw [Nat.mul_comm W H]
    omega

theorem foldl_add_val (qs : ℕ → List ℕ) (l : List ℕ) :
    ∀ acc : Qrt2,
      (l.foldl (fun a i => a.add (Qrt2.scaleN (qs i).length (weightOf i)))
        acc).val =
      acc.val +
        (l.map (fun i => ((qs i).length : ℝ) * (weightOf i).val)).sum := by
  induction l with
  | nil =>
    intro acc
    simp
  | cons i rest ih =>
    intro acc
    rw [List.foldl_cons, ih, List.map_cons, List.sum_cons, Qrt2.val_add,
      Qrt2.val_scaleN]
    ring

theorem totalWeight_val (qs : ℕ → List ℕ) :
    (totalWeight qs).val =
      ((List.range 9).map
        (fun i => ((qs i).length : ℝ) * (weightOf i).val)).sum := by
  rw [totalWeight, foldl_add_val, Qrt2.val_zero, zero_add]

theorem sum_nonpos_all_zero {l : List ℝ} (h : ∀ x ∈ l, 0 ≤ x)
    (hs : l.sum ≤ 0) : ∀ x ∈ l, x = 0 := by
  induction l with
  | nil => intro x hx; simp at hx
  | cons a t ih =>
    rw [List.sum_cons] at hs
    have ha : 0 ≤ a := h a (List.mem_cons_self a t)
    have ht : 0 ≤ t.sum :=
      List.sum_nonneg (fun x hx => h x (List.mem_cons_of_mem a hx))
    intro x hx
    rcases List.mem_cons.mp hx with rfl | hx
    · linarith
    · exact ih (fun y hy => h y (List.mem_cons_of_mem a hy)) (by linarith) x hx

/-- `total_weight <= 0` happens exactly when all nine queues are empty. -/
theorem totalWeight_notPos_iff (qs : ℕ → List ℕ) :
    (totalWeight qs).posb = false ↔ ∀ i, i < 9 → qs i = [] := by
  rw [Qrt2.not_posb_iff, totalWeight_val]
  have hterm : ∀ x ∈ (List.range 9).map
      (fun i => ((qs i).length : ℝ) * (weightOf i).val), 0 ≤ x := by
    intro x hx
    obtain ⟨i, _, rfl⟩ := List.mem_map.mp hx
    exact mul_nonneg (Nat.cast_nonneg _) (weightOf_pos i).le
  constructor
  · intro hs i hi
    have hz := sum_nonpos_all_zero hterm hs
      (((qs i).length : ℝ) * (weightOf i).val)
      (List.mem_map.mpr ⟨i, List.mem_range.mpr hi, rfl⟩)
    have := weightOf_pos i
    have hlen : ((qs i).length : ℝ) = 0 := by
      rcases mul_eq_zero.mp hz with h | h
      · exact h
      · linarith
    have : (qs i).length = 0 := by exact_mod_cast hlen
    exact List.length_eq_zero.mp this
  · intro h
    have : ∀ x ∈ (List.range 9).map
        (fun i => ((qs i).length : ℝ) * (weightOf i).val), x = 0 := by
      intro x hx
      obtain ⟨i, hi, rfl⟩ := List.mem_map.mp hx
      rw [h i (List.mem_range.mp hi)]
      simp
    rw [List.sum_eq_zero this]

/-- The bucket the weighted selection loop lands on is never empty, as
long as the threshold is nonnegative and below the remaining weight. -/
theorem selLoop_sound (qs : ℕ → List ℕ) :
    ∀ (l : List ℕ) (w : Qrt2), 0 ≤ w.val →
      w.val < (l.map (fun i => ((qs i).length : ℝ) * (weightOf i).val)).sum →
      qs (selLoop qs l w) ≠ [] := by
  intro l
  induction l with
  | nil =>
    intro w h0 hlt
    simp at hlt
    linarith
  | cons i rest ih =>
    intro w h0 hlt
    rw [List.map_cons, List.sum_cons] at hlt
    rw [selLoop]
    by_cases hc : Qrt2.ltb w (Qrt2.scaleN (qs i).length (weightOf i)) = true
    · rw [if_pos hc]
      have hv := (Qrt2.ltb_iff _ _).1 hc
      rw [Qrt2.val_scaleN] at hv
      intro hemp
      rw [hemp] at hv
      simp at hv
      linarith
    · rw [if_neg hc]
      have hv : ((qs i).length : ℝ) * (weightOf i).val ≤ w.val := by
        have := (not_iff_not.mpr (Qrt2.ltb_iff w
          (Qrt2.scaleN (qs i).length (weightOf i)))).1 hc
        rw [Qrt2.val_scaleN] at this
        exact not_lt.mp this
      apply ih
      · rw [Qrt2.val_sub, Qrt2.val_scaleN]
        linarith
      · rw [Qrt2.val_sub, Qrt2.val_scaleN]
        linarith

/-- The selection loop lands in its candidate list or falls back to 0. -/
theorem selLoop_mem (qs : ℕ → List ℕ) :
    ∀ (l : List ℕ) (w : Qrt2), selLoop qs l w ∈ l ∨ selLoop qs l w = 0 := by
  intro l
  induction l with
  | nil => intro w; exact Or.inr rfl
  | cons i rest ih =>
    intro w
    rw [selLoop]
    by_cases hc : Qrt2.ltb w (Qrt2.scaleN (qs i).length (weightOf i)) = true
    · rw [if_pos hc]
      exact Or.inl (List.mem_cons_self i rest)
    · rw [if_neg hc]
      rcases ih (w.sub (Qrt2.scaleN (qs i).length (weightOf i))) with h | h
      · exact Or.inl (List.mem_cons_of_mem i h)
      · exact Or.inr h

theorem countClr_set {walls : List (Option Wall)} {wi : ℕ} {w : Wall}
    (h : walls.getD wi none = some w) (ow : Option Wall) :
    countClr (walls.set wi ow) + (if isClr (some w) then 1 else 0) =
      countClr walls + (if isClr ow then 1 else 0) := by
  induction walls generalizing wi with
  | nil => simp [List.getD] at h
  | cons a t ih =>
    cases wi with
    | zero =>
      have ha : a = some w := h
      unfold countClr
      rw [List.set_cons_zero, List.countP_cons, List.countP_cons, ha]
      by_cases h1 : isClr (some w) <;> by_cases h2 : isClr ow <;>
        simp [h1, h2] <;> omega
    | succ n =>
      have ht : t.getD n none = some w := h
      unfold countClr
      rw [List.set_cons_succ, List.countP_cons, List.countP_cons]
      have := ih ht
      unfold countClr at this
      by_cases h1 : isClr a <;> simp [h1] <;> omega

theorem mem_dropLast_of_ne_last {l : List ℕ} {x last : ℕ}
    (hl : l.getLast? = some last) (hx : x ∈ l) (hne : x ≠ last) :
    x ∈ l.dropLast := by
  have hne' : l ≠ [] := by
    intro e
    rw [e] at hl
    simp at hl
  have hdec : l.dropLast ++ [l.getLast hne'] = l :=
    List.dropLast_append_getLast hne'
  have hlast : l.getLast hne' = last := by
    have := List.getLast?_eq_getLast l hne'
    rw [this] at hl
    exact Option.some_injective _ hl
  rw [← hdec] at hx
  rcases List.mem_append.mp hx with h | h
  · exact h
  · rw [hlast] at h
    rcases List.mem_singleton.mp h with rfl
    exact absurd rfl hne

/-- Decomposition of a queue around its popped last entry. -/
theorem eq_dropLast_append_of_getLast {l : List ℕ} {x : ℕ}
    (hl : l.getLast? = some x) : l = l.dropLast ++ [x] := by
  have hne' : l ≠ [] := by
    intro e
    rw [e] at hl
    simp at hl
  have hdec : l.dropLast ++ [l.getLast hne'] = l :=
    List.dropLast_append_getLast hne'
  have hlast : l.getLast hne' = x := by
    have := List.getLast?_eq_getLast l hne'
    rw [this] at hl
    exact Option.some_injective _ hl
  rw [← hlast]
  exact hdec.symm

theorem wallTypeOf_le_eight (W H : ℕ) (walls : List (Option Wall))
    (w : Wall) : wallTypeOf W H walls w ≤ 8 := by
  unfold wallTypeOf
  have h1 := getWallEndType_le_two (getNeighbourS W H walls w 0)
    (getNeighbourS W H walls w 1) (getNeighbourS W H walls w 2)
  have h2 := getWallEndType_le_two (getNeighbourS W H walls w 3)
    (getNeighbourS W H walls w 4) (getNeighbourS W H walls w 5)
  omega

theorem updateWallType_of_none {W H : ℕ} {rng : ℕ → ℚ} {s : GState}
    {wi : ℕ} (h : s.walls.getD wi none = none) :
    updateWallType W H rng s wi = s := by
  unfold updateWallType
  rw [h]

theorem updateWallType_of_le {W H : ℕ} {rng : ℕ → ℚ} {s : GState} {wi : ℕ}
    {w : Wall} (h : s.walls.getD wi none = some w)
    (hle : ¬ w.typ < wallTypeOf W H s.walls w) :
    updateWallType W H rng s wi = s := by
  unfold updateWallType
  rw [h]
  exact if_neg hle

theorem updateWallType_of_lt {W H : ℕ} {rng : ℕ → ℚ} {s : GState} {wi : ℕ}
    {w : Wall} (h : s.walls.getD wi none = some w)
    (hlt : w.typ < wallTypeOf W H s.walls w) :
    updateWallType W H rng s wi =
      { s with
        walls := s.walls.set wi
          (some { w with typ := wallTypeOf W H s.walls w }),
        queues := Function.update s.queues (wallTypeOf W H s.walls w)
          (pushRand (rng s.pos) wi (s.queues (wallTypeOf W H s.walls w))),
        pos := s.pos + 1 } := by
  unfold updateWallType
  rw [h]
  exact if_pos hlt

/-- Overwriting a wall slot with a record carrying the same coordinates
and orientation keeps the wall table structurally wellformed. -/
theorem WallsWF_set {W H : ℕ} {walls : List (Option Wall)} {wi : ℕ}
    {w w' : Wall} (hWF : WallsWF W H walls)
    (h : walls.getD wi none = some w) (hx : w'.wx = w.wx)
    (hy : w'.wy = w.wy) (hd : w'.dr = w.dr) :
    WallsWF W H (walls.set wi (some w')) := by
  have hwi : wi < walls.length := getD_lt_length h (by simp)
  constructor
  · rw [List.length_set]
    exact hWF.1
  · intro x y hxW hyH
    obtain ⟨c1, c2, c3, c4⟩ := hWF.2 x y hxW hyH
    refine ⟨?_, ?_, ?_, ?_⟩
    · intro v hv
      by_cases he : wi = (y * W + x) * 2
      · rw [← he, getD_set_self hwi] at hv
        obtain rfl : w' = v := Option.some_injective _ hv
        rw [← he] at c1
        obtain ⟨e1, e2, e3⟩ := c1 w h
        exact ⟨hx.trans e1, hy.trans e2, hd.trans e3⟩
      · rw [getD_set_ne he] at hv
        exact c1 v hv
    · by_cases he : wi = (y * W + x) * 2
      · rw [← he, getD_set_self hwi]
        rw [← he] at c2
        constructor
        · intro hv
          simp at hv
        · intro hc
          exact absurd (c2.mpr hc ▸ h) (by rw [c2.mpr hc] at h; simp at h)
      · rw [getD_set_ne he]
        exact c2
    · intro v hv
      by_cases he : wi = (y * W + x) * 2 + 1
      · rw [← he, getD_set_self hwi] at hv
        obtain rfl : w' = v := Option.some_injective _ hv
        rw [← he] at c3
        obtain ⟨e1, e2, e3⟩ := c3 w h
        exact ⟨hx.trans e1, hy.trans e2, hd.trans e3⟩
      · rw [getD_set_ne he] at hv
        exact c3 v hv
    · by_cases he : wi = (y * W + x) * 2 + 1
      · rw [← he, getD_set_self hwi]
        rw [← he] at c4
        constructor
        · intro hv
          simp at hv
        · intro hc
          exact absurd (c4.mpr hc ▸ h) (by rw [c4.mpr hc] at h; simp at h)
      · rw [getD_set_ne he]
        exact c4

/-- Pushing one entry into bucket `t < 9` grows the total queue size by
exactly one. -/
theorem sumQ_update_push {qs : ℕ → List ℕ} {t k x : ℕ} (ht : t < 9) :
    sumQ (Function.update qs t (pushAt k x (qs t))) = sumQ qs + 1 := by
  unfold sumQ
  have hcong : ∀ i ∈ Finset.range 9,
      ((Function.update qs t (pushAt k x (qs t)) i).length) =
      Function.update (fun j => (qs j).length) t ((qs t).length + 1) i := by
    intro i _
    by_cases hit : i = t
    · subst hit
      rw [Function.update_same, Function.update_same, pushAt_length]
    · rw [Function.update_noteq hit, Function.update_noteq hit]
  rw [Finset.sum_congr rfl hcong,
    Finset.sum_update_of_mem (Finset.mem_range.mpr ht)]
  rw [← Finset.sum_erase_add (Finset.range 9) _ (Finset.mem_range.mpr ht),
    Finset.erase_eq]
  omega

/-- Inductive invariant of the generation loop. -/
structure Inv (W H : ℕ) (s : GState) : Prop where
  wallsWF : WallsWF W H s.walls
  ufWFS : WFS s.uf
  ufLen : s.uf.length ≤ W * H
  queueHigh : ∀ t, 9 ≤ t → s.queues t = []
  typLe : ∀ wi w, s.walls.getD wi none = some w → w.typ ≤ 8
  pending : ∀ wi w, s.walls.getD wi none = some w → w.clr = false →
    wi ∈ s.queues w.typ ∨
      rootD s.uf (w.wy * W + w.wx) =
        rootD s.uf (w.wy * W + w.wx + (if w.dr then 1 else W))
  removedConn : ∀ wi w, s.walls.getD wi none = some w → w.clr = true →
    rootD s.uf (w.wy * W + w.wx) =
      rootD s.uf (w.wy * W + w.wx + (if w.dr then 1 else W))
  classes : countClr s.walls + numClasses s.uf (W * H) = W * H

theorem updateWallType_inv {W H : ℕ} {rng : ℕ → ℚ} {s : GState} {wi : ℕ}
    (hInv : Inv W H s) :
    Inv W H (updateWallType W H rng s wi) ∧
    (updateWallType W H rng s wi).uf = s.uf ∧
    sumQ (updateWallType W H rng s wi).queues ≤ sumQ s.queues + 1 ∧
    (∀ j w, s.walls.getD j none = some w →
      ∃ w', (updateWallType W H rng s wi).walls.getD j none = some w' ∧
        w'.wx = w.wx ∧ w'.wy = w.wy ∧ w'.dr = w.dr ∧ w'.clr = w.clr ∧
        w.typ ≤ w'.typ) := by
  rcases hslot : s.walls.getD wi none with _ | w
  · rw [updateWallType_of_none hslot]
    exact ⟨hInv, rfl, Nat.le_succ _,
      fun j v h => ⟨v, h, rfl, rfl, rfl, rfl, le_refl _⟩⟩
  · by_cases hlt : w.typ < wallTypeOf W H s.walls w
    · rw [updateWallType_of_lt hslot hlt]
      have hnt8 : wallTypeOf W H s.walls w ≤ 8 := wallTypeOf_le_eight W H s.walls w
      have hwi : wi < s.walls.length := getD_lt_length hslot (by simp)
      refine ⟨?_, rfl, ?_, ?_⟩
      · constructor
        · exact WallsWF_set hInv.wallsWF hslot rfl rfl rfl
        · exact hInv.ufWFS
        · exact hInv.ufLen
        · intro t ht
          show Function.update s.queues (wallTypeOf W H s.walls w) _ t = []
          rw [Function.update_noteq (by omega)]
          exact hInv.queueHigh t ht
        · intro j v hv
          by_cases hj : j = wi
          · subst hj
            rw [getD_set_self hwi] at hv
            obtain rfl := Option.some_injective _ hv
            exact hnt8
          · rw [getD_set_ne (fun e => hj e.symm)] at hv
            exact hInv.typLe j v hv
        · intro j v hv hclr
          by_cases hj : j = wi
          · subst hj
            rw [getD_set_self hwi] at hv
            obtain rfl := Option.some_injective _ hv
            left
            show j ∈ Function.update s.queues (wallTypeOf W H s.walls w) _
              (wallTypeOf W H s.walls w)
            rw [Function.update_same]
            exact mem_pushRand.mpr (Or.inl rfl)
          · rw [getD_set_ne (fun e => hj e.symm)] at hv
            rcases hInv.pending j v hv hclr with hmem | hconn
            · left
              show j ∈ Function.update s.queues (wallTypeOf W H s.walls w) _
                v.typ
              by_cases hvt : v.typ = wallTypeOf W H s.walls w
              · rw [hvt, Function.update_same]
                exact mem_pushRand.mpr (Or.inr (hvt ▸ hmem))
              · rw [Function.update_noteq hvt]
                exact hmem
            · right
              exact hconn
        · intro j v hv hclr
          by_cases hj : j = wi
          · subst hj
            rw [getD_set_self hwi] at hv
            obtain rfl := Option.some_injective _ hv
            exact hInv.removedConn j w hslot hclr
          · rw [getD_set_ne (fun e => hj e.symm)] at hv
            exact hInv.removedConn j v hv hclr
        · show countClr (s.walls.set wi _) + numClasses s.uf (W * H) = W * H
          have hcc := countClr_set hslot
            (some { w with typ := wallTypeOf W H s.walls w })
          have : countClr (s.walls.set wi
              (some { w with typ := wallTypeOf W H s.walls w })) =
              countClr s.walls := by
            by_cases hc : isClr (some w) = true
            · have hc' : isClr (some { w with typ := wallTypeOf W H s.walls w }) =
                  true := hc
              rw [hc, hc'] at hcc
              omega
            · have hc2 : isClr (some w) = false := by
                cases h : isClr (some w)
                · rfl
                · exact absurd h hc
              have hc' : isClr (some { w with typ := wallTypeOf W H s.walls w }) =
                  false := hc2
              rw [hc2, hc'] at hcc
              simp at hcc
              omega
          rw [this]
          exact hInv.classes
      · show sumQ (Function.update s.queues _ _) ≤ sumQ s.queues + 1
        exact le_of_eq (sumQ_update_push (by omega))
      · intro j v hv
        by_cases hj : j = wi
        · subst hj
          obtain rfl : v = w := by
            rw [hslot] at hv
            exact (Option.some_injective _ hv).symm
          exact ⟨{ v with typ := wallTypeOf W H s.walls v },
            by rw [getD_set_self hwi], rfl, rfl, rfl, rfl, hlt.le⟩
        · exact ⟨v, by rw [getD_set_ne (fun e => hj e.symm)]; exact hv,
            rfl, rfl, rfl, rfl, le_refl _⟩
    · rw [updateWallType_of_le hslot hlt]
      exact ⟨hInv, rfl, Nat.le_succ _,
        fun j v h => ⟨v, h, rfl, rfl, rfl, rfl, le_refl _⟩⟩

theorem updateNeighbours_inv {W H : ℕ} {rng : ℕ → ℚ} {w : Wall} :
    ∀ (l : List ℕ) (s : GState), Inv W H s →
      Inv W H (updateNeighbours W H rng w s l) ∧
      (updateNeighbours W H rng w s l).uf = s.uf ∧
      sumQ (updateNeighbours W H rng w s l).queues ≤
        sumQ s.queues + l.length ∧
      (∀ j v, s.walls.getD j none = some v →
        ∃ v', (updateNeighbours W H rng w s l).walls.getD j none = some v' ∧
          v'.wx = v.wx ∧ v'.wy = v.wy ∧ v'.dr = v.dr ∧ v'.clr = v.clr ∧
          v.typ ≤ v'.typ) := by
  intro l
  induction l with
  | nil =>
    intro s h
    exact ⟨h, rfl, by simp [updateNeighbours],
      fun j v hv => ⟨v, hv, rfl, rfl, rfl, rfl, le_refl _⟩⟩
  | cons n rest ih =>
    intro s h
    rcases hnb : getNeighbourS W H s.walls w n with _ | nb
    · have hred : updateNeighbours W H rng w s (n :: rest) =
          updateNeighbours W H rng w s rest := by
        rw [updateNeighbours, hnb]
      rw [hred]
      obtain ⟨i1, i2, i3, i4⟩ := ih s h
      refine ⟨i1, i2, ?_, i4⟩
      rw [List.length_cons]
      omega
    · have hred : updateNeighbours W H rng w s (n :: rest) =
          updateNeighbours W H rng w
            (updateWallType W H rng s (wallIdx W nb)) rest := by
        rw [updateNeighbours, hnb]
      rw [hred]
      obtain ⟨u1, u2, u3, u4⟩ :=
        @updateWallType_inv W H rng s (wallIdx W nb) h
      obtain ⟨i1, i2, i3, i4⟩ := ih _ u1
      refine ⟨i1, i2.trans u2, ?_, ?_⟩
      · rw [List.length_cons]
        omega
      · intro j v hv
        obtain ⟨v1, hv1, e1, e2, e3, e4, e5⟩ := u4 j v hv
        obtain ⟨v2, hv2, f1, f2, f3, f4, f5⟩ := i4 j v1 hv1
        exact ⟨v2, hv2, f1.trans e1, f2.trans e2, f3.trans e3, f4.trans e4,
          le_trans e5 f5⟩

theorem numClasses_pos {uf : List ℤ} {N : ℕ} (hN : 0 < N) :
    1 ≤ numClasses uf N := by
  apply Finset.card_pos.mpr
  exact ⟨rootD uf 0, Finset.mem_image.mpr ⟨0, Finset.mem_range.mpr hN, rfl⟩⟩

theorem tryWall_inv {W H : ℕ} {rng : ℕ → ℚ} {s : GState} {wi : ℕ}
    (hWF : WallsWF W H s.walls) (hufWFS : WFS s.uf)
    (hufLen : s.uf.length ≤ W * H)
    (hqh : ∀ t, 9 ≤ t → s.queues t = [])
    (htyp : ∀ j v, s.walls.getD j none = some v → v.typ ≤ 8)
    (hpend : ∀ j v, j ≠ wi → s.walls.getD j none = some v → v.clr = false →
      j ∈ s.queues v.typ ∨
        rootD s.uf (v.wy * W + v.wx) =
          rootD s.uf (v.wy * W + v.wx + (if v.dr then 1 else W)))
    (hrem : ∀ j v, s.walls.getD j none = some v → v.clr = true →
      rootD s.uf (v.wy * W + v.wx) =
        rootD s.uf (v.wy * W + v.wx + (if v.dr then 1 else W)))
    (hcls : countClr s.walls + numClasses s.uf (W * H) = W * H) :
    Inv W H (tryWall W H rng s wi).1 ∧
    ((tryWall W H rng s wi).2 = false →
      (tryWall W H rng s wi).1.queues = s.queues ∧
      countClr (tryWall W H rng s wi).1.walls = countClr s.walls ∧
      numClasses (tryWall W H rng s wi).1.uf (W * H) =
        numClasses s.uf (W * H)) ∧
    ((tryWall W H rng s wi).2 = true →
      sumQ (tryWall W H rng s wi).1.queues ≤ sumQ s.queues + 6 ∧
      numClasses (tryWall W H rng s wi).1.uf (W * H) + 1 =
        numClasses s.uf (W * H)) ∧
    (∀ j v, s.walls.getD j none = some v →
      ∃ v', (tryWall W H rng s wi).1.walls.getD j none = some v' ∧
        v'.wx = v.wx ∧ v'.wy = v.wy ∧ v'.dr = v.dr ∧ v.typ ≤ v'.typ) := by
  rcases hslot : s.walls.getD wi none with _ | w
  · have hred : tryWall W H rng s wi = (s, false) := by
      simp only [tryWall, hslot]
    rw [hred]
    refine ⟨⟨hWF, hufWFS, hufLen, hqh, htyp, ?_, hrem, hcls⟩,
      fun _ => ⟨rfl, rfl, rfl⟩, by simp, ?_⟩
    · intro j v hv hclr
      by_cases hj : j = wi
      · rw [hj, hslot] at hv
        simp at hv
      · exact hpend j v hj hv hclr
    · intro j v hv
      exact ⟨v, hv, rfl, rfl, rfl, le_refl _⟩
  · by_cases hclr : w.clr = true
    · have hred : tryWall W H rng s wi = (s, false) := by
        simp only [tryWall, hslot]
        rw [if_pos hclr]
      rw [hred]
      refine ⟨⟨hWF, hufWFS, hufLen, hqh, htyp, ?_, hrem, hcls⟩,
        fun _ => ⟨rfl, rfl, rfl⟩, by simp, ?_⟩
      · intro j v hv hclr2
        by_cases hj : j = wi
        · rw [hj, hslot] at hv
          obtain rfl := Option.some_injective _ hv
          rw [hclr] at hclr2
          simp at hclr2
        · exact hpend j v hj hv hclr2
      · intro j v hv
        exact ⟨v, hv, rfl, rfl, rfl, le_refl _⟩
    · have hclrf : w.clr = false := by
        cases h : w.clr
        · rfl
        · exact absurd h hclr
      obtain ⟨hc1, hc2⟩ := cellBounds hWF hslot
      obtain ⟨uWFS, uLen, uFalse, uPres, uForm⟩ :=
        union_props s.uf (w.wy * W + w.wx)
          (w.wy * W + w.wx + (if w.dr then 1 else W)) hufWFS
      have uConn := union_connects hufWFS (w.wy * W + w.wx)
        (w.wy * W + w.wx + (if w.dr then 1 else W))
      have uMono := fun {c d : ℕ} =>
        union_monotone hufWFS (w.wy * W + w.wx)
          (w.wy * W + w.wx + (if w.dr then 1 else W)) (c := c) (d := d)
      obtain ⟨uncT, uncF⟩ := union_numClasses hufWFS hc1 hc2
      have uLen' : (union s.uf (w.wy * W + w.wx)
          (w.wy * W + w.wx + (if w.dr then 1 else W))).1.length ≤ W * H := by
        rw [uLen]
        omega
      cases hres : (union s.uf (w.wy * W + w.wx)
          (w.wy * W + w.wx + (if w.dr then 1 else W))).2 with
      | false =>
        have hred : tryWall W H rng s wi =
            ({ s with uf := (union s.uf (w.wy * W + w.wx)
              (w.wy * W + w.wx + (if w.dr then 1 else W))).1 }, false) := by
          simp only [tryWall, hslot]
          rw [if_neg hclr, hres]
          simp
        rw [hred]
        refine ⟨⟨hWF, uWFS, uLen', hqh, htyp, ?_, ?_, ?_⟩,
          fun _ => ⟨rfl, rfl, uncF hres⟩, by simp, ?_⟩
        · intro j v hv hclr2
          by_cases hj : j = wi
          · subst hj
            rw [hslot] at hv
            obtain rfl := Option.some_injective _ hv
            exact Or.inr uConn
          · rcases hpend j v hj hv hclr2 with hmem | hconn
            · exact Or.inl hmem
            · exact Or.inr (uMono hconn)
        · intro j v hv hclr2
          exact uMono (hrem j v hv hclr2)
        · rw [show countClr s.walls = countClr s.walls from rfl]
          rw [uncF hres]
          exact hcls
        · intro j v hv
          exact ⟨v, hv, rfl, rfl, rfl, le_refl _⟩
      | true =>
        have hred : tryWall W H rng s wi =
            (updateNeighbours W H rng w
              { s with
                uf := (union s.uf (w.wy * W + w.wx)
                  (w.wy * W + w.wx + (if w.dr then 1 else W))).1,
                walls := s.walls.set wi (some { w with clr := true }) }
              [0, 1, 2, 3, 4, 5], true) := by
          simp only [tryWall, hslot]
          rw [if_neg hclr, hres]
          simp
        rw [hred]
        have hwi : wi < s.walls.length := getD_lt_length hslot (by simp)
        have hWH : 0 < W * H := by
          have hl := hWF.1
          rcases Nat.eq_zero_or_pos (W * H) with h0 | h0
          · rw [h0, Nat.zero_mul] at hl
            omega
          · exact h0
        have hcc := countClr_set hslot (some { w with clr := true })
        have hccs : countClr (s.walls.set wi (some { w with clr := true })) =
            countClr s.walls + 1 := by
          have h1 : isClr (some w) = false := hclrf
          have h2 : isClr (some { w with clr := true }) = true := rfl
          rw [h1, h2] at hcc
          simp at hcc
          omega
        have hInv2 : Inv W H
            { s with
              uf := (union s.uf (w.wy * W + w.wx)
                (w.wy * W + w.wx + (if w.dr then 1 else W))).1,
              walls := s.walls.set wi (some { w with clr := true }) } := by
          refine ⟨WallsWF_set hWF hslot rfl rfl rfl, uWFS, uLen', hqh, ?_,
            ?_, ?_, ?_⟩
          · intro j v hv
            by_cases hj : j = wi
            · subst hj
              rw [getD_set_self hwi] at hv
              obtain rfl := Option.some_injective _ hv
              exact htyp j w hslot
            · rw [getD_set_ne (fun e => hj e.symm)] at hv
              exact htyp j v hv
          · intro j v hv hclr2
            by_cases hj : j = wi
            · subst hj
              rw [getD_set_self hwi] at hv
              obtain rfl := Option.some_injective _ hv
              simp at hclr2
            · rw [getD_set_ne (fun e => hj e.symm)] at hv
              rcases hpend j v hj hv hclr2 with hmem | hconn
              · exact Or.inl hmem
              · exact Or.inr (uMono hconn)
          · intro j v hv hclr2
            by_cases hj : j = wi
            · subst hj
              rw [getD_set_self hwi] at hv
              obtain rfl := Option.some_injective _ hv
              exact uConn
            · rw [getD_set_ne (fun e => hj e.symm)] at hv
              exact uMono (hrem j v hv hclr2)
          · show countClr (s.walls.set wi (some { w with clr := true })) +
              numClasses (union s.uf (w.wy * W + w.wx)
                (w.wy * W + w.wx + (if w.dr then 1 else W))).1 (W * H) = W * H
            rw [hccs]
            have := uncT hres
            omega
        obtain ⟨i1, i2, i3, i4⟩ :=
          updateNeighbours_inv [0, 1, 2, 3, 4, 5] _ hInv2
        refine ⟨i1, ?_, ?_, ?_⟩
        · intro hfalse
          simp at hfalse
        · intro _
          constructor
          · have h6 : ([0, 1, 2, 3, 4, 5] : List ℕ).length = 6 := rfl
            rw [h6] at i3
            exact i3
          · rw [i2]
            exact uncT hres
        · intro j v hv
          by_cases hj : j = wi
          · subst hj
            rw [hslot] at hv
            obtain rfl := Option.some_injective _ hv
            obtain ⟨v', hv', e1, e2, e3, e4, e5⟩ := i4 j { w with clr := true }
              (by rw [getD_set_self hwi])
            exact ⟨v', hv', e1, e2, e3, e5⟩
          · obtain ⟨v', hv', e1, e2, e3, e4, e5⟩ := i4 j v
              (by rw [getD_set_ne (fun e => hj e.symm)]; exact hv)
            exact ⟨v', hv', e1, e2, e3, e5⟩

/-- Termination measure: queued entries plus six per class still to be
merged away. -/
def measureM (W H : ℕ) (s : GState) : ℕ :=
  sumQ s.queues + 6 * (numClasses s.uf (W * H) - 1)

theorem sumQ_update_dropLast {qs : ℕ → List ℕ} {t : ℕ} (ht : t < 9)
    (hne : qs t ≠ []) :
    sumQ (Function.update qs t (qs t).dropLast) + 1 = sumQ qs := by
  unfold sumQ
  have hcong : ∀ i ∈ Finset.range 9,
      ((Function.update qs t (qs t).dropLast i).length) =
      Function.update (fun j => (qs j).length) t ((qs t).length - 1) i := by
    intro i _
    by_cases hit : i = t
    · subst hit
      rw [Function.update_same, Function.update_same, List.length_dropLast]
    · rw [Function.update_noteq hit, Function.update_noteq hit]
  rw [Finset.sum_congr rfl hcong,
    Finset.sum_update_of_mem (Finset.mem_range.mpr ht)]
  rw [← Finset.sum_erase_add (Finset.range 9) _ (Finset.mem_range.mpr ht),
    Finset.erase_eq]
  have hpos : 0 < (qs t).length := List.length_pos.mpr hne
  omega

theorem stepPop_inv {W H : ℕ} {rng : ℕ → ℚ} {s0 : GState} {qi : ℕ}
    (hInv : Inv W H s0) (hq9 : qi < 9) (hqne : s0.queues qi ≠ []) :
    Inv W H (stepPop W H rng s0 qi).1 ∧
    measureM W H (stepPop W H rng s0 qi).1 < measureM W H s0 ∧
    (stepPop W H rng s0 qi).2 ≠ .done ∧
    (∀ j v, s0.walls.getD j none = some v →
      ∃ v', (stepPop W H rng s0 qi).1.walls.getD j none = some v' ∧
        v'.wx = v.wx ∧ v'.wy = v.wy ∧ v'.dr = v.dr ∧ v.typ ≤ v'.typ) := by
  obtain ⟨wi, hlast⟩ : ∃ wi, (s0.queues qi).getLast? = some wi := by
    cases h : (s0.queues qi).getLast? with
    | some wi => exact ⟨wi, rfl⟩
    | none =>
      rw [List.getLast?_eq_getLast _ hqne] at h
      simp at h
  have hsumQ : sumQ (Function.update s0.queues qi (s0.queues qi).dropLast) +
      1 = sumQ s0.queues := sumQ_update_dropLast hq9 hqne
  have hqh1 : ∀ t, 9 ≤ t →
      Function.update s0.queues qi (s0.queues qi).dropLast t = [] := by
    intro t ht
    rw [Function.update_noteq (by omega)]
    exact hInv.queueHigh t ht
  have hpend1 : ∀ j v, j ≠ wi → s0.walls.getD j none = some v →
      v.clr = false →
      j ∈ Function.update s0.queues qi (s0.queues qi).dropLast v.typ ∨
        rootD s0.uf (v.wy * W + v.wx) =
          rootD s0.uf (v.wy * W + v.wx + (if v.dr then 1 else W)) := by
    intro j v hj hv hclr
    rcases hInv.pending j v hv hclr with hmem | hconn
    · left
      by_cases hvt : v.typ = qi
      · rw [hvt, Function.update_same]
        exact mem_dropLast_of_ne_last hlast (hvt ▸ hmem) hj
      · rw [Function.update_noteq hvt]
        exact hmem
    · exact Or.inr hconn
  rcases hwslot : s0.walls.getD wi none with _ | w
  · have hred : stepPop W H rng s0 qi =
        ({ s0 with
          queues := Function.update s0.queues qi (s0.queues qi).dropLast },
          .cont none) := by
      simp only [stepPop, hlast, hwslot]
    rw [hred]
    refine ⟨⟨hInv.wallsWF, hInv.ufWFS, hInv.ufLen, hqh1, hInv.typLe, ?_,
      hInv.removedConn, hInv.classes⟩, ?_, by simp, ?_⟩
    · intro j v hv hclr
      by_cases hj : j = wi
      · rw [hj, hwslot] at hv
        simp at hv
      · exact hpend1 j v hj hv hclr
    · unfold measureM
      dsimp only
      omega
    · intro j v hv
      exact ⟨v, hv, rfl, rfl, rfl, le_refl _⟩
  · by_cases htypeq : w.typ = qi
    · have hred : stepPop W H rng s0 qi =
          ((tryWall W H rng
            { s0 with
              queues := Function.update s0.queues qi
                (s0.queues qi).dropLast } wi).1,
            .cont (if (tryWall W H rng
              { s0 with
                queues := Function.update s0.queues qi
                  (s0.queues qi).dropLast } wi).2 then some wi else none)) := by
        simp only [stepPop, hlast, hwslot]
        rw [if_pos htypeq]
      rw [hred]
      have hWH : 0 < W * H := by
        have hl := hInv.wallsWF.1
        have hwi : wi < s0.walls.length := getD_lt_length hwslot (by simp)
        rcases Nat.eq_zero_or_pos (W * H) with h0 | h0
        · rw [h0, Nat.zero_mul] at hl
          omega
        · exact h0
      obtain ⟨t1, t2, t3, t4⟩ := @tryWall_inv W H rng
        { s0 with
          queues := Function.update s0.queues qi (s0.queues qi).dropLast } wi
        hInv.wallsWF hInv.ufWFS hInv.ufLen hqh1 hInv.typLe hpend1
        hInv.removedConn hInv.classes
      refine ⟨t1, ?_, by simp, t4⟩
      cases hres : (tryWall W H rng
          { s0 with
            queues := Function.update s0.queues qi
              (s0.queues qi).dropLast } wi).2 with
      | false =>
        obtain ⟨f1, f2, f3⟩ := t2 hres
        unfold measureM
        rw [f1, f3]
        dsimp only
        omega
      | true =>
        obtain ⟨g1, g2⟩ := t3 hres
        have hnc : 1 ≤ numClasses (tryWall W H rng
            { s0 with
              queues := Function.update s0.queues qi
                (s0.queues qi).dropLast } wi).1.uf (W * H) :=
          numClasses_pos hWH
        unfold measureM
        dsimp only at g1 g2 ⊢
        omega
    · have hred : stepPop W H rng s0 qi =
          ({ s0 with
            queues := Function.update s0.queues qi (s0.queues qi).dropLast },
            .cont none) := by
        simp only [stepPop, hlast, hwslot]
        rw [if_neg htypeq]
      rw [hred]
      refine ⟨⟨hInv.wallsWF, hInv.ufWFS, hInv.ufLen, hqh1, hInv.typLe, ?_,
        hInv.removedConn, hInv.classes⟩, ?_, by simp, ?_⟩
      · intro j v hv hclr
        by_cases hj : j = wi
        · subst hj
          rw [hwslot] at hv
          obtain rfl := Option.some_injective _ hv
          rcases hInv.pending j w hwslot hclr with hmem | hconn
          · left
            show j ∈ Function.update s0.queues qi (s0.queues qi).dropLast w.typ
            rw [Function.update_noteq htypeq]
            exact hmem
          · exact Or.inr hconn
        · exact hpend1 j v hj hv hclr
      · unfold measureM
        dsimp only
        omega
      · intro j v hv
        exact ⟨v, hv, rfl, rfl, rfl, le_refl _⟩

theorem step_inv {W H : ℕ} {rng : ℕ → ℚ} {s : GState} (hrng : ValidRng rng)
    (hInv : Inv W H s) :
    Inv W H (step W H rng s).1 ∧
    ((step W H rng s).2 = .done ↔ (totalWeight s.queues).posb = false) ∧
    ((step W H rng s).2 = .done → (step W H rng s).1 = s) ∧
    ((step W H rng s).2 ≠ .done →
      measureM W H (step W H rng s).1 < measureM W H s) ∧
    (∀ j v, s.walls.getD j none = some v →
      ∃ v', (step W H rng s).1.walls.getD j none = some v' ∧
        v'.wx = v.wx ∧ v'.wy = v.wy ∧ v'.dr = v.dr ∧ v.typ ≤ v'.typ) := by
  by_cases hpos : (totalWeight s.queues).posb = false
  · have hred : step W H rng s = (s, .done) := by
      rw [step, if_pos hpos]
    rw [hred]
    exact ⟨hInv, by simp [hpos], fun _ => rfl, fun h => absurd rfl h,
      fun j v hv => ⟨v, hv, rfl, rfl, rfl, le_refl _⟩⟩
  · have hred : step W H rng s = stepPop W H rng { s with pos := s.pos + 1 }
        (selLoop s.queues (List.range 9)
          ((totalWeight s.queues).mul (Qrt2.ofRat (rng s.pos)))) := by
      rw [step, if_neg hpos]
    have hposT : (totalWeight s.queues).posb = true := by
      cases h : (totalWeight s.queues).posb
      · exact absurd h hpos
      · rfl
    have htv : 0 < (totalWeight s.queues).val :=
      (Qrt2.posb_iff _).1 hposT
    have hq9 : selLoop s.queues (List.range 9)
        ((totalWeight s.queues).mul (Qrt2.ofRat (rng s.pos))) < 9 := by
      rcases selLoop_mem s.queues (List.range 9)
          ((totalWeight s.queues).mul (Qrt2.ofRat (rng s.pos))) with h | h
      · exact List.mem_range.mp h
      · omega
    have hr0 : (0 : ℝ) ≤ (rng s.pos : ℝ) := by
      exact_mod_cast (hrng s.pos).1
    have hr1 : ((rng s.pos : ℝ)) < 1 := by
      exact_mod_cast (hrng s.pos).2
    have hqne : s.queues (selLoop s.queues (List.range 9)
        ((totalWeight s.queues).mul (Qrt2.ofRat (rng s.pos)))) ≠ [] := by
      apply selLoop_sound
      · rw [Qrt2.val_mul, Qrt2.val_ofRat]
        exact mul_nonneg htv.le hr0
      · rw [Qrt2.val_mul, Qrt2.val_ofRat, ← totalWeight_val]
        calc (totalWeight s.queues).val * (rng s.pos : ℝ)
            < (totalWeight s.queues).val * 1 :=
              mul_lt_mul_of_pos_left hr1 htv
        _ = (totalWeight s.queues).val := mul_one _
    have hInv0 : Inv W H { s with pos := s.pos + 1 } :=
      ⟨hInv.wallsWF, hInv.ufWFS, hInv.ufLen, hInv.queueHigh, hInv.typLe,
        hInv.pending, hInv.removedConn, hInv.classes⟩
    obtain ⟨p1, p2, p3, p4⟩ := @stepPop_inv W H rng { s with pos := s.pos + 1 }
      (selLoop s.queues (List.range 9)
        ((totalWeight s.queues).mul (Qrt2.ofRat (rng s.pos))))
      hInv0 hq9 hqne
    rw [hred]
    refine ⟨p1, ?_, ?_, fun _ => p2, p4⟩
    · constructor
      · intro h
        exact absurd h p3
      · intro h
        exact absurd h hpos
    · intro h
      exact absurd h p3

/-- Invariants and wall-type monotonicity along any run. -/
theorem stepN_inv {W H : ℕ} {rng : ℕ → ℚ} (hrng : ValidRng rng) :
    ∀ (n : ℕ) (s : GState), Inv W H s →
      Inv W H (stepN W H rng n s) ∧
      (∀ j v, s.walls.getD j none = some v →
        ∃ v', (stepN W H rng n s).walls.getD j none = some v' ∧
          v'.wx = v.wx ∧ v'.wy = v.wy ∧ v'.dr = v.dr ∧ v.typ ≤ v'.typ) := by
  intro n
  induction n with
  | zero =>
    intro s h
    exact ⟨h, fun j v hv => ⟨v, hv, rfl, rfl, rfl, le_refl _⟩⟩
  | succ n ih =>
    intro s h
    obtain ⟨s1, _, _, _, smono⟩ := step_inv hrng h
    obtain ⟨i1, i2⟩ := ih (step W H rng s).1 s1
    refine ⟨i1, ?_⟩
    intro j v hv
    obtain ⟨v1, hv1, e1, e2, e3, e5⟩ := smono j v hv
    obtain ⟨v2, hv2, f1, f2, f3, f5⟩ := i2 j v1 hv1
    exact ⟨v2, hv2, f1.trans e1, f2.trans e2, f3.trans e3, le_trans e5 f5⟩

/-- The wall table produced by `init`, in closed form: for each cell in
row-major order a horizontal slot then a vertical slot. -/
def initWalls (W H : ℕ) : List (Option Wall) :=
  (List.range H).flatMap (fun y => (List.range W).flatMap (fun x =>
    [if x < W - 1 then some ⟨x, y, true, 0, false⟩ else none,
     if y < H - 1 then some ⟨x, y, false, 0, false⟩ else none]))

theorem length_flatMap_const {β : Type} {f : ℕ → List β} {k : ℕ}
    (hk : ∀ x, (f x).length = k) (n : ℕ) :
    ((List.range n).flatMap f).length = n * k := by
  induction n with
  | zero => simp
  | succ n ih =>
    rw [List.range_succ, List.flatMap_append, List.length_append, ih]
    simp only [List.flatMap_cons, List.flatMap_nil, List.append_nil, hk]
    ring

theorem getD_flatMap_const {β : Type} {f : ℕ → List β} {k : ℕ}
    (hk : ∀ x, (f x).length = k) {n i j : ℕ} (hi : i < n) (hj : j < k)
    (d : β) :
    ((List.range n).flatMap f).getD (i * k + j) d = (f i).getD j d := by
  induction n with
  | zero => omega
  | succ n ih =>
    rw [List.range_succ, List.flatMap_append]
    by_cases hin : i < n
    · rw [List.getD_append _ _ _ _ ?_]
      · exact ih hin
      · rw [length_flatMap_const hk]
        have : (i + 1) * k ≤ n * k := Nat.mul_le_mul_right k hin
        rw [Nat.succ_mul] at this
        omega
    · have hieq : i = n := by omega
      subst hieq
      rw [List.getD_append_right _ _ _ _ ?_]
      · rw [length_flatMap_const hk]
        simp only [List.flatMap_cons, List.flatMap_nil, List.append_nil]
        have : i * k + j - i * k = j := by omega
        rw [this]
      · rw [length_flatMap_const hk]
        omega

/-- The two wall slots `init` creates for one cell. -/
def rowBlock (W H y x : ℕ) : List (Option Wall) :=
  [if x < W - 1 then some ⟨x, y, true, 0, false⟩ else none,
   if y < H - 1 then some ⟨x, y, false, 0, false⟩ else none]

theorem rowBlock_length (W H y x : ℕ) : (rowBlock W H y x).length = 2 := rfl

theorem initWalls_eq (W H : ℕ) :
    initWalls W H =
      (List.range H).flatMap (fun y =>
        (List.range W).flatMap (rowBlock W H y)) := rfl

theorem initWalls_length (W H : ℕ) : (initWalls W H).length = W * H * 2 := by
  rw [initWalls_eq, length_flatMap_const (k := W * 2) (fun y =>
    length_flatMap_const (rowBlock_length W H y) W) H]
  ring

theorem initWalls_getD {W H x y : ℕ} (hx : x < W) (hy : y < H) :
    (initWalls W H).getD ((y * W + x) * 2) none =
      (if x < W - 1 then some ⟨x, y, true, 0, false⟩ else none) ∧
    (initWalls W H).getD ((y * W + x) * 2 + 1) none =
      (if y < H - 1 then some ⟨x, y, false, 0, false⟩ else none) := by
  have hrow : ∀ y' : ℕ,
      ((List.range W).flatMap (rowBlock W H y')).length = W * 2 :=
    fun y' => length_flatMap_const (rowBlock_length W H y') W
  constructor
  · have hidx : (y * W + x) * 2 = y * (W * 2) + (x * 2 + 0) := by ring
    rw [initWalls_eq, hidx, getD_flatMap_const hrow hy (by omega),
      getD_flatMap_const (rowBlock_length W H y) hx (by omega)]
    rfl
  · have hidx : (y * W + x) * 2 + 1 = y * (W * 2) + (x * 2 + 1) := by ring
    rw [initWalls_eq, hidx, getD_flatMap_const hrow hy (by omega),
      getD_flatMap_const (rowBlock_length W H y) hx (by omega)]
    rfl

theorem initWalls_WF (W H : ℕ) : WallsWF W H (initWalls W H) := by
  refine ⟨initWalls_length W H, ?_⟩
  intro x y hx hy
  obtain ⟨hh, hv⟩ := initWalls_getD hx hy
  refine ⟨?_, ?_, ?_, ?_⟩
  · intro w hw
    rw [hh] at hw
    by_cases hb : x < W - 1
    · rw [if_pos hb] at hw
      obtain rfl := Option.some_injective _ hw
      exact ⟨rfl, rfl, rfl⟩
    · rw [if_neg hb] at hw
      simp at hw
  · rw [hh]
    by_cases hb : x < W - 1
    · rw [if_pos hb]
      simp [hb]
    · rw [if_neg hb]
      simp [hb]
  · intro w hw
    rw [hv] at hw
    by_cases hb : y < H - 1
    · rw [if_pos hb] at hw
      obtain rfl := Option.some_injective _ hw
      exact ⟨rfl, rfl, rfl⟩
    · rw [if_neg hb] at hw
      simp at hw
  · rw [hv]
    by_cases hb : y < H - 1
    · rw [if_pos hb]
      simp [hb]
    · rw [if_neg hb]
      simp [hb]

theorem initWalls_mem {W H : ℕ} {ow : Option Wall} (h : ow ∈ initWalls W H) :
    ∀ w, ow = some w → w.typ = 0 ∧ w.clr = false := by
  intro w hw
  subst hw
  obtain ⟨y, _, hy⟩ := List.mem_flatMap.mp h
  obtain ⟨x, _, hx⟩ := List.mem_flatMap.mp hy
  rcases List.mem_cons.mp hx with h1 | h1
  · by_cases hb : x < W - 1
    · rw [if_pos hb] at h1
      obtain rfl := Option.some_injective _ h1.symm
      exact ⟨rfl, rfl⟩
    · rw [if_neg hb] at h1
      simp at h1
  · rcases List.mem_cons.mp h1 with h2 | h2
    · by_cases hb : y < H - 1
      · rw [if_pos hb] at h2
        obtain rfl := Option.some_injective _ h2.symm
        exact ⟨rfl, rfl⟩
      · rw [if_neg hb] at h2
        simp at h2
    · simp at h2

theorem initWalls_getD_fresh {W H : ℕ} {j : ℕ} {w : Wall}
    (h : (initWalls W H).getD j none = some w) :
    w.typ = 0 ∧ w.clr = false := by
  have hj : j < (initWalls W H).length := getD_lt_length h (by simp)
  rw [List.getD_eq_getElem _ _ hj] at h
  exact initWalls_mem (h ▸ List.getElem_mem hj) w rfl

theorem countClr_initWalls (W H : ℕ) : countClr (initWalls W H) = 0 := by
  apply List.countP_eq_zero.mpr
  intro ow how
  cases ow with
  | none => simp [isClr]
  | some w =>
    obtain ⟨_, hclr⟩ := initWalls_mem how w rfl
    simp [isClr, hclr]

theorem numClasses_nil (N : ℕ) : numClasses ([] : List ℤ) N = N := by
  unfold numClasses
  have himg : (Finset.range N).image (fun c => rootD [] c) =
      Finset.range N := by
    have hcong : (Finset.range N).image (fun c => rootD [] c) =
        (Finset.range N).image (fun c => c) :=
      Finset.image_congr (fun c _ => rootD_oob (Nat.zero_le c))
    rw [hcong, Finset.image_id']
  rw [himg, Finset.card_range]

/-- The wall-creation fold of `init`, named for reasoning. -/
def buildB (W H : ℕ) (rng : ℕ → ℚ) : BState :=
  (List.range H).foldl (fun b y =>
    (List.range W).foldl (fun b x =>
      addWall rng
        (addWall rng b
          (if x < W - 1 then some ⟨x, y, true, 0, false⟩ else none))
        (if y < H - 1 then some ⟨x, y, false, 0, false⟩ else none)) b)
    ⟨[], [], 2⟩

theorem initState_eq (W H : ℕ) (rng : ℕ → ℚ) :
    initState W H rng =
      { uf := [],
        queues := Function.update (fun _ => []) 0 (buildB W H rng).q0,
        walls := (buildB W H rng).walls,
        startx := randIntQ (rng 0) W,
        finishx := randIntQ (rng 1) W,
        pos := (buildB W H rng).pos } := rfl

theorem addWall_walls (rng : ℕ → ℚ) (b : BState) (ow : Option Wall) :
    (addWall rng b ow).walls = b.walls ++ [ow] := by
  cases ow <;> rfl

theorem foldl_walls_of_step {g : BState → ℕ → BState}
    {R : ℕ → List (Option Wall)}
    (hg : ∀ b x, (g b x).walls = b.walls ++ R x) :
    ∀ (xs : List ℕ) (b : BState),
      (xs.foldl g b).walls = b.walls ++ xs.flatMap R := by
  intro xs
  induction xs with
  | nil =>
    intro b
    simp
  | cons x xs ih =>
    intro b
    rw [List.foldl_cons, ih, hg, List.flatMap_cons, List.append_assoc]

theorem buildB_walls (W H : ℕ) (rng : ℕ → ℚ) :
    (buildB W H rng).walls = initWalls W H := by
  unfold buildB initWalls
  rw [foldl_walls_of_step (fun b y =>
    foldl_walls_of_step (fun b x => by
      rw [addWall_walls, addWall_walls, List.append_assoc]) (List.range W) b)
    (List.range H) ⟨[], [], 2⟩]
  rfl

/-- Every created wall slot holding a wall has its index seeded into the
single queue-0 accumulator. -/
def QInv (b : BState) : Prop :=
  ∀ j w, b.walls.getD j none = some w → j ∈ b.q0

theorem QInv_addWall {rng : ℕ → ℚ} {b : BState} {ow : Option Wall}
    (h : QInv b) : QInv (addWall rng b ow) := by
  intro j w hj
  cases ow with
  | none =>
    have hw : (b.walls ++ [none]).getD j none = some w := hj
    by_cases hlt : j < b.walls.length
    · rw [List.getD_append _ _ _ _ hlt] at hw
      exact h j w hw
    · rw [List.getD_append_right _ _ _ _ (by omega)] at hw
      rcases Nat.eq_zero_or_pos (j - b.walls.length) with h0 | h0
      · rw [h0] at hw
        simp at hw
      · rw [List.getD_eq_default _ _ (by simp; omega)] at hw
        simp at hw
  | some w0 =>
    have hw : (b.walls ++ [some w0]).getD j none = some w := hj
    show j ∈ pushRand (rng b.pos) b.walls.length b.q0
    rw [mem_pushRand]
    by_cases hlt : j < b.walls.length
    · rw [List.getD_append _ _ _ _ hlt] at hw
      exact Or.inr (h j w hw)
    · rw [List.getD_append_right _ _ _ _ (by omega)] at hw
      rcases Nat.eq_zero_or_pos (j - b.walls.length) with h0 | h0
      · left
        omega
      · rw [List.getD_eq_default _ _ (by simp; omega)] at hw
        simp at hw

theorem QInv_foldl {g : BState → ℕ → BState}
    (hg : ∀ b x, QInv b → QInv (g b x)) :
    ∀ (xs : List ℕ) (b : BState), QInv b → QInv (xs.foldl g b) := by
  intro xs
  induction xs with
  | nil =>
    intro b h
    exact h
  | cons x xs ih =>
    intro b h
    exact ih _ (hg b x h)

theorem buildB_QInv (W H : ℕ) (rng : ℕ → ℚ) : QInv (buildB W H rng) := by
  unfold buildB
  apply QInv_foldl (fun b y => QInv_foldl
    (fun b x hb => QInv_addWall (QInv_addWall hb)) (List.range W) b)
    (List.range H)
  intro j w hj
  simp [List.getD] at hj

theorem initState_inv (W H : ℕ) (rng : ℕ → ℚ) :
    Inv W H (initState W H rng) := by
  rw [initState_eq]
  have hwalls := buildB_walls W H rng
  refine ⟨?_, WFS_nil, Nat.zero_le _, ?_, ?_, ?_, ?_, ?_⟩
  · show WallsWF W H (buildB W H rng).walls
    rw [hwalls]
    exact initWalls_WF W H
  · intro t ht
    show Function.update (fun _ => ([] : List ℕ)) 0 (buildB W H rng).q0 t = []
    rw [Function.update_noteq (by omega)]
  · intro wi w hw
    have hw' : (initWalls W H).getD wi none = some w := by
      rw [← hwalls]
      exact hw
    obtain ⟨ht, _⟩ := initWalls_getD_fresh hw'
    omega
  · intro wi w hw hclr
    left
    have hw' : (initWalls W H).getD wi none = some w := by
      rw [← hwalls]
      exact hw
    obtain ⟨ht, _⟩ := initWalls_getD_fresh hw'
    show wi ∈ Function.update (fun _ => ([] : List ℕ)) 0
      (buildB W H rng).q0 w.typ
    rw [ht, Function.update_same]
    exact buildB_QInv W H rng wi w hw
  · intro wi w hw hclr
    have hw' : (initWalls W H).getD wi none = some w := by
      rw [← hwalls]
      exact hw
    obtain ⟨_, hc⟩ := initWalls_getD_fresh hw'
    rw [hc] at hclr
    exact absurd hclr (by simp)
  · show countClr (buildB W H rng).walls +
      numClasses ([] : List ℤ) (W * H) = W * H
    rw [hwalls, countClr_initWalls, numClasses_nil]
    omega

theorem done_queues_empty {W H : ℕ} {s : GState} (hInv : Inv W H s)
    (hdone : (totalWeight s.queues).posb = false) : ∀ i, s.queues i = [] := by
  intro i
  by_cases hi : i < 9
  · exact (totalWeight_notPos_iff s.queues).1 hdone i hi
  · exact hInv.queueHigh i (by omega)

/-- Once the queues are empty, both cells beside every existing wall slot
are already connected. -/
theorem done_adjacent {W H : ℕ} {s : GState} (hInv : Inv W H s)
    (hq : ∀ i, s.queues i = []) :
    (∀ x y, x + 1 < W → y < H →
      rootD s.uf (y * W + x) = rootD s.uf (y * W + x + 1)) ∧
    (∀ x y, x < W → y + 1 < H →
      rootD s.uf (y * W + x) = rootD s.uf (y * W + x + W)) := by
  have hwall : ∀ wi w, s.walls.getD wi none = some w →
      rootD s.uf (w.wy * W + w.wx) =
        rootD s.uf (w.wy * W + w.wx + (if w.dr then 1 else W)) := by
    intro wi w hslot
    cases hclr : w.clr with
    | true => exact hInv.removedConn wi w hslot hclr
    | false =>
      rcases hInv.pending wi w hslot hclr with hmem | hconn
      · rw [hq] at hmem
        simp at hmem
      · exact hconn
  constructor
  · intro x y hx hy
    obtain ⟨c1, c2, _, _⟩ := hInv.wallsWF.2 x y (by omega) hy
    rcases hslot : s.walls.getD ((y * W + x) * 2) none with _ | w
    · exact absurd (c2.1 hslot) (by omega)
    · obtain ⟨e1, e2, e3⟩ := c1 w hslot
      have hc := hwall _ w hslot
      rw [e1, e2, e3] at hc
      simpa using hc
  · intro x y hx hy
    obtain ⟨_, _, c3, c4⟩ := hInv.wallsWF.2 x y hx (by omega)
    rcases hslot : s.walls.getD ((y * W + x) * 2 + 1) none with _ | w
    · exact absurd (c4.1 hslot) (by omega)
    · obtain ⟨e1, e2, e3⟩ := c3 w hslot
      have hc := hwall _ w hslot
      rw [e1, e2, e3] at hc
      simpa using hc

theorem done_connected {W H : ℕ} {s : GState} (hInv : Inv W H s)
    (hq : ∀ i, s.queues i = []) (hW : 1 ≤ W) (hH : 1 ≤ H) :
    ∀ c, c < W * H → rootD s.uf c = rootD s.uf 0 := by
  obtain ⟨hhor, hver⟩ := done_adjacent hInv hq
  have hrow : ∀ y, y < H → ∀ x, x < W →
      rootD s.uf (y * W + x) = rootD s.uf (y * W) := by
    intro y hy x
    induction x with
    | zero =>
      intro _
      rw [Nat.add_zero]
    | succ x ih =>
      intro hx1
      have harg : y * W + (x + 1) = y * W + x + 1 := by omega
      rw [harg, ← hhor x y hx1 hy]
      exact ih (by omega)
  have hcol : ∀ y, y < H → rootD s.uf (y * W) = rootD s.uf 0 := by
    intro y
    induction y with
    | zero =>
      intro _
      rw [Nat.zero_mul]
    | succ y ih =>
      intro hy1
      have hv := hver 0 y (by omega) hy1
      rw [Nat.add_zero] at hv
      have harg : (y + 1) * W = y * W + W := by ring
      rw [harg, ← hv]
      exact ih (by omega)
  intro c hc
  have hx : c % W < W := Nat.mod_lt _ (by omega)
  have hy : c / W < H := by
    rw [Nat.div_lt_iff_lt_mul (by omega), Nat.mul_comm]
    exact hc
  have hdecomp : c = (c / W) * W + c % W := by
    rw [Nat.mul_comm]
    exact (Nat.div_add_mod c W).symm
  rw [hdecomp, hrow _ hy _ hx, hcol _ hy]

theorem done_numClasses_one {W H : ℕ} {s : GState} (hInv : Inv W H s)
    (hq : ∀ i, s.queues i = []) (hW : 1 ≤ W) (hH : 1 ≤ H) :
    numClasses s.uf (W * H) = 1 := by
  have hconn := done_connected hInv hq hW hH
  unfold numClasses
  have himg : (Finset.range (W * H)).image (fun c => rootD s.uf c) =
      {rootD s.uf 0} := by
    apply le_antisymm
    · intro r hr
      obtain ⟨c, hc, hrc⟩ := Finset.mem_image.mp hr
      rw [Finset.mem_singleton, ← hrc]
      exact hconn c (Finset.mem_range.mp hc)
    · intro r hr
      rw [Finset.mem_singleton] at hr
      subst hr
      exact Finset.mem_image.mpr
        ⟨0, Finset.mem_range.mpr (Nat.mul_pos hW hH), rfl⟩
  rw [himg, Finset.card_singleton]

/-- C1: for any grid with `W, H ≥ 1` and any valid random stream, when a
`step` after `n` generation steps from `init` reports the Done outcome,
all cells of the grid share one union-find root and the number of removed
(`clr`) walls is exactly `W*H - 1`: the opened walls span the cell grid as
a tree. -/
theorem generation_done_spanning {W H n : ℕ} {rng : ℕ → ℚ}
    (hW : 1 ≤ W) (hH : 1 ≤ H) (hrng : ValidRng rng)
    (hdone : (step W H rng (stepN W H rng n (initState W H rng))).2 =
      .done) :
    (∀ c1 c2, c1 < W * H → c2 < W * H →
      rootD (stepN W H rng n (initState W H rng)).uf c1 =
        rootD (stepN W H rng n (initState W H rng)).uf c2) ∧
    countClr (stepN W H rng n (initState W H rng)).walls = W * H - 1 := by
  have hInv := (stepN_inv hrng n _ (initState_inv W H rng)).1
  have hpos := (step_inv hrng hInv).2.1.1 hdone
  have hq := done_queues_empty hInv hpos
  have hconn := done_connected hInv hq hW hH
  have hnum := done_numClasses_one hInv hq hW hH
  refine ⟨fun c1 c2 h1 h2 => (hconn c1 h1).trans (hconn c2 h2).symm, ?_⟩
  have hcls := hInv.classes
  rw [hnum] at hcls
  omega

set_option maxRecDepth 100000 in
unseal Rat.add Rat.mul Rat.sub Rat.inv in
theorem generation_done_spanning_witness :
    (1 ≤ 1 ∧ ValidRng (fun _ => (0 : ℚ)) ∧
      (step 1 1 (fun _ => (0 : ℚ))
        (stepN 1 1 (fun _ => (0 : ℚ)) 0
          (initState 1 1 (fun _ => (0 : ℚ))))).2 = .done) ∧
    (∀ c1 c2, c1 < 1 * 1 → c2 < 1 * 1 →
      rootD (stepN 1 1 (fun _ => (0 : ℚ)) 0
        (initState 1 1 (fun _ => (0 : ℚ)))).uf c1 =
        rootD (stepN 1 1 (fun _ => (0 : ℚ)) 0
          (initState 1 1 (fun _ => (0 : ℚ)))).uf c2) ∧
    countClr (stepN 1 1 (fun _ => (0 : ℚ)) 0
      (initState 1 1 (fun _ => (0 : ℚ)))).walls = 1 * 1 - 1 :=
  ⟨⟨le_refl 1, fun i => ⟨le_refl 0, by norm_num⟩, by decide⟩,
    generation_done_spanning (le_refl 1) (le_refl 1)
      (fun i => ⟨le_refl 0, by norm_num⟩) (by decide)⟩

theorem done_of_measure_zero {s : GState}
    (h : sumQ s.queues = 0) : (totalWeight s.queues).posb = false := by
  rw [totalWeight_notPos_iff]
  intro i hi
  have hz : (s.queues i).length = 0 := by
    have := Finset.sum_eq_zero_iff.mp h i (Finset.mem_range.mpr hi)
    exact this
  exact List.length_eq_zero.mp hz

theorem terminates_of_inv {W H : ℕ} {rng : ℕ → ℚ} (hrng : ValidRng rng) :
    ∀ (k : ℕ) (s : GState), Inv W H s → measureM W H s ≤ k →
      ∃ n, (step W H rng (stepN W H rng n s)).2 = .done := by
  intro k
  induction k with
  | zero =>
    intro s hInv hm
    refine ⟨0, ?_⟩
    have hz : sumQ s.queues = 0 := by
      unfold measureM at hm
      omega
    show (step W H rng s).2 = .done
    rw [step, if_pos (done_of_measure_zero hz)]
  | succ k ih =>
    intro s hInv hm
    obtain ⟨sInv, siff, _, slt, _⟩ := step_inv hrng hInv
    by_cases hdone : (step W H rng s).2 = .done
    · exact ⟨0, hdone⟩
    · obtain ⟨n, hn⟩ := ih (step W H rng s).1 sInv (by
        have := slt hdone
        omega)
      exact ⟨n + 1, hn⟩

/-- C4: from `init`, for any valid random stream the generation loop
reaches the Done outcome after finitely many `step` calls, and along the
whole run the number of removed walls never exceeds `W*H - 1`. -/
theorem generation_terminates {W H : ℕ} {rng : ℕ → ℚ}
    (hrng : ValidRng rng) (hW : 1 ≤ W) (hH : 1 ≤ H) :
    (∃ n, (step W H rng (stepN W H rng n (initState W H rng))).2 =
      .done) ∧
    ∀ n, countClr (stepN W H rng n (initState W H rng)).walls ≤
      W * H - 1 := by
  constructor
  · exact terminates_of_inv hrng (measureM W H (initState W H rng))
      (initState W H rng) (initState_inv W H rng) (le_refl _)
  · intro n
    have hInv := (stepN_inv hrng n _ (initState_inv W H rng)).1
    have hcls := hInv.classes
    have hpos : 1 ≤ numClasses (stepN W H rng n (initState W H rng)).uf
        (W * H) := numClasses_pos (Nat.mul_pos hW hH)
    omega

unseal Rat.add Rat.mul Rat.sub Rat.inv in
theorem generation_terminates_witness :
    (ValidRng (fun _ => (0 : ℚ)) ∧ 1 ≤ 1) ∧
    (∃ n, (step 1 1 (fun _ => (0 : ℚ))
      (stepN 1 1 (fun _ => (0 : ℚ)) n
        (initState 1 1 (fun _ => (0 : ℚ))))).2 = .done) ∧
    ∀ n, countClr (stepN 1 1 (fun _ => (0 : ℚ)) n
      (initState 1 1 (fun _ => (0 : ℚ)))).walls ≤ 1 * 1 - 1 :=
  ⟨⟨fun i => ⟨le_refl 0, by norm_num⟩, le_refl 1⟩,
    generation_terminates (fun i => ⟨le_refl 0, by norm_num⟩)
      (le_refl 1) (le_refl 1)⟩

/-- C7: `try_wall` on a wall whose `clr` flag is already set returns
failure and leaves the whole state unchanged, and a `step` pop
(`stepPop`) that retrieves a stale entry — one whose stored type differs
from the bucket index — only removes the popped entry and changes nothing
else, opening no wall. -/
theorem removed_noop_stale_discard {W H qi wi : ℕ} {rng : ℕ → ℚ}
    {s : GState} {w : Wall} :
    (s.walls.getD wi none = some w → w.clr = true →
      tryWall W H rng s wi = (s, false)) ∧
    ((s.queues qi).getLast? = some wi →
      s.walls.getD wi none = some w → w.typ ≠ qi →
      stepPop W H rng s qi =
        ({ s with
          queues := Function.update s.queues qi (s.queues qi).dropLast },
          .cont none)) := by
  constructor
  · intro h hc
    simp only [tryWall, h, hc, if_true]
  · intro hlast hslot hne
    simp only [stepPop, hlast, hslot]
    rw [if_neg hne]

/-- A one-wall state whose single wall is already removed and whose
stored type (3) disagrees with the bucket (2) its index sits in. -/
def staleState : GState :=
  { uf := [-1, -1],
    queues := Function.update (fun _ => []) 2 [0],
    walls := [some ⟨0, 0, true, 3, true⟩],
    startx := 0,
    finishx := 0,
    pos := 0 }

theorem removed_noop_stale_discard_witness :
    (staleState.walls.getD 0 none = some ⟨0, 0, true, 3, true⟩ ∧
      (⟨0, 0, true, 3, true⟩ : Wall).clr = true ∧
      (staleState.queues 2).getLast? = some 0 ∧
      (⟨0, 0, true, 3, true⟩ : Wall).typ ≠ 2) ∧
    tryWall 1 1 (fun _ => (0 : ℚ)) staleState 0 = (staleState, false) ∧
    stepPop 1 1 (fun _ => (0 : ℚ)) staleState 2 =
      ({ staleState with
        queues := Function.update staleState.queues 2
          (staleState.queues 2).dropLast }, .cont none) :=
  ⟨⟨rfl, rfl, rfl, by decide⟩,
    (@removed_noop_stale_discard 1 1 2 0 (fun _ => (0 : ℚ)) staleState
      ⟨0, 0, true, 3, true⟩).1 rfl rfl,
    (@removed_noop_stale_discard 1 1 2 0 (fun _ => (0 : ℚ)) staleState
      ⟨0, 0, true, 3, true⟩).2 rfl rfl (by decide)⟩

/-- C8: `update_wall_type` recomputes `t1 * 3 + t2`; exactly when that
strictly exceeds the stored type it stores the new type and inserts one
fresh reference to the wall at a position drawn uniformly from the target
bucket (insert at `randrange(len+1)`), otherwise it changes nothing; and
along any run from `init` a stored wall's type never decreases. -/
theorem wall_type_monotone {W H n j : ℕ} {rng : ℕ → ℚ} {s : GState}
    {wi : ℕ} {w v : Wall} :
    (s.walls.getD wi none = some w →
      (w.typ < wallTypeOf W H s.walls w →
        updateWallType W H rng s wi =
          { s with
            walls := s.walls.set wi
              (some { w with typ := wallTypeOf W H s.walls w }),
            queues := Function.update s.queues (wallTypeOf W H s.walls w)
              (pushAt
                (randIntQ (rng s.pos)
                  ((s.queues (wallTypeOf W H s.walls w)).length + 1))
                wi (s.queues (wallTypeOf W H s.walls w))),
            pos := s.pos + 1 }) ∧
      (¬ w.typ < wallTypeOf W H s.walls w →
        updateWallType W H rng s wi = s)) ∧
    (ValidRng rng → (initState W H rng).walls.getD j none = some v →
      ∃ v', (stepN W H rng n (initState W H rng)).walls.getD j none =
          some v' ∧
        v'.wx = v.wx ∧ v'.wy = v.wy ∧ v'.dr = v.dr ∧ v.typ ≤ v'.typ) := by
  refine ⟨fun h => ⟨fun hlt => ?_, fun hle => updateWallType_of_le h hle⟩,
    fun hrng h => (stepN_inv hrng n _ (initState_inv W H rng)).2 j v h⟩
  rw [updateWallType_of_lt h hlt]
  rfl

set_option maxRecDepth 1000000 in
unseal Rat.add Rat.mul Rat.sub Rat.inv in
theorem wall_type_monotone_witness :
    ((initState 2 1 (fun _ => (0 : ℚ))).walls.getD 0 none =
        some ⟨0, 0, true, 0, false⟩ ∧
      ¬ (⟨0, 0, true, 0, false⟩ : Wall).typ <
        wallTypeOf 2 1 (initState 2 1 (fun _ => (0 : ℚ))).walls
          ⟨0, 0, true, 0, false⟩ ∧
      ValidRng (fun _ => (0 : ℚ))) ∧
    updateWallType 2 1 (fun _ => (0 : ℚ))
        (initState 2 1 (fun _ => (0 : ℚ))) 0 =
      initState 2 1 (fun _ => (0 : ℚ)) ∧
    (∃ v', (stepN 2 1 (fun _ => (0 : ℚ)) 0
        (initState 2 1 (fun _ => (0 : ℚ)))).walls.getD 0 none = some v' ∧
      v'.wx = (⟨0, 0, true, 0, false⟩ : Wall).wx ∧
      v'.wy = (⟨0, 0, true, 0, false⟩ : Wall).wy ∧
      v'.dr = (⟨0, 0, true, 0, false⟩ : Wall).dr ∧
      (⟨0, 0, true, 0, false⟩ : Wall).typ ≤ v'.typ) :=
  ⟨⟨by decide, by decide, fun i => ⟨le_refl 0, by norm_num⟩⟩,
    ((@wall_type_monotone 2 1 0 0 (fun _ => (0 : ℚ))
      (initState 2 1 (fun _ => (0 : ℚ))) 0 ⟨0, 0, true, 0, false⟩
      ⟨0, 0, true, 0, false⟩).1 (by decide)).2 (by decide),
    (@wall_type_monotone 2 1 0 0 (fun _ => (0 : ℚ))
      (initState 2 1 (fun _ => (0 : ℚ))) 0 ⟨0, 0, true, 0, false⟩
      ⟨0, 0, true, 0, false⟩).2 (fun i => ⟨le_refl 0, by norm_num⟩)
      (by decide)⟩

/-- Per-step generation trace: after every `step`, the nine bucket
contents and the step outcome (Done, or continue with the index of the
wall opened in that step, if any). -/
def genTrace (W H : ℕ) (rng : ℕ → ℚ) : ℕ → GState →
    List ((ℕ → List ℕ) × StepOut)
  | 0, _ => []
  | n + 1, s =>
    ((step W H rng s).1.queues, (step W H rng s).2) ::
      genTrace W H rng n (step W H rng s).1

/-- Full observable run: entrance column, exit column, and the per-step
trace of bucket contents and wall-opened events from `init`. -/
def runTrace (W H : ℕ) (rng : ℕ → ℚ) (n : ℕ) :
    (ℕ × ℕ) × List ((ℕ → List ℕ) × StepOut) :=
  (((initState W H rng).startx, (initState W H rng).finishx),
    genTrace W H rng n (initState W H rng))

/-- C9: two runs fed the same random draws behave identically — same
entrance and exit columns, same bucket contents after every step, and the
same sequence of wall-opened events. -/
theorem generation_deterministic {W H n : ℕ} {rng₁ rng₂ : ℕ → ℚ}
    (h : ∀ i, rng₁ i = rng₂ i) :
    runTrace W H rng₁ n = runTrace W H rng₂ n := by
  have he : rng₁ = rng₂ := funext h
  rw [he]

theorem generation_deterministic_witness :
    (∀ i : ℕ, (fun _ => (0 : ℚ)) i = (fun _ => (0 : ℚ)) i) ∧
    runTrace 2 2 (fun _ => (0 : ℚ)) 3 = runTrace 2 2 (fun _ => (0 : ℚ)) 3 :=
  ⟨fun i => rfl, generation_deterministic (fun i => rfl)⟩

/-- 2D read `solution_state[y][x]` (0 outside the allocated grid). -/
def gridGet (st : List (List ℕ)) (y x : ℕ) : ℕ := (st.getD y []).getD x 0

/-- 2D write `solution_state[y][x] = v`. -/
def gridSet (st : List (List ℕ)) (y x v : ℕ) : List (List ℕ) :=
  st.set y ((st.getD y []).set x v)

/-- Neighbour x-coordinate `cx + (n & 1) - ((n >> 1) & 1)`
(maze_solver_bfs.py line 407). -/
def dirTX (cx n : ℕ) : ℤ :=
  (cx : ℤ) + ((n &&& 1 : ℕ) : ℤ) - (((n >>> 1) &&& 1 : ℕ) : ℤ)

/-- Neighbour y-coordinate `cy - 1 + (n - 1 if n >= 2 else n)`
(maze_solver_bfs.py line 406). -/
def dirTY (cy n : ℕ) : ℤ :=
  (cy : ℤ) - 1 + (if 2 ≤ n then (n : ℤ) - 1 else (n : ℤ))

def dirTarget (cx cy n : ℕ) : ℤ × ℤ := (dirTX cx n, dirTY cy n)

/-- `walldiff = [-GRID_WIDTH * 2 + 1, 0, -2, 1]`
(maze_solver_bfs.py line 397). -/
def wallDiff (W : ℕ) : List ℤ := [-(W : ℤ) * 2 + 1, 0, -2, 1]

/-- Bounds test `0 <= tx < GRID_WIDTH and 0 <= ty < GRID_HEIGHT`. -/
def inGrid (W H : ℕ) (t : ℤ × ℤ) : Bool :=
  decide (0 ≤ t.1) && decide (t.1 < (W : ℤ)) &&
    decide (0 ≤ t.2) && decide (t.2 < (H : ℤ))

/-- Wall test of the solver (maze_solver_bfs.py lines 410-414): the wall
at `(cy*W + cx)*2 + walldiff[n]` exists in range, is allocated, and has
been removed. -/
def wallOpen (W : ℕ) (walls : List (Option Wall)) (cx cy n : ℕ) : Bool :=
  decide (0 ≤ (((cy * W + cx) * 2 : ℕ) : ℤ) + (wallDiff W).getD n 0) &&
    decide ((((cy * W + cx) * 2 : ℕ) : ℤ) + (wallDiff W).getD n 0 <
      (walls.length : ℤ)) &&
    isClr (walls.getD
      ((((cy * W + cx) * 2 : ℕ) : ℤ) + (wallDiff W).getD n 0).toNat none)

/-- One direction attempt of the frontier expansion
(maze_solver_bfs.py lines 404-418), threading the state grid and the
next-frontier list. -/
def solTry (W H : ℕ) (walls : List (Option Wall)) (depth : ℕ)
    (acc : List (List ℕ) × List (ℕ × ℕ)) (cx cy n : ℕ) :
    List (List ℕ) × List (ℕ × ℕ) :=
  let t := dirTarget cx cy n
  if inGrid W H t = true ∧ gridGet acc.1 t.2.toNat t.1.toNat = 0 then
    if wallOpen W walls cx cy n then
      (gridSet acc.1 t.2.toNat t.1.toNat depth,
        acc.2 ++ [(t.1.toNat, t.2.toNat)])
    else acc
  else acc

/-- Frontier expansion loop of `solution_step`
(maze_solver_bfs.py lines 400-420). -/
def solExpand (W H : ℕ) (walls : List (Option Wall)) (depth : ℕ)
    (old : List (ℕ × ℕ)) (st : List (List ℕ)) :
    List (List ℕ) × List (ℕ × ℕ) :=
  old.foldl (fun acc c =>
    [0, 1, 2, 3].foldl (fun acc n => solTry W H walls depth acc c.1 c.2 n)
      acc) (st, [])

/-- Solver state: depth grid, current frontier, depth counter. -/
structure SState where
  state : List (List ℕ)
  level : List (ℕ × ℕ)
  depth : ℕ

/-- Embedding of `init_solution` (maze_solver_bfs.py lines 342-368). -/
def initSolution (W H startx : ℕ) : SState :=
  ⟨gridSet (List.replicate H (List.replicate W 0)) 0 startx 1,
    [(startx, 0)], 1⟩

/-- BFS phase of `solution_step` (maze_solver_bfs.py lines 385-420):
bump the depth and expand one full frontier. -/
def solutionStep (W H : ℕ) (walls : List (Option Wall)) (s : SState) :
    SState :=
  ⟨(solExpand W H walls (s.depth + 1) s.level s.state).1,
    (solExpand W H walls (s.depth + 1) s.level s.state).2,
    s.depth + 1⟩

def solStepN (W H : ℕ) (walls : List (Option Wall)) : ℕ → SState → SState
  | 0, s => s
  | n + 1, s => solStepN W H walls n (solutionStep W H walls s)

/-- Condition of the backtracking neighbour test
(maze_solver_bfs.py lines 446-450): the target cell is in range, visited,
strictly closer to the start, and reachable through a removed wall. -/
def backCond (W H : ℕ) (walls : List (Option Wall)) (st : List (List ℕ))
    (d x y n : ℕ) : Prop :=
  inGrid W H (dirTarget x y n) = true ∧
    gridGet st (dirTarget x y n).2.toNat (dirTarget x y n).1.toNat ≠ 0 ∧
    gridGet st (dirTarget x y n).2.toNat (dirTarget x y n).1.toNat < d ∧
    wallOpen W walls x y n = true

instance {W H : ℕ} {walls : List (Option Wall)} {st : List (List ℕ)}
    {d x y n : ℕ} : Decidable (backCond W H walls st d x y n) :=
  inferInstanceAs (Decidable (inGrid W H (dirTarget x y n) = true ∧
    gridGet st (dirTarget x y n).2.toNat (dirTarget x y n).1.toNat ≠ 0 ∧
    gridGet st (dirTarget x y n).2.toNat (dirTarget x y n).1.toNat < d ∧
    wallOpen W walls x y n = true))

/-- Neighbour search of the backtracking loop
(maze_solver_bfs.py lines 443-454): first direction whose target passes
`backCond`. -/
def backFind (W H : ℕ) (walls : List (Option Wall)) (st : List (List ℕ))
    (d x y : ℕ) : List ℕ → Option (ℕ × ℕ)
  | [] => none
  | n :: rest =>
    if backCond W H walls st d x y n then
      some ((dirTarget x y n).1.toNat, (dirTarget x y n).2.toNat)
    else backFind W H walls st d x y rest

/-- Backtracking loop of `solution_step` (maze_solver_bfs.py lines
434-457), fuelled; the cells listed are the ones the loop paints with the
path colour, in order from the exit. -/
def backtrace (W H : ℕ) (walls : List (Option Wall))
    (st : List (List ℕ)) : ℕ → ℕ → ℕ → List (ℕ × ℕ)
  | 0, x, y => [(x, y)]
  | fuel + 1, x, y =>
    match backFind W H walls st (gridGet st y x) x y [0, 1, 2, 3] with
    | none => [(x, y)]
    | some t => (x, y) :: backtrace W H walls st fuel t.1 t.2

/-- One solver move from cell `a` to cell `b`: some direction `n`
passes the solver's bounds test and its removed-wall test and lands on
`b`. -/
def StepTo (W H : ℕ) (walls : List (Option Wall)) (a b : ℕ × ℕ) : Prop :=
  ∃ n, n < 4 ∧ inGrid W H (dirTarget a.1 a.2 n) = true ∧
    wallOpen W walls a.1 a.2 n = true ∧
    ((dirTarget a.1 a.2 n).1.toNat, (dirTarget a.1 a.2 n).2.toNat) = b

/-- `c` is reachable from `src` in exactly `j` solver moves. -/
def ReachN (W H : ℕ) (walls : List (Option Wall)) (src : ℕ × ℕ) :
    ℕ → (ℕ × ℕ) → Prop
  | 0, c => c = src
  | j + 1, c => ∃ p, ReachN W H walls src j p ∧ StepTo W H walls p c

/-- `j` is the exact shortest-path distance from `src` to `c` through
removed walls. -/
def SolDistIs (W H : ℕ) (walls : List (Option Wall)) (src c : ℕ × ℕ)
    (j : ℕ) : Prop :=
  ReachN W H walls src j c ∧ ∀ i, i < j → ¬ ReachN W H walls src i c

/-- The depth grid has `H` rows of `W` entries. -/
def GridShape (W H : ℕ) (st : List (List ℕ)) : Prop :=
  st.length = H ∧ ∀ r ∈ st, r.length = W

theorem gridGet_replicate (W H y x : ℕ) :
    gridGet (List.replicate H (List.replicate W 0)) y x = 0 := by
  simp only [gridGet, List.getD_eq_getElem?_getD, List.getElem?_replicate]
  by_cases hy : y < H <;> by_cases hx : x < W <;> simp [hy, hx]

theorem GridShape_replicate (W H : ℕ) :
    GridShape W H (List.replicate H (List.replicate W 0)) := by
  refine ⟨by simp, ?_⟩
  intro r hr
  rw [List.eq_of_mem_replicate hr]
  simp

theorem GridShape.row {W H : ℕ} {st : List (List ℕ)}
    (h : GridShape W H st) {y : ℕ} (hy : y < H) :
    (st.getD y []).length = W := by
  have hylen : y < st.length := by
    rw [h.1]
    exact hy
  rw [List.getD_eq_getElem _ _ hylen]
  exact h.2 _ (List.getElem_mem hylen)

theorem GridShape_set {W H : ℕ} {st : List (List ℕ)} {y : ℕ} (x v : ℕ)
    (h : GridShape W H st) (hy : y < H) :
    GridShape W H (gridSet st y x v) := by
  unfold gridSet
  refine ⟨by rw [List.length_set]; exact h.1, ?_⟩
  intro r hr
  rcases List.mem_or_eq_of_mem_set hr with hmem | heq
  · exact h.2 r hmem
  · rw [heq, List.length_set]
    exact h.row hy

theorem gridGet_set_self {W H : ℕ} {st : List (List ℕ)} {y x v : ℕ}
    (h : GridShape W H st) (hx : x < W) (hy : y < H) :
    gridGet (gridSet st y x v) y x = v := by
  unfold gridGet gridSet
  rw [getD_set_self (by rw [h.1]; exact hy),
    getD_set_self (by rw [h.row hy]; exact hx)]

theorem gridGet_set_ne {W H : ℕ} {st : List (List ℕ)}
    {y x v y' x' : ℕ} (h : GridShape W H st) (hy : y < H)
    (hne : y' ≠ y ∨ x' ≠ x) :
    gridGet (gridSet st y x v) y' x' = gridGet st y' x' := by
  unfold gridGet gridSet
  by_cases hyy : y' = y
  · subst hyy
    have hxx : x' ≠ x := by
      rcases hne with h1 | h2
      · exact absurd rfl h1
      · exact h2
    rw [getD_set_self (by rw [h.1]; exact hy), getD_set_ne (Ne.symm hxx)]
  · rw [getD_set_ne (fun hc => hyy hc.symm)]

/-- Fixed direction variant of `StepTo`. -/
def StepToN (W H : ℕ) (walls : List (Option Wall)) (a : ℕ × ℕ) (n : ℕ)
    (b : ℕ × ℕ) : Prop :=
  inGrid W H (dirTarget a.1 a.2 n) = true ∧
    wallOpen W walls a.1 a.2 n = true ∧
    ((dirTarget a.1 a.2 n).1.toNat, (dirTarget a.1 a.2 n).2.toNat) = b

theorem stepTo_iff {W H : ℕ} {walls : List (Option Wall)} {a b : ℕ × ℕ} :
    StepTo W H walls a b ↔
      ∃ n ∈ [0, 1, 2, 3], StepToN W H walls a n b := by
  constructor
  · rintro ⟨n, hn, h1, h2, h3⟩
    refine ⟨n, ?_, h1, h2, h3⟩
    simp only [List.mem_cons, List.not_mem_nil, or_false]
    omega
  · rintro ⟨n, hn, h1, h2, h3⟩
    refine ⟨n, ?_, h1, h2, h3⟩
    simp only [List.mem_cons, List.not_mem_nil, or_false] at hn
    omega

/-- Relation between an intermediate expansion accumulator, the state
grid at the start of the `solution_step` frontier loop, and the frontier
entries appended so far. -/
structure ExpandInv (W H depth : ℕ) (st₀ : List (List ℕ))
    (acc : List (List ℕ) × List (ℕ × ℕ)) : Prop where
  shape : GridShape W H acc.1
  fresh : ∀ t ∈ acc.2, t.1 < W ∧ t.2 < H ∧ gridGet st₀ t.2 t.1 = 0
  val : ∀ x y, x < W → y < H →
    gridGet acc.1 y x =
      if (x, y) ∈ acc.2 then depth else gridGet st₀ y x

theorem solTry_spec {W H depth : ℕ} {walls : List (Option Wall)}
    {st₀ : List (List ℕ)} {acc : List (List ℕ) × List (ℕ × ℕ)}
    {c : ℕ × ℕ} {n : ℕ}
    (hI : ExpandInv W H depth st₀ acc) (hd : depth ≠ 0) :
    ExpandInv W H depth st₀ (solTry W H walls depth acc c.1 c.2 n) ∧
    (∀ t, t ∈ (solTry W H walls depth acc c.1 c.2 n).2 ↔
      t ∈ acc.2 ∨
        (gridGet st₀ t.2 t.1 = 0 ∧ StepToN W H walls c n t)) := by
  unfold solTry
  by_cases h1 : inGrid W H (dirTarget c.1 c.2 n) = true ∧
      gridGet acc.1 (dirTarget c.1 c.2 n).2.toNat
        (dirTarget c.1 c.2 n).1.toNat = 0
  · rw [if_pos h1]
    obtain ⟨hg, hz⟩ := h1
    have hbounds : (dirTarget c.1 c.2 n).1.toNat < W ∧
        (dirTarget c.1 c.2 n).2.toNat < H := by
      unfold inGrid at hg
      simp only [Bool.and_eq_true, decide_eq_true_eq] at hg
      omega
    have hfreshT : ((dirTarget c.1 c.2 n).1.toNat,
        (dirTarget c.1 c.2 n).2.toNat) ∉ acc.2 ∧
        gridGet st₀ (dirTarget c.1 c.2 n).2.toNat
          (dirTarget c.1 c.2 n).1.toNat = 0 := by
      have hv := hI.val _ _ hbounds.1 hbounds.2
      rw [hv] at hz
      split_ifs at hz with hm
      · exact absurd hz hd
      · exact ⟨hm, hz⟩
    by_cases h2 : wallOpen W walls c.1 c.2 n = true
    · rw [if_pos h2]
      constructor
      · refine ⟨GridShape_set _ _ hI.shape hbounds.2, ?_, ?_⟩
        · intro t ht
          rcases List.mem_append.mp ht with hm | hm
          · exact hI.fresh t hm
          · rw [List.mem_singleton] at hm
            subst hm
            exact ⟨hbounds.1, hbounds.2, hfreshT.2⟩
        · intro x y hx hy
          by_cases hxy : (x, y) = ((dirTarget c.1 c.2 n).1.toNat,
              (dirTarget c.1 c.2 n).2.toNat)
          · obtain ⟨hx1, hy1⟩ := Prod.mk.injEq .. ▸ hxy
            subst hx1
            subst hy1
            rw [if_pos (List.mem_append.mpr (Or.inr (List.mem_singleton.mpr
              rfl)))]
            exact gridGet_set_self hI.shape hbounds.1 hbounds.2
          · have hcoord : y ≠ (dirTarget c.1 c.2 n).2.toNat ∨
                x ≠ (dirTarget c.1 c.2 n).1.toNat := by
              by_contra hcon
              push_neg at hcon
              exact hxy (by rw [hcon.2, hcon.1])
            rw [gridGet_set_ne hI.shape hbounds.2 hcoord, hI.val x y hx hy]
            by_cases hm : (x, y) ∈ acc.2
            · rw [if_pos hm, if_pos (List.mem_append.mpr (Or.inl hm))]
            · rw [if_neg hm, if_neg (fun hc => by
                rcases List.mem_append.mp hc with hc' | hc'
                · exact hm hc'
                · exact hxy (List.mem_singleton.mp hc'))]
      · intro t
        simp only [List.mem_append, List.mem_singleton]
        constructor
        · rintro (hm | rfl)
          · exact Or.inl hm
          · exact Or.inr ⟨hfreshT.2, hg, h2, rfl⟩
        · rintro (hm | ⟨hz0, _, _, htar⟩)
          · exact Or.inl hm
          · exact Or.inr htar.symm
    · rw [if_neg h2]
      refine ⟨hI, fun t => ⟨Or.inl, ?_⟩⟩
      rintro (hm | ⟨hz0, _, hop, _⟩)
      · exact hm
      · exact absurd hop h2
  · rw [if_neg h1]
    refine ⟨hI, fun t => ⟨Or.inl, ?_⟩⟩
    rintro (hm | ⟨hz0, hin, hop, htar⟩)
    · exact hm
    · rcases not_and_or.mp h1 with hA | hB
      · exact absurd hin hA
      · have hbounds : (dirTarget c.1 c.2 n).1.toNat < W ∧
            (dirTarget c.1 c.2 n).2.toNat < H := by
          unfold inGrid at hin
          simp only [Bool.and_eq_true, decide_eq_true_eq] at hin
          omega
        have hv := hI.val _ _ hbounds.1 hbounds.2
        split_ifs at hv with hm2
        · rw [htar] at hm2
          exact hm2
        · rw [← htar] at hz0
          rw [hz0] at hv
          exact absurd hv hB

theorem solTry_fold_spec {W H depth : ℕ} {walls : List (Option Wall)}
    {st₀ : List (List ℕ)} {c : ℕ × ℕ} (hd : depth ≠ 0) :
    ∀ (ns : List ℕ) (acc : List (List ℕ) × List (ℕ × ℕ)),
      ExpandInv W H depth st₀ acc →
      ExpandInv W H depth st₀
        (ns.foldl (fun acc n => solTry W H walls depth acc c.1 c.2 n)
          acc) ∧
      (∀ t, t ∈ (ns.foldl
          (fun acc n => solTry W H walls depth acc c.1 c.2 n) acc).2 ↔
        t ∈ acc.2 ∨
          (gridGet st₀ t.2 t.1 = 0 ∧
            ∃ n ∈ ns, StepToN W H walls c n t)) := by
  intro ns
  induction ns with
  | nil =>
    intro acc h
    exact ⟨h, fun t => by simp⟩
  | cons n ns ih =>
    intro acc h
    obtain ⟨h1, h2⟩ := @solTry_spec W H depth walls st₀ acc c n h hd
    rw [List.foldl_cons]
    obtain ⟨g1, g2⟩ := ih _ h1
    refine ⟨g1, fun t => ?_⟩
    rw [g2 t, h2 t]
    constructor
    · rintro ((hm | ⟨hz, hs⟩) | ⟨hz, n', hn', hs⟩)
      · exact Or.inl hm
      · exact Or.inr ⟨hz, n, List.mem_cons_self .., hs⟩
      · exact Or.inr ⟨hz, n', List.mem_cons_of_mem _ hn', hs⟩
    · rintro (hm | ⟨hz, n', hn', hs⟩)
      · exact Or.inl (Or.inl hm)
      · rcases List.mem_cons.mp hn' with rfl | hmem
        · exact Or.inl (Or.inr ⟨hz, hs⟩)
        · exact Or.inr ⟨hz, n', hmem, hs⟩

theorem solExpand_fold_spec {W H depth : ℕ} {walls : List (Option Wall)}
    {st₀ : List (List ℕ)} (hd : depth ≠ 0) :
    ∀ (old : List (ℕ × ℕ)) (acc : List (List ℕ) × List (ℕ × ℕ)),
      ExpandInv W H depth st₀ acc →
      ExpandInv W H depth st₀
        (old.foldl (fun acc c =>
          [0, 1, 2, 3].foldl
            (fun acc n => solTry W H walls depth acc c.1 c.2 n) acc)
          acc) ∧
      (∀ t, t ∈ (old.foldl (fun acc c =>
          [0, 1, 2, 3].foldl
            (fun acc n => solTry W H walls depth acc c.1 c.2 n) acc)
          acc).2 ↔
        t ∈ acc.2 ∨
          (gridGet st₀ t.2 t.1 = 0 ∧
            ∃ c ∈ old, StepTo W H walls c t)) := by
  intro old
  induction old with
  | nil =>
    intro acc h
    exact ⟨h, fun t => by simp⟩
  | cons c old ih =>
    intro acc h
    obtain ⟨h1, h2⟩ := solTry_fold_spec hd [0, 1, 2, 3] acc h
    rw [List.foldl_cons]
    obtain ⟨g1, g2⟩ := ih _ h1
    refine ⟨g1, fun t => ?_⟩
    rw [g2 t, h2 t]
    constructor
    · rintro ((hm | ⟨hz, hs⟩) | ⟨hz, c', hc', hs⟩)
      · exact Or.inl hm
      · exact Or.inr ⟨hz, c, List.mem_cons_self ..,
          stepTo_iff.mpr hs⟩
      · exact Or.inr ⟨hz, c', List.mem_cons_of_mem _ hc', hs⟩
    · rintro (hm | ⟨hz, c', hc', hs⟩)
      · exact Or.inl (Or.inl hm)
      · rcases List.mem_cons.mp hc' with rfl | hmem
        · exact Or.inl (Or.inr ⟨hz, stepTo_iff.mp hs⟩)
        · exact Or.inr ⟨hz, c', hmem, hs⟩

theorem solExpand_spec {W H depth : ℕ} {walls : List (Option Wall)}
    {st₀ : List (List ℕ)} (hshape : GridShape W H st₀) (hd : depth ≠ 0)
    (old : List (ℕ × ℕ)) :
    ExpandInv W H depth st₀ (solExpand W H walls depth old st₀) ∧
    (∀ t, t ∈ (solExpand W H walls depth old st₀).2 ↔
      gridGet st₀ t.2 t.1 = 0 ∧ ∃ c ∈ old, StepTo W H walls c t) := by
  have hbase : ExpandInv W H depth st₀ (st₀, ([] : List (ℕ × ℕ))) := by
    refine ⟨hshape, ?_, ?_⟩
    · intro t ht
      simp at ht
    · intro x y hx hy
      rw [if_neg (List.not_mem_nil _)]
  obtain ⟨h1, h2⟩ := solExpand_fold_spec hd old (st₀, []) hbase
  refine ⟨h1, fun t => ?_⟩
  rw [solExpand, h2 t]
  simp only [List.not_mem_nil, false_or]

theorem reach_min {W H : ℕ} {walls : List (Option Wall)} {src c : ℕ × ℕ} :
    ∀ {j}, ReachN W H walls src j c →
      ∃ j', j' ≤ j ∧ SolDistIs W H walls src c j' := by
  intro j
  induction j using Nat.strong_induction_on with
  | _ j ih =>
    intro h
    by_cases hmin : ∀ i, i < j → ¬ ReachN W H walls src i c
    · exact ⟨j, le_refl j, h, hmin⟩
    · push_neg at hmin
      obtain ⟨i, hi, hr⟩ := hmin
      obtain ⟨j', hj', hd⟩ := ih i hi hr
      exact ⟨j', le_trans hj' (le_of_lt hi), hd⟩

theorem dist_unique {W H : ℕ} {walls : List (Option Wall)}
    {src c : ℕ × ℕ} {j j' : ℕ} (h1 : SolDistIs W H walls src c j)
    (h2 : SolDistIs W H walls src c j') : j = j' := by
  by_contra hne
  rcases Nat.lt_or_ge j j' with h | h
  · exact h2.2 j h h1.1
  · exact h1.2 j' (by omega) h2.1

theorem dist_pred {W H : ℕ} {walls : List (Option Wall)}
    {src c : ℕ × ℕ} {j : ℕ} (h : SolDistIs W H walls src c (j + 1)) :
    ∃ p, SolDistIs W H walls src p j ∧ StepTo W H walls p c := by
  obtain ⟨hr, hmin⟩ := h
  simp only [ReachN] at hr
  obtain ⟨p, hp, hst⟩ := hr
  obtain ⟨j', hj', hd⟩ := reach_min hp
  rcases Nat.lt_or_ge j' j with hlt | hge
  · exfalso
    apply hmin (j' + 1) (by omega)
    show ReachN W H walls src (j' + 1) c
    simp only [ReachN]
    exact ⟨p, hd.1, hst⟩
  · have hje : j' = j := by omega
    subst hje
    exact ⟨p, hd, hst⟩

theorem reach_inGrid {W H : ℕ} {walls : List (Option Wall)}
    {src : ℕ × ℕ} (hsrc : src.1 < W ∧ src.2 < H) :
    ∀ {j} {c : ℕ × ℕ}, ReachN W H walls src j c →
      c.1 < W ∧ c.2 < H := by
  intro j
  induction j with
  | zero =>
    intro c h
    have he : c = src := h
    rw [he]
    exact hsrc
  | succ j ih =>
    intro c h
    simp only [ReachN] at h
    obtain ⟨p, hp, n, hn, hin, hop, htar⟩ := h
    unfold inGrid at hin
    simp only [Bool.and_eq_true, decide_eq_true_eq] at hin
    rw [← htar]
    constructor <;> omega

/-- BFS invariant after `k` frontier expansions: the depth counter is
`k+1`, the grid stores exact distance plus one for every cell whose
distance is at most `k` and zero elsewhere, and the frontier holds
exactly the cells at distance `k`. -/
structure BInv (W H : ℕ) (walls : List (Option Wall)) (src : ℕ × ℕ)
    (k : ℕ) (s : SState) : Prop where
  depth_eq : s.depth = k + 1
  shape : GridShape W H s.state
  exact1 : ∀ x y j, x < W → y < H → j ≤ k →
    SolDistIs W H walls src (x, y) j → gridGet s.state y x = j + 1
  unreached : ∀ x y, x < W → y < H →
    (∀ j, j ≤ k → ¬ SolDistIs W H walls src (x, y) j) →
    gridGet s.state y x = 0
  level_iff : ∀ t, t ∈ s.level ↔ SolDistIs W H walls src t k

theorem BInv_init {W H startx : ℕ} {walls : List (Option Wall)}
    (hsx : startx < W) (hH : 0 < H) :
    BInv W H walls (startx, 0) 0 (initSolution W H startx) := by
  have hshape0 := GridShape_replicate W H
  refine ⟨rfl, GridShape_set _ _ hshape0 hH, ?_, ?_, ?_⟩
  · intro x y j hx hy hj hd
    have hj0 : j = 0 := by omega
    subst hj0
    have h0 : (x, y) = (startx, 0) := hd.1
    have hx0 : x = startx := (Prod.mk.injEq .. ▸ h0).1
    have hy0 : y = 0 := (Prod.mk.injEq .. ▸ h0).2
    rw [hx0, hy0]
    show gridGet (gridSet (List.replicate H (List.replicate W 0))
      0 startx 1) 0 startx = 0 + 1
    rw [gridGet_set_self hshape0 hsx hH]
  · intro x y hx hy hnone
    have hne : (x, y) ≠ (startx, 0) := by
      intro hc
      apply hnone 0 (le_refl 0)
      exact ⟨hc, fun i hi => by omega⟩
    have hco : y ≠ 0 ∨ x ≠ startx := by
      by_contra hcon
      push_neg at hcon
      exact hne (by rw [hcon.1, hcon.2])
    show gridGet (gridSet (List.replicate H (List.replicate W 0))
      0 startx 1) y x = 0
    rw [gridGet_set_ne hshape0 hH hco, gridGet_replicate]
  · intro t
    show t ∈ [(startx, 0)] ↔ _
    simp only [List.mem_singleton]
    constructor
    · rintro rfl
      exact ⟨rfl, fun i hi => by omega⟩
    · rintro ⟨hr, _⟩
      exact hr

theorem BInv_step {W H k : ℕ} {walls : List (Option Wall)}
    {src : ℕ × ℕ} {s : SState} (hsrc : src.1 < W ∧ src.2 < H)
    (hB : BInv W H walls src k s) :
    BInv W H walls src (k + 1) (solutionStep W H walls s) := by
  have hd : s.depth + 1 ≠ 0 := by omega
  obtain ⟨hE, hmem⟩ :=
    @solExpand_spec W H (s.depth + 1) walls s.state hB.shape hd s.level
  have hlev : ∀ t,
      t ∈ (solExpand W H walls (s.depth + 1) s.level s.state).2 ↔
      SolDistIs W H walls src t (k + 1) := by
    intro t
    rw [hmem t]
    constructor
    · rintro ⟨hz, c, hc, hst⟩
      have hcd : SolDistIs W H walls src c k := (hB.level_iff c).1 hc
      have hr : ReachN W H walls src (k + 1) t := by
        simp only [ReachN]
        exact ⟨c, hcd.1, hst⟩
      refine ⟨hr, ?_⟩
      intro i hi hri
      obtain ⟨j', hj', hdj⟩ := reach_min hri
      have htin : t.1 < W ∧ t.2 < H := reach_inGrid hsrc hri
      have hval := hB.exact1 t.1 t.2 j' htin.1 htin.2 (by omega) hdj
      rw [hval] at hz
      omega
    · rintro ⟨hr, hmin⟩
      obtain ⟨p, hpd, hst⟩ := dist_pred ⟨hr, hmin⟩
      refine ⟨?_, p, (hB.level_iff p).2 hpd, hst⟩
      have htin : t.1 < W ∧ t.2 < H := reach_inGrid hsrc hr
      apply hB.unreached t.1 t.2 htin.1 htin.2
      intro j hj hdj
      have := dist_unique hdj ⟨hr, hmin⟩
      omega
  refine ⟨?_, hE.shape, ?_, ?_, hlev⟩
  · show s.depth + 1 = k + 1 + 1
    rw [hB.depth_eq]
  · intro x y j hx hy hj hdj
    show gridGet (solExpand W H walls (s.depth + 1) s.level s.state).1
      y x = j + 1
    rw [hE.val x y hx hy]
    by_cases hjk : j ≤ k
    · have hnm : (x, y) ∉
          (solExpand W H walls (s.depth + 1) s.level s.state).2 := by
        intro hc
        have := dist_unique ((hlev (x, y)).1 hc) hdj
        omega
      rw [if_neg hnm]
      exact hB.exact1 x y j hx hy hjk hdj
    · have hj1 : j = k + 1 := by omega
      subst hj1
      rw [if_pos ((hlev (x, y)).2 hdj), hB.depth_eq]
  · intro x y hx hy hnone
    show gridGet (solExpand W H walls (s.depth + 1) s.level s.state).1
      y x = 0
    rw [hE.val x y hx hy, if_neg ?_]
    · apply hB.unreached x y hx hy
      intro j hj hdj
      exact hnone j (by omega) hdj
    · intro hc
      exact hnone (k + 1) (le_refl _) ((hlev (x, y)).1 hc)

theorem BInv_stepN {W H : ℕ} {walls : List (Option Wall)}
    {src : ℕ × ℕ} (hsrc : src.1 < W ∧ src.2 < H) :
    ∀ (k j : ℕ) (s : SState), BInv W H walls src j s →
      BInv W H walls src (j + k) (solStepN W H walls k s) := by
  intro k
  induction k with
  | zero =>
    intro j s h
    exact h
  | succ k ih =>
    intro j s h
    have h2 := ih (j + 1) _ (BInv_step hsrc h)
    have harith : j + (k + 1) = j + 1 + k := by omega
    rw [harith]
    exact h2

theorem BInv_run {W H startx k : ℕ} {walls : List (Option Wall)}
    (hsx : startx < W) (hH : 0 < H) :
    BInv W H walls (startx, 0) k
      (solStepN W H walls k (initSolution W H startx)) := by
  have := @BInv_stepN W H walls (startx, 0) ⟨hsx, hH⟩ k 0 _
    (BInv_init hsx hH)
  rw [Nat.zero_add] at this
  exact this

theorem wallOpen_eq_of_index {W : ℕ} {walls : List (Option Wall)}
    {cx cy n cx' cy' n' : ℕ}
    (h : (((cy * W + cx) * 2 : ℕ) : ℤ) + (wallDiff W).getD n 0 =
      (((cy' * W + cx') * 2 : ℕ) : ℤ) + (wallDiff W).getD n' 0) :
    wallOpen W walls cx cy n = wallOpen W walls cx' cy' n' := by
  unfold wallOpen
  rw [h]

/-- The solver's wall test is symmetric: the wall crossed from `a`
towards `b` is the same wall crossed from `b` towards `a`. -/
theorem stepTo_symm {W H : ℕ} {walls : List (Option Wall)} {a b : ℕ × ℕ}
    (ha : a.1 < W ∧ a.2 < H) (h : StepTo W H walls a b) :
    StepTo W H walls b a := by
  obtain ⟨n, hn, hin, hop, htar⟩ := h
  unfold inGrid at hin
  rw [Prod.ext_iff] at htar
  obtain ⟨hb1, hb2⟩ := htar
  simp only [dirTarget, Bool.and_eq_true, decide_eq_true_eq] at hin hb1 hb2
  have hw0 : (wallDiff W).getD 0 0 = -(W : ℤ) * 2 + 1 := rfl
  have hw1 : (wallDiff W).getD 1 0 = 0 := rfl
  have hw2 : (wallDiff W).getD 2 0 = -2 := rfl
  have hw3 : (wallDiff W).getD 3 0 = 1 := rfl
  interval_cases n
  · have hx : dirTX a.1 0 = (a.1 : ℤ) := by
      unfold dirTX
      simp
    have hy : dirTY a.2 0 = (a.2 : ℤ) - 1 := by
      unfold dirTY
      simp
    rw [hx] at hin hb1
    rw [hy] at hin hb2
    have hb1z : (b.1 : ℤ) = (a.1 : ℤ) := by omega
    have hb2z : (b.2 : ℤ) = (a.2 : ℤ) - 1 := by omega
    have hx' : dirTX b.1 3 = (b.1 : ℤ) := by
      unfold dirTX
      simp
    have hy' : dirTY b.2 3 = (b.2 : ℤ) + 1 := by
      unfold dirTY
      norm_num
      omega
    refine ⟨3, by omega, ?_, ?_, ?_⟩
    · unfold inGrid
      simp only [dirTarget, Bool.and_eq_true, decide_eq_true_eq]
      rw [hx', hy']
      omega
    · have hidx : (((a.2 * W + a.1) * 2 : ℕ) : ℤ) + (wallDiff W).getD 0 0 =
          (((b.2 * W + b.1) * 2 : ℕ) : ℤ) + (wallDiff W).getD 3 0 := by
        rw [hw0, hw3]
        push_cast
        rw [hb1z, hb2z]
        ring
      rw [← wallOpen_eq_of_index hidx]
      exact hop
    · simp only [dirTarget]
      rw [Prod.ext_iff]
      rw [hx', hy']
      constructor
      · show _ = a.1
        omega
      · show _ = a.2
        omega
  · have hx : dirTX a.1 1 = (a.1 : ℤ) + 1 := by
      unfold dirTX
      simp
    have hy : dirTY a.2 1 = (a.2 : ℤ) := by
      unfold dirTY
      simp
    rw [hx] at hin hb1
    rw [hy] at hin hb2
    have hb1z : (b.1 : ℤ) = (a.1 : ℤ) + 1 := by omega
    have hb2z : (b.2 : ℤ) = (a.2 : ℤ) := by omega
    have hx' : dirTX b.1 2 = (b.1 : ℤ) - 1 := by
      unfold dirTX
      simp
    have hy' : dirTY b.2 2 = (b.2 : ℤ) := by
      unfold dirTY
      norm_num
    refine ⟨2, by omega, ?_, ?_, ?_⟩
    · unfold inGrid
      simp only [dirTarget, Bool.and_eq_true, decide_eq_true_eq]
      rw [hx', hy']
      omega
    · have hidx : (((a.2 * W + a.1) * 2 : ℕ) : ℤ) + (wallDiff W).getD 1 0 =
          (((b.2 * W + b.1) * 2 : ℕ) : ℤ) + (wallDiff W).getD 2 0 := by
        rw [hw1, hw2]
        push_cast
        rw [hb1z, hb2z]
        ring
      rw [← wallOpen_eq_of_index hidx]
      exact hop
    · simp only [dirTarget]
      rw [Prod.ext_iff]
      rw [hx', hy']
      constructor
      · show _ = a.1
        omega
      · show _ = a.2
        omega
  · have hx : dirTX a.1 2 = (a.1 : ℤ) - 1 := by
      unfold dirTX
      simp
    have hy : dirTY a.2 2 = (a.2 : ℤ) := by
      unfold dirTY
      norm_num
    rw [hx] at hin hb1
    rw [hy] at hin hb2
    have hb1z : (b.1 : ℤ) = (a.1 : ℤ) - 1 := by omega
    have hb2z : (b.2 : ℤ) = (a.2 : ℤ) := by omega
    have hx' : dirTX b.1 1 = (b.1 : ℤ) + 1 := by
      unfold dirTX
      simp
    have hy' : dirTY b.2 1 = (b.2 : ℤ) := by
      unfold dirTY
      simp
    refine ⟨1, by omega, ?_, ?_, ?_⟩
    · unfold inGrid
      simp only [dirTarget, Bool.and_eq_true, decide_eq_true_eq]
      rw [hx', hy']
      omega
    · have hidx : (((a.2 * W + a.1) * 2 : ℕ) : ℤ) + (wallDiff W).getD 2 0 =
          (((b.2 * W + b.1) * 2 : ℕ) : ℤ) + (wallDiff W).getD 1 0 := by
        rw [hw2, hw1]
        push_cast
        rw [hb1z, hb2z]
        ring
      rw [← wallOpen_eq_of_index hidx]
      exact hop
    · simp only [dirTarget]
      rw [Prod.ext_iff]
      rw [hx', hy']
      constructor
      · show _ = a.1
        omega
      · show _ = a.2
        omega
  · have hx : dirTX a.1 3 = (a.1 : ℤ) := by
      unfold dirTX
      simp
    have hy : dirTY a.2 3 = (a.2 : ℤ) + 1 := by
      unfold dirTY
      norm_num
      omega
    rw [hx] at hin hb1
    rw [hy] at hin hb2
    have hb1z : (b.1 : ℤ) = (a.1 : ℤ) := by omega
    have hb2z : (b.2 : ℤ) = (a.2 : ℤ) + 1 := by omega
    have hx' : dirTX b.1 0 = (b.1 : ℤ) := by
      unfold dirTX
      simp
    have hy' : dirTY b.2 0 = (b.2 : ℤ) - 1 := by
      unfold dirTY
      simp
    refine ⟨0, by omega, ?_, ?_, ?_⟩
    · unfold inGrid
      simp only [dirTarget, Bool.and_eq_true, decide_eq_true_eq]
      rw [hx', hy']
      omega
    · have hidx : (((a.2 * W + a.1) * 2 : ℕ) : ℤ) + (wallDiff W).getD 3 0 =
          (((b.2 * W + b.1) * 2 : ℕ) : ℤ) + (wallDiff W).getD 0 0 := by
        rw [hw3, hw0]
        push_cast
        rw [hb1z, hb2z]
        ring
      rw [← wallOpen_eq_of_index hidx]
      exact hop
    · simp only [dirTarget]
      rw [Prod.ext_iff]
      rw [hx', hy']
      constructor
      · show _ = a.1
        omega
      · show _ = a.2
        omega

theorem backFind_none {W H : ℕ} {walls : List (Option Wall)}
    {st : List (List ℕ)} {d x y : ℕ} :
    ∀ {ns : List ℕ}, (∀ n ∈ ns, ¬ backCond W H walls st d x y n) →
      backFind W H walls st d x y ns = none := by
  intro ns
  induction ns with
  | nil =>
    intro _
    rfl
  | cons n ns ih =>
    intro h
    rw [backFind, if_neg (h n (List.mem_cons_self ..))]
    exact ih (fun n' hn' => h n' (List.mem_cons_of_mem _ hn'))

theorem backFind_some {W H : ℕ} {walls : List (Option Wall)}
    {st : List (List ℕ)} {d x y : ℕ} :
    ∀ {ns : List ℕ} {t : ℕ × ℕ},
      backFind W H walls st d x y ns = some t →
      ∃ n ∈ ns, backCond W H walls st d x y n ∧
        t = ((dirTarget x y n).1.toNat, (dirTarget x y n).2.toNat) := by
  intro ns
  induction ns with
  | nil =>
    intro t h
    simp [backFind] at h
  | cons n ns ih =>
    intro t h
    rw [backFind] at h
    split_ifs at h with hc
    · obtain rfl := Option.some_injective _ h.symm
      exact ⟨n, List.mem_cons_self .., hc, rfl⟩
    · obtain ⟨n', hn', hc', ht'⟩ := ih h
      exact ⟨n', List.mem_cons_of_mem _ hn', hc', ht'⟩

theorem backFind_isSome {W H : ℕ} {walls : List (Option Wall)}
    {st : List (List ℕ)} {d x y : ℕ} :
    ∀ {ns : List ℕ}, (∃ n ∈ ns, backCond W H walls st d x y n) →
      ∃ t, backFind W H walls st d x y ns = some t := by
  intro ns
  induction ns with
  | nil =>
    rintro ⟨n, hn, _⟩
    simp at hn
  | cons n ns ih =>
    rintro ⟨n', hn', hc'⟩
    by_cases hc : backCond W H walls st d x y n
    · exact ⟨_, by rw [backFind, if_pos hc]⟩
    · rcases List.mem_cons.mp hn' with rfl | hmem
      · exact absurd hc' hc
      · obtain ⟨t, ht⟩ := ih ⟨n', hmem, hc'⟩
        exact ⟨t, by rw [backFind, if_neg hc]; exact ht⟩

theorem BInv_val_dist {W H k : ℕ} {walls : List (Option Wall)}
    {src : ℕ × ℕ} {s : SState} (hB : BInv W H walls src k s)
    {x y d : ℕ} (hx : x < W) (hy : y < H)
    (hval : gridGet s.state y x = d) (hd : 0 < d) :
    SolDistIs W H walls src (x, y) (d - 1) ∧ d - 1 ≤ k := by
  by_cases hex : ∃ j, j ≤ k ∧ SolDistIs W H walls src (x, y) j
  · obtain ⟨j, hj, hdj⟩ := hex
    have hv := hB.exact1 x y j hx hy hj hdj
    rw [hval] at hv
    have hje : d - 1 = j := by omega
    rw [hje]
    exact ⟨hdj, hj⟩
  · have h0 := hB.unreached x y hx hy
      (fun j hj hdj => hex ⟨j, hj, hdj⟩)
    rw [hval] at h0
    omega

theorem backtrace_spec {W H k : ℕ} {walls : List (Option Wall)}
    {src : ℕ × ℕ} {s : SState} (hsrc : src.1 < W ∧ src.2 < H)
    (hB : BInv W H walls src k s) :
    ∀ (d fuel x y : ℕ), x < W → y < H →
      gridGet s.state y x = d → 0 < d → d ≤ fuel + 1 →
      (backtrace W H walls s.state fuel x y).length = d ∧
      (backtrace W H walls s.state fuel x y).head? = some (x, y) ∧
      List.Chain' (StepTo W H walls)
        (backtrace W H walls s.state fuel x y) ∧
      (∀ c ∈ backtrace W H walls s.state fuel x y,
        c.1 < W ∧ c.2 < H ∧ 0 < gridGet s.state c.2 c.1 ∧
          gridGet s.state c.2 c.1 ≤ d) ∧
      List.Pairwise (fun c c' => gridGet s.state c'.2 c'.1 <
        gridGet s.state c.2 c.1)
        (backtrace W H walls s.state fuel x y) := by
  intro d
  induction d using Nat.strong_induction_on with
  | _ d ih =>
    intro fuel x y hx hy hval hd hfuel
    obtain ⟨hdist, hdk⟩ := BInv_val_dist hB hx hy hval hd
    by_cases hone : d = 1
    · subst hone
      have hnone : backFind W H walls s.state (gridGet s.state y x) x y
          [0, 1, 2, 3] = none := by
        apply backFind_none
        intro n hn
        rintro ⟨hin, hnz, hlt, hop⟩
        rw [hval] at hlt
        omega
      have hbt : backtrace W H walls s.state fuel x y = [(x, y)] := by
        cases fuel with
        | zero => rfl
        | succ f =>
          rw [backtrace, hnone]
      rw [hbt]
      refine ⟨rfl, rfl, by simp, ?_, by simp⟩
      intro c hc
      rw [List.mem_singleton] at hc
      subst hc
      refine ⟨hx, hy, ?_, ?_⟩
      · show 0 < gridGet s.state y x
        omega
      · show gridGet s.state y x ≤ 1
        omega
    · have hd2 : 2 ≤ d := by omega
      have hpred : ∃ p, SolDistIs W H walls src p (d - 2) ∧
          StepTo W H walls p (x, y) := by
        have he : d - 1 = (d - 2) + 1 := by omega
        rw [he] at hdist
        exact dist_pred hdist
      obtain ⟨p, hpd, hpstep⟩ := hpred
      have hpin : p.1 < W ∧ p.2 < H := reach_inGrid hsrc hpd.1
      have hback : StepTo W H walls (x, y) p := stepTo_symm hpin hpstep
      have hpval : gridGet s.state p.2 p.1 = d - 1 := by
        have hv := hB.exact1 p.1 p.2 (d - 2) hpin.1 hpin.2 (by omega) hpd
        rw [hv]
        omega
      have hex : ∃ n ∈ [0, 1, 2, 3],
          backCond W H walls s.state (gridGet s.state y x) x y n := by
        obtain ⟨n, hn4, hin, hop, htar⟩ := hback
        have h1 : (dirTarget x y n).1.toNat = p.1 :=
          (Prod.ext_iff.mp htar).1
        have h2 : (dirTarget x y n).2.toNat = p.2 :=
          (Prod.ext_iff.mp htar).2
        refine ⟨n, ?_, hin, ?_, ?_, hop⟩
        · simp only [List.mem_cons, List.not_mem_nil, or_false]
          omega
        · rw [h1, h2, hpval]
          omega
        · rw [h1, h2, hpval, hval]
          omega
      obtain ⟨t, ht⟩ := backFind_isSome hex
      obtain ⟨n, hn, ⟨htin, htnz, htlt, htop⟩, httar⟩ := backFind_some ht
      have hn4 : n < 4 := by
        simp only [List.mem_cons, List.not_mem_nil, or_false] at hn
        omega
      have ht1 : (dirTarget x y n).1.toNat = t.1 := by
        rw [httar]
      have ht2 : (dirTarget x y n).2.toNat = t.2 := by
        rw [httar]
      have hstep_t : StepTo W H walls (x, y) t :=
        ⟨n, hn4, htin, htop, by rw [ht1, ht2]⟩
      have htin' : t.1 < W ∧ t.2 < H := by
        unfold inGrid at htin
        simp only [dirTarget, Bool.and_eq_true, decide_eq_true_eq] at htin
        rw [← ht1, ← ht2]
        simp only [dirTarget]
        constructor <;> omega
      have htval_lt : gridGet s.state t.2 t.1 < d := by
        rw [← ht1, ← ht2]
        rw [hval] at htlt
        exact htlt
      have htval_pos : 0 < gridGet s.state t.2 t.1 := by
        rw [← ht1, ← ht2]
        omega
      have hstep_back : StepTo W H walls t (x, y) :=
        stepTo_symm ⟨hx, hy⟩ hstep_t
      obtain ⟨htd, htdk⟩ :=
        BInv_val_dist hB htin'.1 htin'.2 rfl htval_pos
      have hreach : ReachN W H walls src (gridGet s.state t.2 t.1)
          (x, y) := by
        have hv1 : gridGet s.state t.2 t.1 - 1 + 1 =
            gridGet s.state t.2 t.1 := by omega
        rw [← hv1]
        show ReachN W H walls src (gridGet s.state t.2 t.1 - 1 + 1) (x, y)
        simp only [ReachN]
        exact ⟨t, htd.1, hstep_back⟩
      have htval : gridGet s.state t.2 t.1 = d - 1 := by
        by_contra hcon
        have hlt2 : gridGet s.state t.2 t.1 < d - 1 := by omega
        exact hdist.2 _ hlt2 hreach
      obtain ⟨f, rfl⟩ : ∃ f, fuel = f + 1 := ⟨fuel - 1, by omega⟩
      have hbt : backtrace W H walls s.state (f + 1) x y =
          (x, y) :: backtrace W H walls s.state f t.1 t.2 := by
        rw [backtrace, ht]
      rw [hbt]
      obtain ⟨ihlen, ihhead, ihchain, ihmem, ihpair⟩ :=
        ih (d - 1) (by omega) f t.1 t.2 htin'.1 htin'.2 htval (by omega)
          (by omega)
      refine ⟨?_, rfl, ?_, ?_, ?_⟩
      · rw [List.length_cons, ihlen]
        omega
      · rw [List.chain'_cons']
        constructor
        · intro b hb
          rw [ihhead] at hb
          simp only [Option.mem_def, Option.some.injEq] at hb
          rw [← hb]
          exact hstep_t
        · exact ihchain
      · intro c hc
        rcases List.mem_cons.mp hc with rfl | hmem
        · refine ⟨hx, hy, ?_, ?_⟩
          · show 0 < gridGet s.state y x
            omega
          · show gridGet s.state y x ≤ d
            omega
        · obtain ⟨m1, m2, m3, m4⟩ := ihmem c hmem
          exact ⟨m1, m2, m3, by omega⟩
      · rw [List.pairwise_cons]
        constructor
        · intro c hc
          obtain ⟨m1, m2, m3, m4⟩ := ihmem c hc
          rw [hval]
          omega
        · exact ihpair

/-- C3: the solver's layer-by-layer BFS from the entrance `(startx, 0)`
stores in every reached cell its exact shortest-path distance from the
entrance plus one (the entrance is seeded with depth 1, one full frontier
is processed per step, a neighbour counts only through a removed wall and
only while unvisited), the frontier after `k` expansions holds exactly
the cells at distance `k`, and when the exit cell holds depth `d ≠ 0`
the backtraced path starts at the exit, has length exactly `d`, steps
only between cells joined by a removed wall, and repeats no cell. -/
theorem solver_bfs_exact_and_backtrace {W H k startx finishx d : ℕ}
    {walls : List (Option Wall)} (hsx : startx < W) (hfx : finishx < W)
    (hH : 0 < H)
    (hreach : gridGet
      (solStepN W H walls k (initSolution W H startx)).state (H - 1)
      finishx = d)
    (hd : 0 < d) :
    (∀ x y j, x < W → y < H → j ≤ k →
      (SolDistIs W H walls (startx, 0) (x, y) j ↔
        gridGet (solStepN W H walls k (initSolution W H startx)).state
          y x = j + 1)) ∧
    (∀ t, t ∈ (solStepN W H walls k (initSolution W H startx)).level ↔
      SolDistIs W H walls (startx, 0) t k) ∧
    SolDistIs W H walls (startx, 0) (finishx, H - 1) (d - 1) ∧
    (backtrace W H walls
      (solStepN W H walls k (initSolution W H startx)).state (d - 1)
      finishx (H - 1)).length = d ∧
    (backtrace W H walls
      (solStepN W H walls k (initSolution W H startx)).state (d - 1)
      finishx (H - 1)).head? = some (finishx, H - 1) ∧
    List.Chain' (StepTo W H walls)
      (backtrace W H walls
        (solStepN W H walls k (initSolution W H startx)).state (d - 1)
        finishx (H - 1)) ∧
    (backtrace W H walls
      (solStepN W H walls k (initSolution W H startx)).state (d - 1)
      finishx (H - 1)).Nodup := by
  have hB := @BInv_run W H startx k walls hsx hH
  have hHy : H - 1 < H := by omega
  obtain ⟨hlen, hhead, hchain, hmem, hpair⟩ :=
    backtrace_spec ⟨hsx, hH⟩ hB d (d - 1) finishx (H - 1) hfx hHy hreach
      hd (by omega)
  refine ⟨?_, hB.level_iff, (BInv_val_dist hB hfx hHy hreach hd).1,
    hlen, hhead, hchain, ?_⟩
  · intro x y j hx hy hj
    constructor
    · intro hdj
      exact hB.exact1 x y j hx hy hj hdj
    · intro hval
      obtain ⟨hdd, _⟩ := BInv_val_dist hB hx hy hval (by omega)
      simpa using hdd
  · exact hpair.imp (fun hlt heq => by
      rw [heq] at hlt
      exact lt_irrefl _ hlt)

/-- A solved 1×2 maze: the single interior wall, the vertical wall of
cell (0,0), is removed. -/
def solWalls : List (Option Wall) :=
  [none, some ⟨0, 0, false, 0, true⟩, none, none]

theorem solver_bfs_exact_and_backtrace_witness :
    (0 < 1 ∧ 0 < 2 ∧
      gridGet (solStepN 1 2 solWalls 1 (initSolution 1 2 0)).state
        (2 - 1) 0 = 2) ∧
    ((∀ x y j, x < 1 → y < 2 → j ≤ 1 →
      (SolDistIs 1 2 solWalls (0, 0) (x, y) j ↔
        gridGet (solStepN 1 2 solWalls 1 (initSolution 1 2 0)).state
          y x = j + 1)) ∧
    (∀ t, t ∈ (solStepN 1 2 solWalls 1 (initSolution 1 2 0)).level ↔
      SolDistIs 1 2 solWalls (0, 0) t 1) ∧
    SolDistIs 1 2 solWalls (0, 0) (0, 2 - 1) (2 - 1) ∧
    (backtrace 1 2 solWalls
      (solStepN 1 2 solWalls 1 (initSolution 1 2 0)).state (2 - 1) 0
      (2 - 1)).length = 2 ∧
    (backtrace 1 2 solWalls
      (solStepN 1 2 solWalls 1 (initSolution 1 2 0)).state (2 - 1) 0
      (2 - 1)).head? = some (0, 2 - 1) ∧
    List.Chain' (StepTo 1 2 solWalls)
      (backtrace 1 2 solWalls
        (solStepN 1 2 solWalls 1 (initSolution 1 2 0)).state (2 - 1) 0
        (2 - 1)) ∧
    (backtrace 1 2 solWalls
      (solStepN 1 2 solWalls 1 (initSolution 1 2 0)).state (2 - 1) 0
      (2 - 1)).Nodup) :=
  ⟨⟨by decide, by decide, by decide⟩,
    solver_bfs_exact_and_backtrace (by decide) (by decide) (by decide)
      (by decide) (by decide)⟩

end MazeNEA
